import Mathlib

/-!
# Quantized kernels of the SHARC-FX neural-network library

A shallow embedding of `adi_sharcfx_fully_connected.cpp` and
`adi_sharcfx_elementwise_ops.cpp`.

Conventions of the embedding.

* A buffer is a function from element index to the integer stored there (`Mem`).  A kernel
  that reads past the declared end of a buffer simply reads the cell that is there.
* A vector register is a function from lane index to lane value (`Vec`); a register of
  `2*PDX_M` lanes only uses lanes `0..15`.
* All kernels except `transform_matrices` store through a pointer that only advances, so the
  output of a kernel is the list of stored elements: element `k` of the list is the value
  stored at output index `k`, and the length of the list is the number of elements written.
* Fixed-width C and register types are modelled by `Int` with an explicit wrap at the width
  that the type carries in its name (`int8_t`, `int16_t`, `int32_t`, `xb_int32`,
  `xb_vec2Mx16`, `xb_vecMx32`).  Shapes are natural numbers.
* The vector intrinsics come from a header outside the source tree; each one is modelled
  from the specification and the comment at its call site, and says so.
-/

namespace SharcFX

/-! ## Machine integers -/

/-- Value of `(int8_t)x`: the low 8 bits of `x` read as a signed number. -/
def wrap8 (x : Int) : Int := (x + 128) % 256 - 128

/-- Value of `(int16_t)x`, also the content of one lane of an `xb_vec2Mx16` register. -/
def wrap16 (x : Int) : Int := (x + 32768) % 65536 - 32768

/-- Value of `(int32_t)x`, also the content of an `xb_int32` or of one `xb_vecMx32` lane. -/
def wrap32 (x : Int) : Int := (x + 2147483648) % 4294967296 - 2147483648

def INT32_MAX : Int := 2147483647

def INT32_MIN : Int := -2147483648

def INT80_MAX : Int := 604462909807314587353087

def INT80_MIN : Int := -604462909807314587353088

/-- Modelled from the spec: the `MIN` macro of the missing header `adi_sharcfx_nn.h`, and the
lane-wise `PDX_MIN_MX32`; the smaller of two signed values. -/
def MIN (a b : Int) : Int := if a < b then a else b

/-- Modelled from the spec: the `MAX` macro of the missing header `adi_sharcfx_nn.h`, and the
lane-wise `PDX_MAX_MX32`; the larger of two signed values. -/
def MAX (a b : Int) : Int := if a < b then b else a

/-- Modelled from the spec: the lane-count constant `PDX_M` of the missing vector header.  The
kernels test `n % 16` against steps of `2*PDX_M` and call a `PDX_M`-lane store "8-way". -/
def PDX_M : Nat := 8

/-- A buffer seen from its base pointer. -/
abbrev Mem := Nat → Int

/-- A vector register. -/
abbrev Vec := Nat → Int

/-! ## Loops -/

/-- The loop `while (cond s) s = body s`, cut off after `fuel` iterations. -/
def whileLoop {σ : Type} (cond : σ → Bool) (body : σ → σ) : Nat → σ → σ
  | 0, s => s
  | fuel + 1, s => if cond s then whileLoop cond body fuel (body s) else s

/-- The loop `for (i = start; cond i; i = next i) s = body i s`, cut off after `fuel`
iterations. -/
def forLoop {ι σ : Type} (cond : ι → Bool) (next : ι → ι) (body : ι → σ → σ)
    (fuel : Nat) (start : ι) (s : σ) : σ :=
  (whileLoop (fun p : ι × σ => cond p.1) (fun p => (next p.1, body p.1 p.2))
    fuel (start, s)).2

/-! ## Requantization (spec §4.1) -/

/-- Saturation of a wide value to the signed 80-bit range of an `xb_int80`. -/
def sat80 (x : Int) : Int := MAX INT80_MIN (MIN x INT80_MAX)

/-- Saturation of a wide value to the signed 32-bit range. -/
def sat32 (x : Int) : Int := MAX INT32_MIN (MIN x INT32_MAX)

/-- An `xb_int80` after the shift step: the register value together with the number of its
low-order bits that lie below the 32-bit window taken by the pack step. -/
structure Wide80 where
  val : Int
  frac : Nat

/-- Modelled from the spec: `PDX_MULW_32` and the `xb_vecMx32 * xb_vecMx32` product into an
80-bit register, intrinsics of the missing vector header.  Spec §4.1 step 1: the full product,
held without overflow. -/
def PDX_MULW_32 (a b : Int) : Int := a * b

/-- Modelled from the spec: `PDX_SLA_80` and `PDX_SLS_MX80`, intrinsics of the missing vector
header ("saturating left shift, right shift if negative").  Spec §4.1 step 2: a shift
`≥ 0` moves the value left with saturation; a shift `< 0` moves it right by `-shift` bits,
the bits moved out being kept for the rounding of the pack step. -/
def PDX_SLA_80 (product : Int) (shift : Int) : Wide80 :=
  if 0 ≤ shift then ⟨sat80 (product * 2 ^ shift.toNat), 0⟩
  else ⟨product, (-shift).toNat⟩

/-- Division of `p` by `2^k` rounded to nearest, ties away from zero. -/
def roundShift (p : Int) (k : Nat) : Int :=
  if 0 ≤ p then (p + 2 ^ k / 2) / 2 ^ k else -((-p + 2 ^ k / 2) / 2 ^ k)

/-- Modelled from the spec: `PDX_PACKQSRV_80` and `PDX_PACKQSRV_MX80`, intrinsics of the
missing vector header ("packs 80bit product into 32bit var with saturation and rounding").
Spec §4.1 steps 2 and 3: round to nearest with ties away from zero, then saturate to 32
bits.  The spec knows one rounding mode, used at every call site, so the immediate
`round_mode` is carried and not inspected. -/
def PDX_PACKQSRV_80 (x : Wide80) (_round_mode : Nat) : Int :=
  sat32 (roundShift x.val x.frac)

/-- Modelled from the spec: the constant `ROUNDING_MODE` of the missing header; the spec has
the single rounding mode that the other kernels write as the literal `2`. -/
def ROUNDING_MODE : Nat := 2

/-- The scalar requantization of the fully-connected kernels
(`adi_sharcfx_fully_connected.cpp` lines 105–112, 150–157, 244–251, 288–295), from the 40-bit
sum to the clamped `xb_int32`. -/
def requantize (sat_sum : Int) (nQuantizedMultiplier : Nat)
    (nQuantizedShift nOutputOffset output_activation_min output_activation_max : Int) : Int :=
  let temp := wrap32 sat_sum
  let product := PDX_MULW_32 temp (nQuantizedMultiplier : Int)
  let product := PDX_SLA_80 product nQuantizedShift
  let temp := PDX_PACKQSRV_80 product 2
  let temp := wrap32 (temp + nOutputOffset)
  let temp := MIN temp output_activation_max
  MAX temp output_activation_min

/-- One lane of the vector requantization up to the zero-point addition
(`quant_acc = multiplier * first8; PDX_SLS_MX80; PDX_PACKQSRV_MX80; conv_out += vOutOff`).
`multiplier` is the lane of the `xb_vecMx32` register built from the `uint32_t` argument. -/
def requantLane (x : Int) (multiplier shift vOutOff : Int) (round_mode : Nat) : Int :=
  let quant_acc := PDX_MULW_32 multiplier x
  let quant_acc := PDX_SLA_80 quant_acc shift
  let conv_out := PDX_PACKQSRV_80 quant_acc round_mode
  wrap32 (conv_out + vOutOff)

/-- Clamp of the first eight lanes of a group: `PDX_MIN_MX32` with `vmax`, then
`PDX_MAX_MX32` with `vmin`. -/
def clampMinMax (x vmin vmax : Int) : Int := MAX (MIN x vmax) vmin

/-- Clamp of the last eight lanes of a full group: `PDX_MAX_MX32` with `vmin`, then
`PDX_MIN_MX32` with `vmax`. -/
def clampMaxMin (x vmin vmax : Int) : Int := MIN (MAX x vmin) vmax

/-! ### The requantization formula in the words of the spec -/

/-- Spec §4.1 step 5: `clamp(x, min, max)`. -/
def clamp (x lo hi : Int) : Int := max lo (min x hi)

/-- Spec §4.1 step 3: `saturateToInt32`. -/
def saturateToInt32 (x : Int) : Int := clamp x INT32_MIN INT32_MAX

/-- The integer `r` is `p / 2^k` rounded to nearest with ties away from zero: `r * 2^k` is
within half a unit of `p`, and it is exactly half a unit above only for `p ≥ 0` and exactly
half a unit below only for `p < 0`. -/
def IsRoundHalfAway (p : Int) (k : Nat) (r : Int) : Prop :=
  -(2 ^ k : Int) ≤ 2 * (r * 2 ^ k - p) ∧ 2 * (r * 2 ^ k - p) ≤ 2 ^ k ∧
  (2 * (r * 2 ^ k - p) = 2 ^ k → 0 ≤ p) ∧ (2 * (r * 2 ^ k - p) = -(2 ^ k : Int) → p < 0)

/-! ## Vector intrinsics -/

/-- Modelled from the spec: the aligning vector loads `PDX_LA_2MX16_XP`, `PDX_LA16_2MX8_XP`
and `PDX_LA_MX32_XP` of the missing vector header.  Lane `l` receives the element at index
`p + l` of the buffer (sign-extended where the lane is wider than the element).  The
post-increment of the pointer, given in bytes at the call site, is applied by the caller. -/
def loadVec (buf : Mem) (p : Nat) : Vec := fun l => buf (p + l)

/-- The lane-wise `v += vZP` on `xb_vec2Mx16` registers: a 16-bit addition in every lane. -/
def addZP (v : Vec) (vZP : Int) : Vec := fun l => wrap16 (v l + vZP)

/-- Modelled from the spec: `PDX_MULAQW_2MX16`, an intrinsic of the missing vector header;
every lane of the wide accumulator receives the product of the two 16-bit lanes.  Following
spec §3 the 40-bit lanes are wide enough, so the accumulation is exact. -/
def PDX_MULAQW_2MX16 (acc v1 v2 : Vec) : Vec := fun l => acc l + v1 l * v2 l

/-- Modelled from the spec: `PDX_MULAQW_2MX16_T`, the predicated form of `PDX_MULAQW_2MX16`;
lane `l` accumulates only when bit `l` of the mask is set. -/
def PDX_MULAQW_2MX16_T (acc v1 v2 : Vec) (acc_mask : Nat) : Vec :=
  fun l => if acc_mask.testBit l then acc l + v1 l * v2 l else acc l

/-- Modelled from the spec: `PDX_RADD_2MX40`, "adds across all 16 lanes of acc and returns
sum". -/
def PDX_RADD_2MX40 (acc : Vec) : Int := ((List.range (2 * PDX_M)).map acc).sum

/-- Modelled from the spec: the low output `first8` of `PDX_CVT32D_2MX40`, lanes `0..7` of the
40-bit register converted to 32 bits. -/
def cvt32First8 (acc : Vec) : Vec := fun l => wrap32 (acc l)

/-- Modelled from the spec: the high output `last8` of `PDX_CVT32D_2MX40`, lanes `8..15` of
the 40-bit register converted to 32 bits. -/
def cvt32Last8 (acc : Vec) : Vec := fun l => wrap32 (acc (PDX_M + l))

/-- Modelled from the spec: `PDX_ADDW_2MX16`, the widening lane-wise addition of the missing
vector header (spec §4.2: `sum = widen(a) + widen(b)`). -/
def PDX_ADDW_2MX16 (v1 v2 : Vec) : Vec := fun l => v1 l + v2 l

/-- Modelled from the spec: `PDX_SLS_MX32(v, 1)`, the saturating left shift by one bit of a
32-bit lane. -/
def PDX_SLS_MX32_1 (v : Vec) : Vec := fun l => sat32 (v l * 2)

/-- Modelled from the spec: `PDX_SAV32_MX8_XP` followed by the flush `PDX_SAPOS_MX8_FP`, the
variable-length store of 32-bit lanes as 8-bit elements.  `bytes` bytes are stored, at most
the `PDX_M` lanes of the register, each lane narrowed by truncation (spec §4.1 step 6), and
the pointer advances past them: the result is the list of stored elements. -/
def PDX_SAV32_MX8 (v : Vec) (bytes : Int) : List Int :=
  (List.range (min bytes.toNat PDX_M)).map (fun l => wrap8 (v l))

/-- Modelled from the spec: `PDX_SAV32_MX16_XP` followed by the flush `PDX_SAPOS_MX16_FP`, the
variable-length store of 32-bit lanes as 16-bit elements; `bytes / sizeof(int16_t)` elements
are stored, at most `PDX_M`. -/
def PDX_SAV32_MX16 (v : Vec) (bytes : Int) : List Int :=
  (List.range (min (bytes.toNat / 2) PDX_M)).map (fun l => wrap16 (v l))

/-! ## Fully-connected kernels, Strategy A -/

/-- The registers that the reduction loop of Strategy A carries: the wide accumulator and
the two read pointers (as element indices into the input and the weight buffer). -/
structure MacState where
  acc : Vec
  inp : Nat
  wtp : Nat

/-- One full 16-lane step of the reduction loop: load a group of inputs and of weights, advance
both pointers by a group, add the zero points, multiply and accumulate. -/
def macStep (pInputBuffer pWeightsBuffer : Mem) (vInZP vFilterZP : Int) (s : MacState) :
    MacState :=
  let vin := loadVec pInputBuffer s.inp
  let vwt := loadVec pWeightsBuffer s.wtp
  let vin := addZP vin vInZP
  let vwt := addZP vwt vFilterZP
  { acc := PDX_MULAQW_2MX16 s.acc vwt vin, inp := s.inp + 2 * PDX_M, wtp := s.wtp + 2 * PDX_M }

/-- The masked step at the end of a row: a group is loaded at the current pointers and only
the lanes selected by `(1 << (nFilterDepth % 16)) - 1` are accumulated. -/
def macTail (pInputBuffer pWeightsBuffer : Mem) (vInZP vFilterZP : Int) (nFilterDepth : Nat)
    (s : MacState) : Vec :=
  let vin := loadVec pInputBuffer s.inp
  let vwt := loadVec pWeightsBuffer s.wtp
  let vin := addZP vin vInZP
  let vwt := addZP vwt vFilterZP
  let acc_mask := (1 <<< (nFilterDepth % 16)) - 1
  PDX_MULAQW_2MX16_T s.acc vwt vin acc_mask

/-- The statement `if (pBiasBuffer) sat_sum += (xb_int40)(pBiasBuffer[nChannelCnt] << 1)`.
The shift and the conversion can only drop bits above bit 31, which the cast to `int32_t`
that follows drops as well. -/
def addBias (sat_sum : Int) (pBiasBuffer : Option Mem) (nChannelCnt : Nat) : Int :=
  match pBiasBuffer with
  | some bias => sat_sum + bias nChannelCnt * 2
  | none => sat_sum

/-- The 40-bit sum that `adi_sharcfx_fully_connected_int16` forms for batch `b` and channel
`nChannelCnt`, bias included (lines 67–104 and 123–149). -/
def fc_int16_sum (pInputBuffer pWeightsBuffer : Mem) (pBiasBuffer : Option Mem)
    (nFilterDepth : Nat) (nInputOffset nFilterOffset : Int) (b nChannelCnt : Nat) : Int :=
  let vInZP := wrap16 nInputOffset
  let vFilterZP := wrap16 nFilterOffset
  let s0 : MacState :=
    { acc := fun _ => 0, inp := b * nFilterDepth, wtp := nFilterDepth * nChannelCnt }
  if nFilterDepth % 16 ≠ 0 then
    let s := forLoop
      (fun nPixProcessed : Int => decide ((nFilterDepth : Int) - nPixProcessed > 2 * PDX_M))
      (· + 2 * PDX_M) (fun _ s => macStep pInputBuffer pWeightsBuffer vInZP vFilterZP s)
      (nFilterDepth + 1) 0 s0
    let acc := macTail pInputBuffer pWeightsBuffer vInZP vFilterZP nFilterDepth s
    addBias (PDX_RADD_2MX40 acc) pBiasBuffer nChannelCnt
  else
    let s := forLoop (fun nFilterCnt : Int => decide (nFilterCnt ≤ (nFilterDepth : Int)))
      (· + 2 * PDX_M) (fun _ s => macStep pInputBuffer pWeightsBuffer vInZP vFilterZP s)
      (nFilterDepth + 1) 0 s0
    addBias (PDX_RADD_2MX40 s.acc) pBiasBuffer nChannelCnt

/-- The kernel `adi_sharcfx_fully_connected_int16`: for every batch and every channel one
16-bit element is stored through `*outp++`. -/
def adi_sharcfx_fully_connected_int16 (pInputBuffer pWeightsBuffer : Mem)
    (pBiasBuffer : Option Mem) (nFilterDepth nOutsize nBatches : Nat)
    (nQuantizedMultiplier : Nat) (nQuantizedShift nInputOffset nFilterOffset nOutputOffset
      output_activation_min output_activation_max : Int) : List Int :=
  (List.range nBatches).foldl (fun outp b =>
    (List.range nOutsize).foldl (fun outp nChannelCnt =>
      let sat_sum := fc_int16_sum pInputBuffer pWeightsBuffer pBiasBuffer nFilterDepth
        nInputOffset nFilterOffset b nChannelCnt
      let temp := requantize sat_sum nQuantizedMultiplier nQuantizedShift nOutputOffset
        output_activation_min output_activation_max
      outp ++ [wrap16 temp]) outp) []

/-- The bound `nFilterDepth_16mul` of the full-group loop of
`adi_sharcfx_fully_connected_int8` (line 201):
`nFilterDepth - ((nFilterDepth % 16) * nFilterDepth)`. -/
def nFilterDepth_16mul (nFilterDepth : Nat) : Int :=
  (nFilterDepth : Int) - ((nFilterDepth : Int) % 16) * nFilterDepth

/-- The 40-bit sum that `adi_sharcfx_fully_connected_int8` forms for batch `b` and channel
`nChannelCnt`, bias included (lines 201–243 and 261–287). -/
def fc_int8_sum (pInputBuffer pWeightsBuffer : Mem) (pBiasBuffer : Option Mem)
    (nFilterDepth : Nat) (nInputOffset nFilterOffset : Int) (b nChannelCnt : Nat) : Int :=
  let vInZP := wrap16 nInputOffset
  let vFilterZP := wrap16 nFilterOffset
  let s0 : MacState :=
    { acc := fun _ => 0, inp := b * nFilterDepth, wtp := nFilterDepth * nChannelCnt }
  if nFilterDepth % 16 ≠ 0 then
    let nFilterDepth_16mul : Int :=
      (nFilterDepth : Int) - ((nFilterDepth : Int) % 16) * nFilterDepth
    let s := forLoop (fun nPixProcessed : Int => decide (nPixProcessed < nFilterDepth_16mul))
      (· + 2 * PDX_M) (fun _ s => macStep pInputBuffer pWeightsBuffer vInZP vFilterZP s)
      (nFilterDepth + 1) 0 s0
    let acc := macTail pInputBuffer pWeightsBuffer vInZP vFilterZP nFilterDepth s
    addBias (PDX_RADD_2MX40 acc) pBiasBuffer nChannelCnt
  else
    let s := forLoop (fun nFilterCnt : Int => decide (nFilterCnt < (nFilterDepth : Int)))
      (· + 2 * PDX_M) (fun _ s => macStep pInputBuffer pWeightsBuffer vInZP vFilterZP s)
      (nFilterDepth + 1) 0 s0
    addBias (PDX_RADD_2MX40 s.acc) pBiasBuffer nChannelCnt

/-- The kernel `adi_sharcfx_fully_connected_int8` (Strategy A): for every batch and every
channel one 8-bit element is stored through `*outp++`. -/
def adi_sharcfx_fully_connected_int8 (pInputBuffer pWeightsBuffer : Mem)
    (pBiasBuffer : Option Mem) (nFilterDepth nOutsize nBatches : Nat)
    (nQuantizedMultiplier : Nat) (nQuantizedShift nInputOffset nFilterOffset nOutputOffset
      output_activation_min output_activation_max : Int) : List Int :=
  (List.range nBatches).foldl (fun outp b =>
    (List.range nOutsize).foldl (fun outp nChannelCnt =>
      let sat_sum := fc_int8_sum pInputBuffer pWeightsBuffer pBiasBuffer nFilterDepth
        nInputOffset nFilterOffset b nChannelCnt
      let temp := requantize sat_sum nQuantizedMultiplier nQuantizedShift nOutputOffset
        output_activation_min output_activation_max
      outp ++ [wrap8 temp]) outp) []

/-! ## Blocked transpose -/

/-- The utility `transform_matrices`: `outputMat` is the content of the destination before
the call, the result its content after the call. -/
def transform_matrices (inputMat : Mem) (M N : Nat) (outputMat : Mem) : Mem :=
  let block := 4
  forLoop (fun i : Nat => decide (i < M)) (· + block) (fun i outputMat =>
    (List.range N).foldl (fun outputMat j =>
      forLoop (fun b : Nat => decide (b < block) && decide (i + b < M)) (· + 1)
        (fun b outputMat => Function.update outputMat (j * M + i + b) (inputMat ((i + b) * N + j)))
        block 0 outputMat) outputMat) M 0 outputMat

/-- The loop nest of `transform_matrices` with its local variable `block` as a parameter;
the source sets `size_t block = 4`. -/
def transform_matrices_block (block : Nat) (inputMat : Mem) (M N : Nat) (outputMat : Mem) :
    Mem :=
  forLoop (fun i : Nat => decide (i < M)) (· + block) (fun i outputMat =>
    (List.range N).foldl (fun outputMat j =>
      forLoop (fun b : Nat => decide (b < block) && decide (i + b < M)) (· + 1)
        (fun b outputMat => Function.update outputMat (j * M + i + b) (inputMat ((i + b) * N + j)))
        block 0 outputMat) outputMat) M 0 outputMat

/-- The destination indices that the loop nest of `transform_matrices` writes, in the order
of the writes. -/
def transform_matrices_writes (M N : Nat) : List Nat :=
  let block := 4
  forLoop (fun i : Nat => decide (i < M)) (· + block) (fun i ws =>
    (List.range N).foldl (fun ws j =>
      forLoop (fun b : Nat => decide (b < block) && decide (i + b < M)) (· + 1)
        (fun b ws => ws ++ [j * M + i + b]) block 0 ws) ws) M 0 []

/-! ## Fully-connected kernel, Strategy B -/

/-- The reduction loop of Strategy B over `filterD < nFilterDepth` for one block of sixteen
output channels: one input element is replicated over all lanes, a group of transposed
weights is loaded and the weight pointer advances by `nOutsize` bytes. -/
def fcNewBlockAcc (pInputBuffer pTemp : Mem) (nFilterDepth nOutsize : Nat)
    (vInZP vFilterZP : Int) (inp wtp : Nat) : Vec :=
  ((List.range nFilterDepth).foldl (fun (s : MacState) _ =>
    let vin : Vec := fun _ => pInputBuffer s.inp
    let vwt := loadVec pTemp s.wtp
    let vin := addZP vin vInZP
    let vwt := addZP vwt vFilterZP
    { acc := PDX_MULAQW_2MX16 s.acc vwt vin, inp := s.inp + 1, wtp := s.wtp + nOutsize })
    { acc := fun _ => 0, inp := inp, wtp := wtp }).acc

/-- The two bias registers of a block: `vbias_l` is loaded at `pBiasBuffer + p`, the pointer
to 32-bit elements is post-incremented by `PDX_M` bytes, `vbias_h` is loaded there, and both
are doubled by a saturating shift. -/
def loadBias (pBiasBuffer : Mem) (p : Nat) : Vec × Vec :=
  let biasp := p
  let vbias_l := loadVec pBiasBuffer biasp
  let biasp := biasp + PDX_M / 4
  let vbias_h := loadVec pBiasBuffer biasp
  (PDX_SLS_MX32_1 vbias_l, PDX_SLS_MX32_1 vbias_h)

/-- The statements `if (pBiasBuffer) first8 += vbias_l` and `if (pBiasBuffer) last8 +=
vbias_h`: a 32-bit addition in every lane. -/
def addBiasLanes (v : Vec) (vbias : Option Vec) : Vec :=
  match vbias with
  | some vb => fun l => wrap32 (v l + vb l)
  | none => v

/-- The variables of `adi_sharcfx_fully_connected_int8_new` that live across blocks and
batches, and the elements stored so far. -/
structure FcNewState where
  nPixLeft : Int
  nPixProcessed : Nat
  outp : List Int

/-- One iteration of the main loop over `outP` (lines 377–444): sixteen channels are
accumulated, requantized and stored. -/
def fcNewFullBlock (pInputBuffer pTemp : Mem) (pBiasBuffer : Option Mem)
    (nFilterDepth nOutsize : Nat) (nQuantizedMultiplier : Nat)
    (nQuantizedShift nInputOffset nFilterOffset nOutputOffset
      output_activation_min output_activation_max : Int) (b outP : Nat) (st : FcNewState) :
    FcNewState :=
  let vInZP := wrap16 nInputOffset
  let vFilterZP := wrap16 nFilterOffset
  let mult := wrap32 nQuantizedMultiplier
  let vbias := pBiasBuffer.map (fun bias => loadBias bias outP)
  let acc := fcNewBlockAcc pInputBuffer pTemp nFilterDepth nOutsize vInZP vFilterZP
    (b * nFilterDepth + outP) outP
  let first8 := addBiasLanes (cvt32First8 acc) (vbias.map Prod.fst)
  let last8 := addBiasLanes (cvt32Last8 acc) (vbias.map Prod.snd)
  let fc_out : Vec := fun l => clampMinMax
    (requantLane (first8 l) mult nQuantizedShift nOutputOffset ROUNDING_MODE)
    output_activation_min output_activation_max
  let fc_out2 : Vec := fun l => clampMaxMin
    (requantLane (last8 l) mult nQuantizedShift nOutputOffset ROUNDING_MODE)
    output_activation_min output_activation_max
  { nPixLeft := st.nPixLeft - 2 * PDX_M
    nPixProcessed := st.nPixProcessed + 2 * PDX_M
    outp := st.outp ++ PDX_SAV32_MX8 fc_out PDX_M ++ PDX_SAV32_MX8 fc_out2 PDX_M }

/-- The block after the main loop (lines 447–530), entered when `nPixLeft > 0`: the channels
from `nPixProcessed` on are accumulated and `nPixLeft` of them are stored, at most eight
from each half. -/
def fcNewTailBlock (pInputBuffer pTemp : Mem) (pBiasBuffer : Option Mem)
    (nFilterDepth nOutsize : Nat) (nQuantizedMultiplier : Nat)
    (nQuantizedShift nInputOffset nFilterOffset nOutputOffset
      output_activation_min output_activation_max : Int) (b : Nat) (st : FcNewState) :
    FcNewState :=
  let vInZP := wrap16 nInputOffset
  let vFilterZP := wrap16 nFilterOffset
  let mult := wrap32 nQuantizedMultiplier
  let acc := fcNewBlockAcc pInputBuffer pTemp nFilterDepth nOutsize vInZP vFilterZP
    (b * nFilterDepth + st.nPixProcessed) st.nPixProcessed
  let vbias := pBiasBuffer.map (fun bias => loadBias bias st.nPixProcessed)
  let first8 := addBiasLanes (cvt32First8 acc) (vbias.map Prod.fst)
  let fc_out : Vec := fun l => clampMinMax
    (requantLane (first8 l) mult nQuantizedShift nOutputOffset ROUNDING_MODE)
    output_activation_min output_activation_max
  let nPixToWrite := MIN st.nPixLeft PDX_M
  let outp := st.outp ++ PDX_SAV32_MX8 fc_out nPixToWrite
  let nPixLeft := st.nPixLeft - nPixToWrite
  if nPixLeft > 0 then
    let last8 := addBiasLanes (cvt32Last8 acc) (vbias.map Prod.snd)
    let fc_out2 : Vec := fun l => clampMinMax
      (requantLane (last8 l) mult nQuantizedShift nOutputOffset ROUNDING_MODE)
      output_activation_min output_activation_max
    let nPixToWrite := MIN nPixLeft PDX_M
    { nPixLeft := nPixLeft - nPixToWrite, nPixProcessed := st.nPixProcessed
      outp := outp ++ PDX_SAV32_MX8 fc_out2 nPixToWrite }
  else
    { nPixLeft := nPixLeft, nPixProcessed := st.nPixProcessed, outp := outp }

/-- The kernel `adi_sharcfx_fully_connected_int8_new` (Strategy B).  `pTemp` is the content
of the scratch buffer `pTemp` before the call; the kernel overwrites it with the transposed
weights and reads the weights from it. -/
def adi_sharcfx_fully_connected_int8_new (pInputBuffer pWeightsBuffer : Mem)
    (pBiasBuffer : Option Mem) (nFilterDepth nOutsize nBatches : Nat)
    (nQuantizedMultiplier : Nat) (nQuantizedShift nInputOffset nFilterOffset nOutputOffset
      output_activation_min output_activation_max : Int) (pTemp : Mem) : List Int :=
  let pTemp := transform_matrices pWeightsBuffer nOutsize nFilterDepth pTemp
  ((List.range nBatches).foldl (fun (st : FcNewState) b =>
    let st : FcNewState := { st with nPixLeft := (nOutsize : Int) }
    let st : FcNewState :=
      if st.nPixLeft > 2 * PDX_M then
        forLoop (fun outP : Nat => decide (outP < nOutsize)) (· + 2 * PDX_M)
          (fun outP st => fcNewFullBlock pInputBuffer pTemp pBiasBuffer nFilterDepth nOutsize
            nQuantizedMultiplier nQuantizedShift nInputOffset nFilterOffset nOutputOffset
            output_activation_min output_activation_max b outP st)
          nOutsize 0 st
      else st
    if st.nPixLeft > 0 then
      fcNewTailBlock pInputBuffer pTemp pBiasBuffer nFilterDepth nOutsize
        nQuantizedMultiplier nQuantizedShift nInputOffset nFilterOffset nOutputOffset
        output_activation_min output_activation_max b st
    else st)
    { nPixLeft := (nOutsize : Int), nPixProcessed := 0, outp := [] }).outp

/-! ## Elementwise multiplication -/

/-- The variables that the multiply and add kernels carry from group to group: the two read
pointers, the count of elements left, and the elements stored so far. -/
structure EltState where
  inp1 : Nat
  inp2 : Nat
  nPixLeft : Int
  outp : List Int

/-- The 32-bit lanes `(first8, last8)` of one group of the multiply kernels: both operands
are loaded, the input offsets are added, the lanes are multiplied into a cleared accumulator
and converted to 32 bits. -/
def mulGroup (pInput1 pInput2 : Mem) (vInOff1 vInOff2 : Int) (inp1 inp2 : Nat) : Vec × Vec :=
  let vin1 := loadVec pInput1 inp1
  let vin2 := loadVec pInput2 inp2
  let vin1 := addZP vin1 vInOff1
  let vin2 := addZP vin2 vInOff2
  let acc := PDX_MULAQW_2MX16 (fun _ => 0) vin1 vin2
  (cvt32First8 acc, cvt32Last8 acc)

/-- One full group of `adi_sharcfx_elementwise_mul_int8` (lines 96–133, and again lines
185–222): sixteen products are requantized, the first eight lanes clamped with `MIN` then
`MAX`, the last eight with `MAX` then `MIN`, and sixteen 8-bit elements are stored. -/
def mulInt8FullGroup (pInput1 pInput2 : Mem) (nQuantizedMultiplier : Nat)
    (nQuantizedShift nInOffset1 nInOffset2 nOutOffset
      output_activation_min output_activation_max : Int) (s : EltState) : EltState :=
  let round_mode := 2
  let vInOff1 := wrap16 nInOffset1
  let vInOff2 := wrap16 nInOffset2
  let multiplier := wrap32 nQuantizedMultiplier
  let (first8, last8) := mulGroup pInput1 pInput2 vInOff1 vInOff2 s.inp1 s.inp2
  let conv_out : Vec := fun l => clampMinMax
    (requantLane (first8 l) multiplier nQuantizedShift nOutOffset round_mode)
    output_activation_min output_activation_max
  let conv_out2 : Vec := fun l => clampMaxMin
    (requantLane (last8 l) multiplier nQuantizedShift nOutOffset round_mode)
    output_activation_min output_activation_max
  { inp1 := s.inp1 + 2 * PDX_M, inp2 := s.inp2 + 2 * PDX_M, nPixLeft := s.nPixLeft - 2 * PDX_M
    outp := s.outp ++ PDX_SAV32_MX8 conv_out PDX_M ++ PDX_SAV32_MX8 conv_out2 PDX_M }

/-- The partial group of `adi_sharcfx_elementwise_mul_int8` (lines 135–178): a group is
loaded without advancing the pointers, `MIN(nPixLeft, PDX_M)` elements of the first eight
lanes are stored and, when elements are left, as many of the last eight lanes. -/
def mulInt8Tail (pInput1 pInput2 : Mem) (nQuantizedMultiplier : Nat)
    (nQuantizedShift nInOffset1 nInOffset2 nOutOffset
      output_activation_min output_activation_max : Int) (s : EltState) : List Int :=
  let round_mode := 2
  let vInOff1 := wrap16 nInOffset1
  let vInOff2 := wrap16 nInOffset2
  let multiplier := wrap32 nQuantizedMultiplier
  let (first8, last8) := mulGroup pInput1 pInput2 vInOff1 vInOff2 s.inp1 s.inp2
  let conv_out : Vec := fun l => clampMinMax
    (requantLane (first8 l) multiplier nQuantizedShift nOutOffset round_mode)
    output_activation_min output_activation_max
  let nPixToWrite := MIN s.nPixLeft PDX_M
  let outp := s.outp ++ PDX_SAV32_MX8 conv_out nPixToWrite
  let nPixLeft := s.nPixLeft - nPixToWrite
  if nPixLeft > 0 then
    let conv_out : Vec := fun l => clampMinMax
      (requantLane (last8 l) multiplier nQuantizedShift nOutOffset round_mode)
      output_activation_min output_activation_max
    let nPixToWrite := MIN nPixLeft PDX_M
    outp ++ PDX_SAV32_MX8 conv_out nPixToWrite
  else outp

/-- The kernel `adi_sharcfx_elementwise_mul_int8`. -/
def adi_sharcfx_elementwise_mul_int8 (pInput1 pInput2 : Mem) (nInputLen : Nat)
    (nQuantizedMultiplier : Nat) (nQuantizedShift nInOffset1 nInOffset2 nOutOffset
      output_activation_min output_activation_max : Int) : List Int :=
  let s0 : EltState := { inp1 := 0, inp2 := 0, nPixLeft := nInputLen, outp := [] }
  if nInputLen % 16 ≠ 0 then
    let s := whileLoop (fun s : EltState => decide (s.nPixLeft > 2 * PDX_M))
      (mulInt8FullGroup pInput1 pInput2 nQuantizedMultiplier nQuantizedShift nInOffset1
        nInOffset2 nOutOffset output_activation_min output_activation_max)
      (nInputLen + 1) s0
    mulInt8Tail pInput1 pInput2 nQuantizedMultiplier nQuantizedShift nInOffset1
      nInOffset2 nOutOffset output_activation_min output_activation_max s
  else
    (forLoop (fun i : Int => decide (i ≤ (nInputLen : Int))) (· + 2 * PDX_M)
      (fun _ s => mulInt8FullGroup pInput1 pInput2 nQuantizedMultiplier nQuantizedShift
        nInOffset1 nInOffset2 nOutOffset output_activation_min output_activation_max s)
      (nInputLen + 1) 0 s0).outp

/-- One full group of `adi_sharcfx_elementwise_mul_int16` (lines 304–341, and again lines
393–430); as for the 8-bit kernel, with sixteen 16-bit elements stored. -/
def mulInt16FullGroup (pInput1 pInput2 : Mem) (nQuantizedMultiplier : Nat)
    (nQuantizedShift nInOffset1 nInOffset2 nOutOffset
      output_activation_min output_activation_max : Int) (s : EltState) : EltState :=
  let round_mode := 2
  let vInOff1 := wrap16 nInOffset1
  let vInOff2 := wrap16 nInOffset2
  let multiplier := wrap32 nQuantizedMultiplier
  let (first8, last8) := mulGroup pInput1 pInput2 vInOff1 vInOff2 s.inp1 s.inp2
  let conv_out : Vec := fun l => clampMinMax
    (requantLane (first8 l) multiplier nQuantizedShift nOutOffset round_mode)
    output_activation_min output_activation_max
  let conv_out2 : Vec := fun l => clampMaxMin
    (requantLane (last8 l) multiplier nQuantizedShift nOutOffset round_mode)
    output_activation_min output_activation_max
  { inp1 := s.inp1 + 2 * PDX_M, inp2 := s.inp2 + 2 * PDX_M, nPixLeft := s.nPixLeft - 2 * PDX_M
    outp := s.outp ++ PDX_SAV32_MX16 conv_out (PDX_M * 2) ++ PDX_SAV32_MX16 conv_out2 (PDX_M * 2) }

/-- The partial group of `adi_sharcfx_elementwise_mul_int16` (lines 343–386). -/
def mulInt16Tail (pInput1 pInput2 : Mem) (nQuantizedMultiplier : Nat)
    (nQuantizedShift nInOffset1 nInOffset2 nOutOffset
      output_activation_min output_activation_max : Int) (s : EltState) : List Int :=
  let round_mode := 2
  let vInOff1 := wrap16 nInOffset1
  let vInOff2 := wrap16 nInOffset2
  let multiplier := wrap32 nQuantizedMultiplier
  let (first8, last8) := mulGroup pInput1 pInput2 vInOff1 vInOff2 s.inp1 s.inp2
  let conv_out : Vec := fun l => clampMinMax
    (requantLane (first8 l) multiplier nQuantizedShift nOutOffset round_mode)
    output_activation_min output_activation_max
  let nPixToWrite := MIN s.nPixLeft PDX_M
  let outp := s.outp ++ PDX_SAV32_MX16 conv_out (nPixToWrite * 2)
  let nPixLeft := s.nPixLeft - nPixToWrite
  if nPixLeft > 0 then
    let conv_out : Vec := fun l => clampMinMax
      (requantLane (last8 l) multiplier nQuantizedShift nOutOffset round_mode)
      output_activation_min output_activation_max
    let nPixToWrite := MIN nPixLeft PDX_M
    outp ++ PDX_SAV32_MX16 conv_out (nPixToWrite * 2)
  else outp

/-- The kernel `adi_sharcfx_elementwise_mul_int16`. -/
def adi_sharcfx_elementwise_mul_int16 (pInput1 pInput2 : Mem) (nInputLen : Nat)
    (nQuantizedMultiplier : Nat) (nQuantizedShift nInOffset1 nInOffset2 nOutOffset
      output_activation_min output_activation_max : Int) : List Int :=
  let s0 : EltState := { inp1 := 0, inp2 := 0, nPixLeft := nInputLen, outp := [] }
  if nInputLen % 16 ≠ 0 then
    let s := whileLoop (fun s : EltState => decide (s.nPixLeft > 2 * PDX_M))
      (mulInt16FullGroup pInput1 pInput2 nQuantizedMultiplier nQuantizedShift nInOffset1
        nInOffset2 nOutOffset output_activation_min output_activation_max)
      (nInputLen + 1) s0
    mulInt16Tail pInput1 pInput2 nQuantizedMultiplier nQuantizedShift nInOffset1
      nInOffset2 nOutOffset output_activation_min output_activation_max s
  else
    (forLoop (fun i : Int => decide (i ≤ (nInputLen : Int))) (· + 2 * PDX_M)
      (fun _ s => mulInt16FullGroup pInput1 pInput2 nQuantizedMultiplier nQuantizedShift
        nInOffset1 nInOffset2 nOutOffset output_activation_min output_activation_max s)
      (nInputLen + 1) 0 s0).outp

/-! ## Elementwise addition -/

/-- The 32-bit lanes `(first8, last8)` of one group of the add kernel: both operands are
loaded, added with widening and converted to 32 bits. -/
def addGroup (pInput1 pInput2 : Mem) (inp1 inp2 : Nat) : Vec × Vec :=
  let vin1 := loadVec pInput1 inp1
  let vin2 := loadVec pInput2 inp2
  let sum := PDX_ADDW_2MX16 vin1 vin2
  (cvt32First8 sum, cvt32Last8 sum)

/-- One full group of `adi_sharcfx_elementwise_add_int16` (lines 496–512, and again lines
546–561): sixteen sums are clamped with `MIN` then `MAX` and stored as 16-bit elements. -/
def addFullGroup (pInput1 pInput2 : Mem) (kInt16Max kInt16Min : Int) (s : EltState) :
    EltState :=
  let vmin := kInt16Min
  let vmax := kInt16Max
  let (first8, last8) := addGroup pInput1 pInput2 s.inp1 s.inp2
  let first8 : Vec := fun l => clampMinMax (first8 l) vmin vmax
  let last8 : Vec := fun l => clampMinMax (last8 l) vmin vmax
  { inp1 := s.inp1 + 2 * PDX_M, inp2 := s.inp2 + 2 * PDX_M, nPixLeft := s.nPixLeft - 2 * PDX_M
    outp := s.outp ++ PDX_SAV32_MX16 first8 (PDX_M * 2) ++ PDX_SAV32_MX16 last8 (PDX_M * 2) }

/-- The partial group of `adi_sharcfx_elementwise_add_int16` (lines 514–532). -/
def addTail (pInput1 pInput2 : Mem) (kInt16Max kInt16Min : Int) (s : EltState) : List Int :=
  let vmin := kInt16Min
  let vmax := kInt16Max
  let (first8, last8) := addGroup pInput1 pInput2 s.inp1 s.inp2
  let first8 : Vec := fun l => clampMinMax (first8 l) vmin vmax
  let nPixToWrite := MIN PDX_M s.nPixLeft
  let outp := s.outp ++ PDX_SAV32_MX16 first8 (nPixToWrite * 2)
  let nPixLeft := s.nPixLeft - nPixToWrite
  if nPixLeft > 0 then
    let last8 : Vec := fun l => clampMinMax (last8 l) vmin vmax
    outp ++ PDX_SAV32_MX16 last8 (nPixLeft * 2)
  else outp

/-- The kernel `adi_sharcfx_elementwise_add_int16`.  The store pointer is set once, before
the loop over the batches. -/
def adi_sharcfx_elementwise_add_int16 (pInput1 pInput2 : Mem) (nBatches nInputLen : Nat)
    (kInt16Max kInt16Min : Int) : List Int :=
  if nInputLen % 16 ≠ 0 then
    (List.range nBatches).foldl (fun outp batch =>
      let s0 : EltState :=
        { inp1 := batch * nInputLen, inp2 := batch * nInputLen, nPixLeft := nInputLen
          outp := outp }
      let s := whileLoop (fun s : EltState => decide (s.nPixLeft > 2 * PDX_M))
        (addFullGroup pInput1 pInput2 kInt16Max kInt16Min) (nInputLen + 1) s0
      addTail pInput1 pInput2 kInt16Max kInt16Min s) []
  else
    (List.range nBatches).foldl (fun outp batch =>
      let s0 : EltState :=
        { inp1 := batch * nInputLen, inp2 := batch * nInputLen, nPixLeft := nInputLen
          outp := outp }
      (forLoop (fun i : Int => decide (i ≤ (nInputLen : Int))) (· + 2 * PDX_M)
        (fun _ s => addFullGroup pInput1 pInput2 kInt16Max kInt16Min s)
        (nInputLen + 1) 0 s0).outp) []

/-! ## The formulas of the spec -/

/-- Spec §4.1 step 2, `roundingShift(scaled, shift)`: a shift `≥ 0` is a left shift that
saturates at the width of the wide register, a shift `< 0` is a right shift by `-shift` bits
that rounds to nearest with ties away from zero. -/
def roundingShift (scaled shift : Int) : Int :=
  if 0 ≤ shift then clamp (scaled * 2 ^ shift.toNat) INT80_MIN INT80_MAX
  else roundShift scaled (-shift).toNat

/-- Spec §4.1 steps 1 to 5, `Requantize(acc, multiplier, shift, zp, min, max)`, in exact
integer arithmetic; step 6 narrows the result to the width of the output element. -/
def Requantize (acc : Int) (multiplier : Nat) (shift outputZeroPoint lo hi : Int) : Int :=
  let scaled := acc * multiplier
  let shifted := roundingShift scaled shift
  let packed := saturateToInt32 shifted
  let withZero := packed + outputZeroPoint
  clamp withZero lo hi

/-- Spec §4.4, the accumulator of batch `b` and channel `c`:
`Σ_{d < depth} (input[b,d] + inputZeroPoint) * (weight[c,d] + filterZeroPoint)`, plus
`bias[c] * 2` when a bias is given. -/
def fcAcc (input weight : Mem) (bias : Option Mem) (depth : Nat)
    (inputZeroPoint filterZeroPoint : Int) (b c : Nat) : Int :=
  ((List.range depth).map (fun d =>
    (input (b * depth + d) + inputZeroPoint) * (weight (c * depth + d) + filterZeroPoint))).sum
  + (match bias with
     | some bias => bias c * 2
     | none => 0)

/-- The plain transpose in the words of the spec: for `i < M`, for `j < N`,
`output[j*M + i] = input[i*N + j]`. -/
def transposePlain (inputMat : Mem) (M N : Nat) (outputMat : Mem) : Mem :=
  (List.range M).foldl (fun outputMat i =>
    (List.range N).foldl (fun outputMat j =>
      Function.update outputMat (j * M + i) (inputMat (i * N + j))) outputMat) outputMat

/-! ## Buffers used in the concrete evaluations -/

/-- A buffer whose first `n` cells hold `1`; the cells after them hold `0`. -/
def onesUpTo (n : Nat) : Mem := fun i => if i < n then 1 else 0

/-- A buffer whose cell `i` holds `i`. -/
def rampMem : Mem := fun i => (i : Int)

/-- A buffer of zeros. -/
def zeroMem : Mem := fun _ => 0

/-- The buffer seen from a pointer advanced by `k` elements. -/
def offsetMem (buf : Mem) (k : Nat) : Mem := fun i => buf (k + i)

/-- A buffer whose first `n` cells hold `0`; the cells after them hold `1`. -/
def zerosThenOnes (n : Nat) : Mem := fun i => if i < n then 0 else 1

/-! ## Notions used in the proofs -/

/-- The transformer `T` stores `f a` at every address `a` in `P` and leaves every other
address as it was. -/
def WritesOn (T : Mem → Mem) (P : Nat → Prop) (f : Nat → Int) : Prop :=
  ∀ (m : Mem) (a : Nat), (P a → T m a = f a) ∧ (¬ P a → T m a = m a)

/-- The value that the transpose stores at address `a` of the destination. -/
def transposeVal (inputMat : Mem) (M N : Nat) : Nat → Int :=
  fun a => inputMat ((a % M) * N + a / M)

/-- The body `fg` of a group loop, started with both read pointers at the same index `p`,
advances both by sixteen, takes sixteen off the count and stores `g p, …, g (p + 15)`. -/
def IsGroupStep (fg : EltState → EltState) (g : Nat → Int) : Prop :=
  ∀ (p : Nat) (n : Int) (out : List Int),
    fg { inp1 := p, inp2 := p, nPixLeft := n, outp := out }
      = { inp1 := p + 16, inp2 := p + 16, nPixLeft := n - 16
          outp := out ++ (List.range 16).map (fun l => g (p + l)) }

/-- The 32-bit value that the multiply kernels compute for the element at index `a`, before
the store narrows it. -/
def mulElem (pInput1 pInput2 : Mem) (nQuantizedMultiplier : Nat)
    (nQuantizedShift nInOffset1 nInOffset2 nOutOffset lo hi : Int) (a : Nat) : Int :=
  clampMinMax
    (requantLane
      (wrap32 (wrap16 (pInput1 a + wrap16 nInOffset1) * wrap16 (pInput2 a + wrap16 nInOffset2)))
      (wrap32 nQuantizedMultiplier) nQuantizedShift nOutOffset 2) lo hi

/-- The product that one lane of the reduction loop of Strategy A adds for the element `d`
places after the row pointers `p` (input) and `q` (weights). -/
def macTerm (pInputBuffer pWeightsBuffer : Mem) (nInputOffset nFilterOffset : Int)
    (p q d : Nat) : Int :=
  wrap16 (pWeightsBuffer (q + d) + wrap16 nFilterOffset)
    * wrap16 (pInputBuffer (p + d) + wrap16 nInputOffset)

/-- The sum of the first `n` products of a row, as the lanes of Strategy A form them. -/
def rowSum (pInputBuffer pWeightsBuffer : Mem) (nInputOffset nFilterOffset : Int)
    (p q n : Nat) : Int :=
  ((List.range n).map (macTerm pInputBuffer pWeightsBuffer nInputOffset nFilterOffset p q)).sum

/-- The 16-bit element that the add kernel stores for the operands at index `a`. -/
def addElem (pInput1 pInput2 : Mem) (kInt16Max kInt16Min : Int) (a : Nat) : Int :=
  wrap16 (clampMinMax (wrap32 (pInput1 a + pInput2 a)) kInt16Min kInt16Max)

/-- The product that lane `l` of a block of Strategy B adds at depth index `d`, the block
reading its input from `inp` and its transposed weights from `wtp`. -/
def fcNewTerm (pInputBuffer pTemp : Mem) (nOutsize : Nat) (nInputOffset nFilterOffset : Int)
    (inp wtp l d : Nat) : Int :=
  wrap16 (pTemp (wtp + d * nOutsize + l) + wrap16 nFilterOffset)
    * wrap16 (pInputBuffer (inp + d) + wrap16 nInputOffset)

/-- The source index whose value the transpose stores at destination index `a`. -/
def transposeIdx (M N a : Nat) : Nat := (a % M) * N + a / M

/-- The state of an elementwise kernel with its two read pointers exchanged. -/
def swapPtrs (s : EltState) : EltState :=
  { inp1 := s.inp2, inp2 := s.inp1, nPixLeft := s.nPixLeft, outp := s.outp }

/-! # Theorems -/

set_option maxRecDepth 100000

/-! ## Arithmetic helpers -/

theorem MIN_eq_min (a b : Int) : MIN a b = min a b := by
  unfold MIN; split_ifs <;> omega

theorem MAX_eq_max (a b : Int) : MAX a b = max a b := by
  unfold MAX; split_ifs <;> omega

theorem sat32_eq_saturateToInt32 (x : Int) : sat32 x = saturateToInt32 x := by
  simp only [sat32, saturateToInt32, clamp, MIN_eq_min, MAX_eq_max]

theorem clampMinMax_eq_clamp (x lo hi : Int) : clampMinMax x lo hi = clamp x lo hi := by
  simp only [clampMinMax, clamp, MIN_eq_min, MAX_eq_max]; omega

theorem clampMaxMin_eq_clamp (x lo hi : Int) (h : lo ≤ hi) :
    clampMaxMin x lo hi = clamp x lo hi := by
  simp only [clampMaxMin, clamp, MIN_eq_min, MAX_eq_max]; omega

theorem wrap32_of_fits (x : Int) (h1 : INT32_MIN ≤ x) (h2 : x ≤ INT32_MAX) : wrap32 x = x := by
  unfold INT32_MIN at h1; unfold INT32_MAX at h2; unfold wrap32; omega

theorem wrap16_of_fits (x : Int) (h1 : -32768 ≤ x) (h2 : x ≤ 32767) : wrap16 x = x := by
  unfold wrap16; omega

theorem wrap16_add_wrap16 (x z : Int) : wrap16 (x + wrap16 z) = wrap16 (x + z) := by
  unfold wrap16; omega

/-- The rounding of the pack step is the rounding to nearest with ties away from zero. -/
theorem roundShift_isRoundHalfAway (p : Int) (k : Nat) : IsRoundHalfAway p k (roundShift p k) := by
  have hq : (0 : Int) < 2 ^ k := by positivity
  generalize hqd : (2 : Int) ^ k = q at hq
  unfold IsRoundHalfAway roundShift
  rw [hqd]
  have hh1 : 2 * (q / 2) ≤ q := by omega
  have hh2 : q ≤ 2 * (q / 2) + 1 := by omega
  generalize q / 2 = h at hh1 hh2
  split_ifs with hp
  · have e1 := Int.ediv_add_emod (p + h) q
    have e2 := Int.emod_nonneg (p + h) (ne_of_gt hq)
    have e3 := Int.emod_lt_of_pos (p + h) hq
    generalize (p + h) / q = t at e1
    generalize (p + h) % q = u at e1 e2 e3
    refine ⟨by nlinarith, by nlinarith, fun _ => hp, fun hc => ?_⟩
    exfalso; nlinarith
  · have e1 := Int.ediv_add_emod (-p + h) q
    have e2 := Int.emod_nonneg (-p + h) (ne_of_gt hq)
    have e3 := Int.emod_lt_of_pos (-p + h) hq
    generalize (-p + h) / q = t at e1
    generalize (-p + h) % q = u at e1 e2 e3
    refine ⟨by nlinarith, by nlinarith, fun hc => ?_, fun _ => by omega⟩
    exfalso; nlinarith

/-- Rounding to nearest with ties away from zero determines its result. -/
theorem isRoundHalfAway_unique (p : Int) (k : Nat) (r r' : Int)
    (h : IsRoundHalfAway p k r) (h' : IsRoundHalfAway p k r') : r = r' := by
  have hq : (0 : Int) < 2 ^ k := by positivity
  unfold IsRoundHalfAway at h h'
  generalize (2 : Int) ^ k = q at hq h h'
  obtain ⟨a1, a2, a3, a4⟩ := h
  obtain ⟨b1, b2, b3, b4⟩ := h'
  rcases lt_trichotomy r r' with hlt | heq | hgt
  · exfalso
    have h1 : r + 1 ≤ r' := hlt
    have h2 : (r + 1) * q ≤ r' * q := Int.mul_le_mul_of_nonneg_right h1 (le_of_lt hq)
    have e1 : 2 * (r * q - p) = -q := by nlinarith
    have e2 : 2 * (r' * q - p) = q := by nlinarith
    have := a4 e1
    have := b3 e2
    omega
  · exact heq
  · exfalso
    have h1 : r' + 1 ≤ r := hgt
    have h2 : (r' + 1) * q ≤ r * q := Int.mul_le_mul_of_nonneg_right h1 (le_of_lt hq)
    have e1 : 2 * (r' * q - p) = -q := by nlinarith
    have e2 : 2 * (r * q - p) = q := by nlinarith
    have := b4 e1
    have := a3 e2
    omega

theorem requantize_eq_core (acc : Int) (m : Nat) (shift zp lo hi : Int)
    (hacc : INT32_MIN ≤ acc ∧ acc ≤ INT32_MAX) (hs : shift < 0) :
    requantize acc m shift zp lo hi
      = clamp (wrap32 (saturateToInt32 (roundShift (acc * m) (-shift).toNat) + zp)) lo hi := by
  have hs' : ¬ (0 ≤ shift) := by omega
  simp only [requantize, PDX_MULW_32, PDX_SLA_80, PDX_PACKQSRV_80, hs', if_false,
    wrap32_of_fits acc hacc.1 hacc.2, sat32_eq_saturateToInt32, ← clampMinMax_eq_clamp,
    clampMinMax]

theorem requantLane_eq_core (x : Int) (m : Nat) (shift zp : Int) (round_mode : Nat)
    (hm : m < 2147483648) (hs : shift < 0) :
    requantLane x (wrap32 m) shift zp round_mode
      = wrap32 (saturateToInt32 (roundShift (x * m) (-shift).toNat) + zp) := by
  have hs' : ¬ (0 ≤ shift) := by omega
  have hw : wrap32 (m : Int) = m := by unfold wrap32; omega
  simp only [requantLane, PDX_MULW_32, PDX_SLA_80, PDX_PACKQSRV_80, hs', if_false,
    sat32_eq_saturateToInt32, hw, mul_comm]

/-! ## Requantization -/

/-- C1: for every accumulator, multiplier, shift, output zero point and activation range with
`min ≤ max`, the value that leaves the requantization pipeline (multiply, shift, pack, add the
zero point, `MIN` with `max`, `MAX` with `min`) lies in `[min, max]`.  This holds for the
scalar pipeline of the fully-connected kernels and for both clamp orders of the vector
pipeline. -/
theorem requantize_in_range (acc : Int) (multiplier : Nat) (shift zp lo hi : Int)
    (round_mode : Nat) (h : lo ≤ hi) :
    (lo ≤ requantize acc multiplier shift zp lo hi ∧
      requantize acc multiplier shift zp lo hi ≤ hi) ∧
    (lo ≤ clampMinMax (requantLane acc (wrap32 multiplier) shift zp round_mode) lo hi ∧
      clampMinMax (requantLane acc (wrap32 multiplier) shift zp round_mode) lo hi ≤ hi) ∧
    (lo ≤ clampMaxMin (requantLane acc (wrap32 multiplier) shift zp round_mode) lo hi ∧
      clampMaxMin (requantLane acc (wrap32 multiplier) shift zp round_mode) lo hi ≤ hi) := by
  simp only [requantize, clampMinMax, clampMaxMin, MIN_eq_min, MAX_eq_max]
  omega

theorem requantize_in_range_witness :
    ((-128 : Int) ≤ 127) ∧
    ((-128 ≤ requantize 1000 1 0 0 (-128) 127 ∧ requantize 1000 1 0 0 (-128) 127 ≤ 127) ∧
    (-128 ≤ clampMinMax (requantLane 1000 (wrap32 (1 : Nat)) 0 0 2) (-128) 127 ∧
      clampMinMax (requantLane 1000 (wrap32 (1 : Nat)) 0 0 2) (-128) 127 ≤ 127) ∧
    (-128 ≤ clampMaxMin (requantLane 1000 (wrap32 (1 : Nat)) 0 0 2) (-128) 127 ∧
      clampMaxMin (requantLane 1000 (wrap32 (1 : Nat)) 0 0 2) (-128) 127 ≤ 127)) :=
  ⟨by decide, requantize_in_range 1000 1 0 0 (-128) 127 2 (by decide)⟩

/-- C2, as the code has it: for every 32-bit accumulator, multiplier, shift `< 0`, zero point
and `min ≤ max`, let `r` be the exact product `acc * multiplier` divided by `2^(-shift)` and
rounded to nearest with ties away from zero.  Whenever `saturateToInt32(r) + zp` fits in 32
bits, the scalar pipeline of the fully-connected kernels returns
`clamp(saturateToInt32(r) + zp, min, max)`, and so do both clamp orders of the vector
pipeline when the multiplier is below `2^31`. -/
theorem requantize_eq_spec (acc : Int) (m : Nat) (shift zp lo hi r : Int)
    (hacc : INT32_MIN ≤ acc ∧ acc ≤ INT32_MAX) (hs : shift < 0) (hlohi : lo ≤ hi)
    (hr : IsRoundHalfAway (acc * m) (-shift).toNat r)
    (hfit : INT32_MIN ≤ saturateToInt32 r + zp ∧ saturateToInt32 r + zp ≤ INT32_MAX) :
    requantize acc m shift zp lo hi = clamp (saturateToInt32 r + zp) lo hi ∧
    (m < 2147483648 →
      clampMinMax (requantLane acc (wrap32 m) shift zp 2) lo hi
        = clamp (saturateToInt32 r + zp) lo hi ∧
      clampMaxMin (requantLane acc (wrap32 m) shift zp 2) lo hi
        = clamp (saturateToInt32 r + zp) lo hi) := by
  have hr' : r = roundShift (acc * m) (-shift).toNat :=
    isRoundHalfAway_unique _ _ _ _ hr (roundShift_isRoundHalfAway _ _)
  subst hr'
  refine ⟨?_, fun hm => ⟨?_, ?_⟩⟩
  · rw [requantize_eq_core acc m shift zp lo hi hacc hs, wrap32_of_fits _ hfit.1 hfit.2]
  · rw [requantLane_eq_core acc m shift zp 2 hm hs, clampMinMax_eq_clamp,
      wrap32_of_fits _ hfit.1 hfit.2]
  · rw [requantLane_eq_core acc m shift zp 2 hm hs, clampMaxMin_eq_clamp _ _ _ hlohi,
      wrap32_of_fits _ hfit.1 hfit.2]

theorem requantize_eq_spec_witness :
    requantize 5 3 (-1) 0 (-128) 127 = clamp (saturateToInt32 8 + 0) (-128) 127 ∧
    clampMinMax (requantLane 5 (wrap32 (3 : Nat)) (-1) 0 2) (-128) 127
      = clamp (saturateToInt32 8 + 0) (-128) 127 ∧
    clampMaxMin (requantLane 5 (wrap32 (3 : Nat)) (-1) 0 2) (-128) 127
      = clamp (saturateToInt32 8 + 0) (-128) 127 :=
  have h := requantize_eq_spec 5 3 (-1) 0 (-128) 127 8 (by decide) (by decide) (by decide)
    (by unfold IsRoundHalfAway; norm_num) (by decide)
  ⟨h.1, h.2 (by decide)⟩

/-- C2 fails as stated.  With `acc = 2^31 - 1`, `multiplier = 2^31 - 1`, `shift = -1` and
`zp = 1` the rounded quotient `r = 2305843007066210305` saturates to `INT32_MAX`, the 32-bit
addition of the zero point wraps, and the scalar pipeline returns `min = -128` where the
formula gives `max = 127`.  With `acc = 2`, `multiplier = 2^31` and `shift = -31` the vector
lane reads the multiplier as `-2^31` and returns `-2` where the formula, with `r = 2`, gives
`2`. -/
theorem requantize_eq_spec_counterexample :
    (IsRoundHalfAway (2147483647 * (2147483647 : Nat)) 1 2305843007066210305 ∧
      requantize 2147483647 2147483647 (-1) 1 (-128) 127 = -128 ∧
      clamp (saturateToInt32 2305843007066210305 + 1) (-128) 127 = 127) ∧
    (IsRoundHalfAway (2 * (2147483648 : Nat)) 31 2 ∧
      clampMinMax (requantLane 2 (wrap32 (2147483648 : Nat)) (-31) 0 2) (-128) 127 = -2 ∧
      clamp (saturateToInt32 2 + 0) (-128) 127 = 2) := by
  refine ⟨⟨?_, by decide, by decide⟩, ⟨?_, by decide, by decide⟩⟩
  · unfold IsRoundHalfAway; norm_num
  · unfold IsRoundHalfAway; norm_num

/-! ## Loops -/

/-- A `whileLoop` whose condition holds along the first `k` iterates of the body and fails at
the `k`-th, and whose fuel is at least `k`, runs the body exactly `k` times. -/
theorem whileLoop_eq_iterate {σ : Type} (cond : σ → Bool) (body : σ → σ) (k : Nat) :
    ∀ (fuel : Nat) (s : σ), k ≤ fuel → (∀ j, j < k → cond (body^[j] s) = true) →
      cond (body^[k] s) = false → whileLoop cond body fuel s = body^[k] s := by
  induction k with
  | zero =>
    intro fuel s _ _ hstop
    cases fuel with
    | zero => rfl
    | succ f =>
      have hs : cond s = false := hstop
      simp [whileLoop, hs]
  | succ k ih =>
    intro fuel s hfuel hrun hstop
    cases fuel with
    | zero => omega
    | succ f =>
      have h0 : cond s = true := hrun 0 (by omega)
      simp only [whileLoop, h0, if_true, Function.iterate_succ_apply]
      apply ih f (body s) (by omega)
      · intro j hj
        have := hrun (j + 1) (by omega)
        simpa [Function.iterate_succ_apply] using this
      · simpa [Function.iterate_succ_apply] using hstop

/-- The iterates of the body of a `forLoop`: the index follows `next`, the state is the fold
of the body over the indices met so far. -/
theorem forLoop_iterate {ι σ : Type} (next : ι → ι) (body : ι → σ → σ) (start : ι) (s : σ)
    (k : Nat) :
    (fun p : ι × σ => (next p.1, body p.1 p.2))^[k] (start, s)
      = (next^[k] start, (List.range k).foldl (fun s j => body (next^[j] start) s) s) := by
  induction k with
  | zero => rfl
  | succ k ih =>
    rw [Function.iterate_succ_apply', ih, List.range_succ, List.foldl_append]
    simp [Function.iterate_succ_apply']

/-- A `forLoop` whose condition holds at the first `k` indices and fails at the `k`-th, and
whose fuel is at least `k`, is the fold of its body over these `k` indices. -/
theorem forLoop_eq_foldl {ι σ : Type} (cond : ι → Bool) (next : ι → ι) (body : ι → σ → σ)
    (fuel : Nat) (start : ι) (s : σ) (k : Nat) (hfuel : k ≤ fuel)
    (hrun : ∀ j, j < k → cond (next^[j] start) = true)
    (hstop : cond (next^[k] start) = false) :
    forLoop cond next body fuel start s
      = (List.range k).foldl (fun s j => body (next^[j] start) s) s := by
  unfold forLoop
  rw [whileLoop_eq_iterate _ _ k fuel (start, s) hfuel]
  · rw [forLoop_iterate]
  · intro j hj
    rw [forLoop_iterate]
    exact hrun j hj
  · rw [forLoop_iterate]
    exact hstop

theorem iterate_add_nat (c : Nat) (k : Nat) (x : Nat) : (· + c)^[k] x = x + c * k := by
  induction k with
  | zero => simp
  | succ k ih => rw [Function.iterate_succ_apply', ih]; ring

theorem iterate_add_int (c : Int) (k : Nat) (x : Int) : (· + c)^[k] x = x + c * k := by
  induction k with
  | zero => simp
  | succ k ih => rw [Function.iterate_succ_apply', ih]; push_cast; ring

/-! ## Memory transformers that write a fixed value function on a set of addresses -/

theorem writesOn_update (f : Nat → Int) (x : Nat) (v : Int) (h : f x = v) :
    WritesOn (fun m => Function.update m x v) (fun a => a = x) f := by
  intro m a
  constructor
  · intro ha; subst ha; simp [h]
  · intro ha; simp [Function.update, ha]

theorem writesOn_congr (T : Mem → Mem) (P Q : Nat → Prop) (f : Nat → Int)
    (h : WritesOn T P f) (hPQ : ∀ a, P a ↔ Q a) : WritesOn T Q f := by
  intro m a
  rw [← hPQ a]
  exact h m a

theorem writesOn_foldl_range (T : Nat → Mem → Mem) (P : Nat → Nat → Prop) (f : Nat → Int)
    (n : Nat) (h : ∀ j, j < n → WritesOn (T j) (P j) f) :
    WritesOn (fun m => (List.range n).foldl (fun m j => T j m) m)
      (fun a => ∃ j, j < n ∧ P j a) f := by
  induction n with
  | zero =>
    intro m a
    constructor
    · rintro ⟨j, hj, _⟩; omega
    · intro _; rfl
  | succ n ih =>
    have ih' := ih (fun j hj => h j (by omega))
    have hn := h n (by omega)
    intro m a
    simp only [List.range_succ, List.foldl_append, List.foldl_cons, List.foldl_nil]
    by_cases hPn : P n a
    · constructor
      · intro _; exact (hn _ a).1 hPn
      · intro hne; exact absurd ⟨n, by omega, hPn⟩ hne
    · rw [(hn _ a).2 hPn]
      constructor
      · rintro ⟨j, hj, hPj⟩
        have hjn : j < n := by
          rcases Nat.lt_succ_iff_lt_or_eq.mp hj with h1 | h1
          · exact h1
          · subst h1; exact absurd hPj hPn
        exact (ih' m a).1 ⟨j, hjn, hPj⟩
      · intro hne
        exact (ih' m a).2 (fun ⟨j, hj, hPj⟩ => hne ⟨j, by omega, hPj⟩)

/-! ## The loop nest of the transpose -/

theorem idx_mod (M j x : Nat) (hx : x < M) : (j * M + x) % M = x := by
  rw [Nat.add_comm, Nat.add_mul_mod_self_right, Nat.mod_eq_of_lt hx]

theorem idx_div (M j x : Nat) (hx : x < M) : (j * M + x) / M = j := by
  have hM : 0 < M := by omega
  rw [Nat.add_comm, Nat.add_mul_div_right _ _ hM, Nat.div_eq_of_lt hx, Nat.zero_add]

theorem transform_inner (inputMat : Mem) (M N i j : Nat) :
    WritesOn (fun outputMat : Mem =>
        forLoop (fun b : Nat => decide (b < 4) && decide (i + b < M)) (· + 1)
          (fun b outputMat =>
            Function.update outputMat (j * M + i + b) (inputMat ((i + b) * N + j)))
          4 0 outputMat)
      (fun a => ∃ b, b < min 4 (M - i) ∧ a = j * M + i + b)
      (transposeVal inputMat M N) := by
  have hloop : ∀ outputMat : Mem,
      forLoop (fun b : Nat => decide (b < 4) && decide (i + b < M)) (· + 1)
          (fun b outputMat =>
            Function.update outputMat (j * M + i + b) (inputMat ((i + b) * N + j)))
          4 0 outputMat
        = (List.range (min 4 (M - i))).foldl (fun m b =>
            (fun m : Mem => Function.update m (j * M + i + b) (inputMat ((i + b) * N + j))) m)
            outputMat := by
    intro outputMat
    rw [forLoop_eq_foldl _ _ _ 4 0 outputMat (min 4 (M - i)) (by omega)]
    · simp only [iterate_add_nat]
      congr 1
      funext m b
      simp
    · intro b hb
      simp only [iterate_add_nat]
      simp only [Bool.and_eq_true, decide_eq_true_eq]
      omega
    · simp only [iterate_add_nat]
      simp only [Bool.and_eq_false_imp, decide_eq_true_eq, decide_eq_false_iff_not]
      omega
  simp only [hloop]
  apply writesOn_foldl_range
  intro b hb
  apply writesOn_update
  have hib : i + b < M := by omega
  unfold transposeVal
  rw [Nat.add_assoc, idx_mod M j (i + b) hib, idx_div M j (i + b) hib]

theorem transform_writes (inputMat : Mem) (M N : Nat) :
    WritesOn (fun outputMat : Mem => transform_matrices inputMat M N outputMat)
      (fun a => ∃ i j, i < M ∧ j < N ∧ a = j * M + i)
      (transposeVal inputMat M N) := by
  have hloop : ∀ outputMat : Mem, transform_matrices inputMat M N outputMat
      = (List.range ((M + 3) / 4)).foldl (fun m k =>
          (fun m : Mem => (List.range N).foldl (fun m j =>
            (fun outputMat : Mem =>
              forLoop (fun b : Nat => decide (b < 4) && decide (4 * k + b < M)) (· + 1)
                (fun b outputMat =>
                  Function.update outputMat (j * M + 4 * k + b) (inputMat ((4 * k + b) * N + j)))
                4 0 outputMat) m) m) m) outputMat := by
    intro outputMat
    unfold transform_matrices
    simp only []
    rw [forLoop_eq_foldl _ _ _ M 0 outputMat ((M + 3) / 4) (by omega)]
    · simp only [iterate_add_nat, Nat.zero_add]
    · intro k hk
      simp only [iterate_add_nat, decide_eq_true_eq]
      omega
    · simp only [iterate_add_nat, decide_eq_false_iff_not]
      omega
  simp only [hloop]
  refine writesOn_congr _ _ _ _ (writesOn_foldl_range _
    (fun k a => ∃ j, j < N ∧ ∃ b, b < min 4 (M - 4 * k) ∧ a = j * M + 4 * k + b) _ _ ?_) ?_
  · intro k _
    apply writesOn_foldl_range
    intro j _
    exact transform_inner inputMat M N (4 * k) j
  · intro a
    constructor
    · rintro ⟨k, _, j, hj, b, hb, rfl⟩
      exact ⟨4 * k + b, j, by omega, hj, by omega⟩
    · rintro ⟨i, j, hi, hj, rfl⟩
      exact ⟨i / 4, by omega, j, hj, i % 4, by omega, by omega⟩

/-! ## Group loops of the elementwise kernels -/

theorem groupStep_iterate (fg : EltState → EltState) (g : Nat → Int) (H : IsGroupStep fg g)
    (p : Nat) (n : Int) (out : List Int) (k : Nat) :
    fg^[k] { inp1 := p, inp2 := p, nPixLeft := n, outp := out }
      = { inp1 := p + 16 * k, inp2 := p + 16 * k, nPixLeft := n - 16 * k
          outp := out ++ (List.range (16 * k)).map (fun t => g (p + t)) } := by
  induction k with
  | zero => simp
  | succ k ih =>
    rw [Function.iterate_succ_apply', ih, H]
    have e : 16 * (k + 1) = 16 * k + 16 := by ring
    rw [e, List.range_add, List.map_append, List.map_map]
    simp only [EltState.mk.injEq, List.append_assoc, List.append_cancel_left_eq]
    refine ⟨by ring, by ring, by push_cast; ring, ?_⟩
    apply List.map_congr_left
    intro l _
    simp [Nat.add_assoc]

theorem foldl_const_eq_iterate {σ : Type} (f : σ → σ) (k : Nat) (s : σ) :
    (List.range k).foldl (fun s _ => f s) s = f^[k] s := by
  induction k with
  | zero => rfl
  | succ k ih => rw [List.range_succ, List.foldl_append, ih, Function.iterate_succ_apply']; rfl

/-- The loop `while (nPixLeft > 2*PDX_M)` over a group step runs `(n - 1) / 16` times. -/
theorem groupStep_while (fg : EltState → EltState) (g : Nat → Int) (H : IsGroupStep fg g)
    (p n : Nat) (out : List Int) (hn : 1 ≤ n) :
    whileLoop (fun s : EltState => decide (s.nPixLeft > 2 * PDX_M)) fg (n + 1)
        { inp1 := p, inp2 := p, nPixLeft := n, outp := out }
      = { inp1 := p + 16 * ((n - 1) / 16), inp2 := p + 16 * ((n - 1) / 16)
          nPixLeft := ((n - 16 * ((n - 1) / 16) : Nat) : Int)
          outp := out ++ (List.range (16 * ((n - 1) / 16))).map (fun t => g (p + t)) } := by
  rw [whileLoop_eq_iterate _ _ ((n - 1) / 16) (n + 1) _ (by omega)]
  · rw [groupStep_iterate fg g H]
    simp only [EltState.mk.injEq, true_and, and_true]
    omega
  · intro j hj
    rw [groupStep_iterate fg g H]
    simp only [PDX_M, decide_eq_true_eq]
    push_cast
    omega
  · rw [groupStep_iterate fg g H]
    simp only [PDX_M, decide_eq_false_iff_not]
    push_cast
    omega

/-- The loop `for (i = 0; i <= nInputLen; i += 2*PDX_M)` over a group step runs
`n / 16 + 1` times. -/
theorem groupStep_for (fg : EltState → EltState) (g : Nat → Int) (H : IsGroupStep fg g)
    (p n : Nat) (m : Int) (out : List Int) :
    forLoop (fun i : Int => decide (i ≤ (n : Int))) (· + 2 * PDX_M) (fun _ s => fg s) (n + 1) 0
        { inp1 := p, inp2 := p, nPixLeft := m, outp := out }
      = { inp1 := p + 16 * (n / 16 + 1), inp2 := p + 16 * (n / 16 + 1)
          nPixLeft := m - 16 * ((n / 16 + 1 : Nat) : Int)
          outp := out ++ (List.range (16 * (n / 16 + 1))).map (fun t => g (p + t)) } := by
  rw [forLoop_eq_foldl _ _ _ (n + 1) 0 _ (n / 16 + 1) (by omega)]
  · rw [foldl_const_eq_iterate, groupStep_iterate fg g H]
  · intro j hj
    simp only [iterate_add_int, PDX_M, decide_eq_true_eq]
    push_cast
    omega
  · simp only [iterate_add_int, PDX_M, decide_eq_false_iff_not]
    push_cast
    omega

theorem clampMaxMin_eq_clampMinMax (x lo hi : Int) (h : lo ≤ hi) :
    clampMaxMin x lo hi = clampMinMax x lo hi := by
  rw [clampMaxMin_eq_clamp x lo hi h, clampMinMax_eq_clamp]

theorem range16_split : List.range 16 = List.range 8 ++ (List.range 8).map (fun l => 8 + l) :=
  List.range_add 8 8

theorem mulInt8_isGroupStep (pInput1 pInput2 : Mem) (m : Nat)
    (shift zp1 zp2 zpo lo hi : Int) (hlohi : lo ≤ hi) :
    IsGroupStep (mulInt8FullGroup pInput1 pInput2 m shift zp1 zp2 zpo lo hi)
      (fun a => wrap8 (mulElem pInput1 pInput2 m shift zp1 zp2 zpo lo hi a)) := by
  intro p n out
  simp only [mulInt8FullGroup, mulGroup, PDX_SAV32_MX8, PDX_M, cvt32First8, cvt32Last8,
    PDX_MULAQW_2MX16, addZP, loadVec, zero_add, mulElem,
    clampMaxMin_eq_clampMinMax _ _ _ hlohi, range16_split, List.map_append, List.map_map,
    List.append_assoc]
  norm_num
  have h8 : Int.toNat 8 = 8 := rfl
  rw [h8]
  rfl

theorem toNat_min_cast (r : Nat) : min (Int.toNat (r : Int)) 8 = min r 8 := by
  simp

theorem mulInt8Tail_eq (pInput1 pInput2 : Mem) (m : Nat)
    (shift zp1 zp2 zpo lo hi : Int) (p r : Nat) (out : List Int) (hr1 : 1 ≤ r) (hr2 : r ≤ 16) :
    mulInt8Tail pInput1 pInput2 m shift zp1 zp2 zpo lo hi
        { inp1 := p, inp2 := p, nPixLeft := (r : Int), outp := out }
      = out ++ (List.range r).map
          (fun l => wrap8 (mulElem pInput1 pInput2 m shift zp1 zp2 zpo lo hi (p + l))) := by
  simp only [mulInt8Tail, mulGroup, PDX_SAV32_MX8, PDX_M, cvt32First8, cvt32Last8,
    PDX_MULAQW_2MX16, addZP, loadVec, zero_add, MIN]
  by_cases h8 : r ≤ 8
  · have c1 : ((r : Int) < ((8 : Nat) : Int)) ∨ r = 8 := by omega
    rcases c1 with c1 | c1
    · simp only [c1, if_true, sub_self, gt_iff_lt, lt_self_iff_false, if_false,
        Int.toNat_ofNat]
      rw [Nat.min_eq_left h8]
      rfl
    · subst c1
      simp only [Nat.cast_ofNat, lt_self_iff_false, if_false, sub_self, gt_iff_lt]
      rfl
  · have c1 : ¬ ((r : Int) < ((8 : Nat) : Int)) := by omega
    have c2 : (r : Int) - ((8 : Nat) : Int) > 0 := by omega
    have c3 : (r : Int) - ((8 : Nat) : Int) < ((8 : Nat) : Int) ∨ r = 16 := by omega
    have e1 : (((8 : Nat) : Int)).toNat = 8 := rfl
    have e2 : ((r : Int) - ((8 : Nat) : Int)).toNat = r - 8 := by omega
    have e3 : r = 8 + (r - 8) := by omega
    rcases c3 with c3 | c3
    · simp only [c1, if_false, c2, if_true, c3, e1, e2, Nat.min_self]
      rw [Nat.min_eq_left (by omega : r - 8 ≤ 8)]
      conv_rhs => rw [e3, List.range_add, List.map_append, List.map_map]
      rw [List.append_assoc]
      rfl
    · subst c3
      simp only [c1, if_false, c2, if_true, e1, Nat.min_self]
      have e4 : ((((16 : Nat) : Int) - ((8 : Nat) : Int) < ((8 : Nat) : Int))) = False := by
        simp
      simp only [e4, if_false, e1, Nat.min_self]
      rw [range16_split, List.map_append, List.map_map, List.append_assoc]
      rfl

theorem mulInt8_output (pInput1 pInput2 : Mem) (n m : Nat)
    (shift zp1 zp2 zpo lo hi : Int) (hlohi : lo ≤ hi) :
    adi_sharcfx_elementwise_mul_int8 pInput1 pInput2 n m shift zp1 zp2 zpo lo hi
      = (List.range (if n % 16 = 0 then n + 16 else n)).map
          (fun a => wrap8 (mulElem pInput1 pInput2 m shift zp1 zp2 zpo lo hi a)) := by
  have H := mulInt8_isGroupStep pInput1 pInput2 m shift zp1 zp2 zpo lo hi hlohi
  unfold adi_sharcfx_elementwise_mul_int8
  by_cases h16 : n % 16 = 0
  · simp only [h16, ne_eq, not_true_eq_false, if_false, if_true]
    rw [groupStep_for _ _ H]
    simp only [List.nil_append, Nat.zero_add]
    have e : 16 * (n / 16 + 1) = n + 16 := by omega
    rw [e]
  · simp only [h16, ne_eq, not_false_eq_true, if_true, if_false]
    rw [groupStep_while _ _ H 0 n [] (by omega)]
    rw [mulInt8Tail_eq _ _ _ _ _ _ _ _ _ _ _ _ (by omega) (by omega)]
    simp only [List.nil_append, Nat.zero_add]
    have e : n = 16 * ((n - 1) / 16) + (n - 16 * ((n - 1) / 16)) := by omega
    conv_rhs => rw [e, List.range_add, List.map_append, List.map_map]
    rfl

theorem roundShift_zero (x : Int) : roundShift x 0 = x := by
  unfold roundShift
  split_ifs <;> simp

theorem sat80_eq_clamp (x : Int) : sat80 x = clamp x INT80_MIN INT80_MAX := by
  simp only [sat80, clamp, MIN_eq_min, MAX_eq_max]

/-- The vector lane follows the formula of the spec when the multiplier is below `2^31`; the
zero point is added in 32 bits. -/
theorem requantLane_eq_spec (x : Int) (m : Nat) (shift zp : Int) (round_mode : Nat)
    (hm : m < 2147483648) :
    requantLane x (wrap32 m) shift zp round_mode
      = wrap32 (saturateToInt32 (roundingShift (x * m) shift) + zp) := by
  have hw : wrap32 (m : Int) = m := by unfold wrap32; omega
  unfold requantLane PDX_MULW_32 PDX_SLA_80 PDX_PACKQSRV_80 roundingShift
  rw [hw, mul_comm]
  split_ifs
  · simp only [roundShift_zero, sat32_eq_saturateToInt32, sat80_eq_clamp]
  · simp only [sat32_eq_saturateToInt32]

theorem mul16_fits32 (a b : Int) (ha1 : -32768 ≤ a) (ha2 : a ≤ 32767) (hb1 : -32768 ≤ b)
    (hb2 : b ≤ 32767) : INT32_MIN ≤ a * b ∧ a * b ≤ INT32_MAX := by
  unfold INT32_MIN INT32_MAX
  constructor <;> nlinarith

theorem mulElem_eq_spec (pInput1 pInput2 : Mem) (m : Nat)
    (shift zp1 zp2 zpo lo hi : Int) (i : Nat) (hm : m < 2147483648)
    (h1 : -32768 ≤ pInput1 i + zp1 ∧ pInput1 i + zp1 ≤ 32767)
    (h2 : -32768 ≤ pInput2 i + zp2 ∧ pInput2 i + zp2 ≤ 32767)
    (hfit : INT32_MIN ≤ saturateToInt32
        (roundingShift ((pInput1 i + zp1) * (pInput2 i + zp2) * m) shift) + zpo ∧
      saturateToInt32
        (roundingShift ((pInput1 i + zp1) * (pInput2 i + zp2) * m) shift) + zpo ≤ INT32_MAX) :
    mulElem pInput1 pInput2 m shift zp1 zp2 zpo lo hi i
      = Requantize ((pInput1 i + zp1) * (pInput2 i + zp2)) m shift zpo lo hi := by
  unfold mulElem Requantize
  rw [wrap16_add_wrap16, wrap16_add_wrap16, wrap16_of_fits _ h1.1 h1.2,
    wrap16_of_fits _ h2.1 h2.2]
  have hp := mul16_fits32 _ _ h1.1 h1.2 h2.1 h2.2
  rw [wrap32_of_fits _ hp.1 hp.2, requantLane_eq_spec _ _ _ _ _ hm,
    wrap32_of_fits _ hfit.1 hfit.2, clampMinMax_eq_clamp]

theorem mulInt16_isGroupStep (pInput1 pInput2 : Mem) (m : Nat)
    (shift zp1 zp2 zpo lo hi : Int) (hlohi : lo ≤ hi) :
    IsGroupStep (mulInt16FullGroup pInput1 pInput2 m shift zp1 zp2 zpo lo hi)
      (fun a => wrap16 (mulElem pInput1 pInput2 m shift zp1 zp2 zpo lo hi a)) := by
  intro p n out
  simp only [mulInt16FullGroup, mulGroup, PDX_SAV32_MX16, PDX_M, cvt32First8, cvt32Last8,
    PDX_MULAQW_2MX16, addZP, loadVec, zero_add, mulElem,
    clampMaxMin_eq_clampMinMax _ _ _ hlohi, range16_split, List.map_append, List.map_map,
    List.append_assoc]
  norm_num
  have h8 : Int.toNat 16 / 2 = 8 := rfl
  rw [h8]
  rfl

theorem mulInt16Tail_eq (pInput1 pInput2 : Mem) (m : Nat)
    (shift zp1 zp2 zpo lo hi : Int) (p r : Nat) (out : List Int) (hr1 : 1 ≤ r) (hr2 : r ≤ 16) :
    mulInt16Tail pInput1 pInput2 m shift zp1 zp2 zpo lo hi
        { inp1 := p, inp2 := p, nPixLeft := (r : Int), outp := out }
      = out ++ (List.range r).map
          (fun l => wrap16 (mulElem pInput1 pInput2 m shift zp1 zp2 zpo lo hi (p + l))) := by
  simp only [mulInt16Tail, mulGroup, PDX_SAV32_MX16, PDX_M, cvt32First8, cvt32Last8,
    PDX_MULAQW_2MX16, addZP, loadVec, zero_add, MIN]
  have e0 : ((r : Int) * 2).toNat / 2 = r := by omega
  have e1 : ((((8 : Nat) : Int)) * 2).toNat / 2 = 8 := rfl
  by_cases h8 : r ≤ 8
  · have c1 : ((r : Int) < ((8 : Nat) : Int)) ∨ r = 8 := by omega
    rcases c1 with c1 | c1
    · simp only [c1, if_true, sub_self, gt_iff_lt, lt_self_iff_false, if_false, e0]
      rw [Nat.min_eq_left h8]
      rfl
    · subst c1
      simp only [Nat.cast_ofNat, lt_self_iff_false, if_false, sub_self, gt_iff_lt]
      rfl
  · have c1 : ¬ ((r : Int) < ((8 : Nat) : Int)) := by omega
    have c2 : (r : Int) - ((8 : Nat) : Int) > 0 := by omega
    have c3 : (r : Int) - ((8 : Nat) : Int) < ((8 : Nat) : Int) ∨ r = 16 := by omega
    have e2 : (((r : Int) - ((8 : Nat) : Int)) * 2).toNat / 2 = r - 8 := by omega
    have e3 : r = 8 + (r - 8) := by omega
    rcases c3 with c3 | c3
    · simp only [c1, if_false, c2, if_true, c3, e1, e2, Nat.min_self]
      rw [Nat.min_eq_left (by omega : r - 8 ≤ 8)]
      conv_rhs => rw [e3, List.range_add, List.map_append, List.map_map]
      rw [List.append_assoc]
      rfl
    · subst c3
      simp only [c1, if_false, c2, if_true, e1, Nat.min_self]
      have e4 : ((((16 : Nat) : Int) - ((8 : Nat) : Int) < ((8 : Nat) : Int))) = False := by
        simp
      simp only [e4, if_false, e1, Nat.min_self]
      rw [range16_split, List.map_append, List.map_map, List.append_assoc]
      rfl

theorem mulInt16_output (pInput1 pInput2 : Mem) (n m : Nat)
    (shift zp1 zp2 zpo lo hi : Int) (hlohi : lo ≤ hi) :
    adi_sharcfx_elementwise_mul_int16 pInput1 pInput2 n m shift zp1 zp2 zpo lo hi
      = (List.range (if n % 16 = 0 then n + 16 else n)).map
          (fun a => wrap16 (mulElem pInput1 pInput2 m shift zp1 zp2 zpo lo hi a)) := by
  have H := mulInt16_isGroupStep pInput1 pInput2 m shift zp1 zp2 zpo lo hi hlohi
  unfold adi_sharcfx_elementwise_mul_int16
  by_cases h16 : n % 16 = 0
  · simp only [h16, ne_eq, not_true_eq_false, if_false, if_true]
    rw [groupStep_for _ _ H]
    simp only [List.nil_append, Nat.zero_add]
    have e : 16 * (n / 16 + 1) = n + 16 := by omega
    rw [e]
  · simp only [h16, ne_eq, not_false_eq_true, if_true, if_false]
    rw [groupStep_while _ _ H 0 n [] (by omega)]
    rw [mulInt16Tail_eq _ _ _ _ _ _ _ _ _ _ _ _ (by omega) (by omega)]
    simp only [List.nil_append, Nat.zero_add]
    have e : n = 16 * ((n - 1) / 16) + (n - 16 * ((n - 1) / 16)) := by omega
    conv_rhs => rw [e, List.range_add, List.map_append, List.map_map]
    rfl

/-! ## Elementwise multiplication -/

/-- C7, as the code has it: for every length `n`, every position `i < n`, every range with
`min ≤ max` and every multiplier below `2^31`, if `in1[i] + zp1` and `in2[i] + zp2` fit in 16
bits and the packed value plus the output zero point fits in 32 bits, then `output[i]` of
`adi_sharcfx_elementwise_mul_int8` and of `adi_sharcfx_elementwise_mul_int16` is
`Requantize((in1[i] + zp1) * (in2[i] + zp2), multiplier, shift, outputZeroPoint, min, max)`
narrowed to the width of the output element, whatever the sixteen-wide grouping of `n`. -/
theorem elementwise_mul_eq_requantize (pInput1 pInput2 : Mem) (n m : Nat)
    (shift zp1 zp2 zpo lo hi : Int) (i : Nat) (hin : i < n) (hlohi : lo ≤ hi)
    (hm : m < 2147483648)
    (h1 : -32768 ≤ pInput1 i + zp1 ∧ pInput1 i + zp1 ≤ 32767)
    (h2 : -32768 ≤ pInput2 i + zp2 ∧ pInput2 i + zp2 ≤ 32767)
    (hfit : INT32_MIN ≤ saturateToInt32
        (roundingShift ((pInput1 i + zp1) * (pInput2 i + zp2) * m) shift) + zpo ∧
      saturateToInt32
        (roundingShift ((pInput1 i + zp1) * (pInput2 i + zp2) * m) shift) + zpo ≤ INT32_MAX) :
    (adi_sharcfx_elementwise_mul_int8 pInput1 pInput2 n m shift zp1 zp2 zpo lo hi)[i]?
      = some (wrap8
          (Requantize ((pInput1 i + zp1) * (pInput2 i + zp2)) m shift zpo lo hi)) ∧
    (adi_sharcfx_elementwise_mul_int16 pInput1 pInput2 n m shift zp1 zp2 zpo lo hi)[i]?
      = some (wrap16
          (Requantize ((pInput1 i + zp1) * (pInput2 i + zp2)) m shift zpo lo hi)) := by
  have hlen : i < (if n % 16 = 0 then n + 16 else n) := by split_ifs <;> omega
  rw [mulInt8_output _ _ _ _ _ _ _ _ _ _ hlohi, mulInt16_output _ _ _ _ _ _ _ _ _ _ hlohi]
  simp only [List.getElem?_map, List.getElem?_range hlen, Option.map_some']
  rw [mulElem_eq_spec pInput1 pInput2 m shift zp1 zp2 zpo lo hi i hm h1 h2 hfit]
  exact ⟨rfl, rfl⟩

theorem elementwise_mul_eq_requantize_witness :
    (adi_sharcfx_elementwise_mul_int8 rampMem rampMem 20 1 0 0 0 0 (-128) 127)[17]?
      = some (wrap8 (Requantize ((rampMem 17 + 0) * (rampMem 17 + 0)) 1 0 0 (-128) 127)) ∧
    (adi_sharcfx_elementwise_mul_int16 rampMem rampMem 20 1 0 0 0 0 (-128) 127)[17]?
      = some (wrap16 (Requantize ((rampMem 17 + 0) * (rampMem 17 + 0)) 1 0 0 (-128) 127)) :=
  elementwise_mul_eq_requantize rampMem rampMem 20 1 0 0 0 0 (-128) 127 17 (by decide)
    (by decide) (by decide) (by decide) (by decide) (by decide)

/-- C7 fails as stated, on three inputs of the 16-bit multiply of one element with range
`[-32768, 32767]`.  With `in1 = [32767]`, `in2 = [1]`, `zp1 = 100`, multiplier `1` and shift
`-2` the zero point is added in a 16-bit lane, `32767 + 100` wraps to `-32669`, and the
kernel stores `-8167` where the formula gives `8217`.  With `in1 = [2]`, `in2 = [1]`,
multiplier `2^31` and shift `-31` the lane reads the multiplier as `-2^31` and the kernel
stores `-2` where the formula gives `2`.  With `in1 = in2 = [32767]`, multiplier `2^31 - 1`,
shift `-1` and output zero point `1` the packed value is `INT32_MAX`, the 32-bit addition
of the zero point wraps, and the kernel stores `-32768` where the formula gives `32767`. -/
theorem elementwise_mul_counterexample :
    (adi_sharcfx_elementwise_mul_int16 (fun _ => 32767) (fun _ => 1) 1 1 (-2) 100 0 0
        (-32768) 32767 = [-8167] ∧
      wrap16 (Requantize (((fun _ => 32767 : Mem) 0 + 100) * ((fun _ => 1 : Mem) 0 + 0))
        1 (-2) 0 (-32768) 32767) = 8217) ∧
    (adi_sharcfx_elementwise_mul_int16 (fun _ => 2) (fun _ => 1) 1 2147483648 (-31) 0 0 0
        (-32768) 32767 = [-2] ∧
      wrap16 (Requantize (((fun _ => 2 : Mem) 0 + 0) * ((fun _ => 1 : Mem) 0 + 0))
        2147483648 (-31) 0 (-32768) 32767) = 2) ∧
    (adi_sharcfx_elementwise_mul_int16 (fun _ => 32767) (fun _ => 32767) 1 2147483647 (-1) 0 0 1
        (-32768) 32767 = [-32768] ∧
      wrap16 (Requantize (((fun _ => 32767 : Mem) 0 + 0) * ((fun _ => 32767 : Mem) 0 + 0))
        2147483647 (-1) 1 (-32768) 32767) = 32767) := by
  decide

/-! ## Strategy A: the sum of a row and the place of an element -/

theorem sum_lanes (f : Nat → Int) (n k : Nat) :
    ((List.range n).map (fun l => ((List.range k).map (fun t => f (n * t + l))).sum)).sum
      = ((List.range (n * k)).map f).sum := by
  induction k with
  | zero => simp
  | succ k ih =>
    have e : n * (k + 1) = n * k + n := by ring
    have h : ∀ l, ((List.range (k + 1)).map (fun t => f (n * t + l))).sum
        = ((List.range k).map (fun t => f (n * t + l))).sum + f (n * k + l) :=
      fun l => List.sum_range_succ _ k
    rw [e, List.range_add (n * k) n, List.map_append, List.sum_append, ← ih, List.map_map]
    simp only [h]
    rw [List.sum_map_add]
    rfl

theorem macStep_iterate (pInputBuffer pWeightsBuffer : Mem) (nInputOffset nFilterOffset : Int)
    (p q k : Nat) :
    (macStep pInputBuffer pWeightsBuffer (wrap16 nInputOffset) (wrap16 nFilterOffset))^[k]
        { acc := fun _ => 0, inp := p, wtp := q }
      = { acc := fun l => ((List.range k).map (fun t =>
            macTerm pInputBuffer pWeightsBuffer nInputOffset nFilterOffset p q (16 * t + l))).sum
          inp := p + 16 * k, wtp := q + 16 * k } := by
  induction k with
  | zero => simp
  | succ k ih =>
    rw [Function.iterate_succ_apply', ih]
    simp only [macStep, PDX_MULAQW_2MX16, addZP, loadVec, PDX_M, MacState.mk.injEq]
    refine ⟨?_, by ring, by ring⟩
    funext l
    rw [List.sum_range_succ]
    simp only [PDX_MULAQW_2MX16, addZP, loadVec, macTerm, Nat.add_assoc]

theorem mask_testBit (r l : Nat) : ((1 <<< r) - 1).testBit l = decide (l < r) := by
  rw [Nat.one_shiftLeft, Nat.testBit_two_pow_sub_one]

theorem sum_masked (a t : Nat → Int) (n r : Nat) (hr : r ≤ n) :
    ((List.range n).map (fun l => if l < r then a l + t l else a l)).sum
      = ((List.range n).map a).sum + ((List.range r).map t).sum := by
  obtain ⟨m, rfl⟩ : ∃ m, n = r + m := ⟨n - r, by omega⟩
  rw [List.range_add, List.map_append, List.map_append, List.sum_append, List.sum_append,
    List.map_map, List.map_map]
  have h1 : (List.range r).map (fun l => if l < r then a l + t l else a l)
      = (List.range r).map (fun l => a l + t l) := by
    apply List.map_congr_left
    intro l hl
    rw [List.mem_range] at hl
    simp [hl]
  have h2 : (List.range m).map ((fun l => if l < r then a l + t l else a l) ∘ fun x => r + x)
      = (List.range m).map (a ∘ fun x => r + x) := by
    apply List.map_congr_left
    intro l _
    simp
  rw [h1, h2, List.sum_map_add]
  ring

theorem macTail_lanes (acc v1 v2 : Vec) (r : Nat) :
    PDX_MULAQW_2MX16_T acc v1 v2 ((1 <<< r) - 1)
      = fun l => if l < r then acc l + v1 l * v2 l else acc l := by
  funext l
  simp [PDX_MULAQW_2MX16_T, mask_testBit]

/-- The masked tail step adds the first `nFilterDepth % 16` products found at the current
pointers. -/
theorem radd_macTail (pInputBuffer pWeightsBuffer : Mem) (nInputOffset nFilterOffset : Int)
    (nFilterDepth p q k : Nat) :
    PDX_RADD_2MX40 (macTail pInputBuffer pWeightsBuffer (wrap16 nInputOffset)
        (wrap16 nFilterOffset) nFilterDepth
        { acc := fun l => ((List.range k).map (fun t =>
            macTerm pInputBuffer pWeightsBuffer nInputOffset nFilterOffset p q (16 * t + l))).sum
          inp := p + 16 * k, wtp := q + 16 * k })
      = rowSum pInputBuffer pWeightsBuffer nInputOffset nFilterOffset p q
          (16 * k + nFilterDepth % 16) := by
  have hr : nFilterDepth % 16 ≤ 16 := by omega
  simp only [PDX_RADD_2MX40, macTail, PDX_M, macTail_lanes]
  refine (sum_masked _ _ 16 (nFilterDepth % 16) hr).trans ?_
  rw [sum_lanes (macTerm pInputBuffer pWeightsBuffer nInputOffset nFilterOffset p q) 16 k]
  unfold rowSum
  rw [List.range_add, List.map_append, List.sum_append, List.map_map]
  congr 2
  apply List.map_congr_left
  intro l _
  simp only [macTerm, addZP, loadVec, Function.comp, Nat.add_assoc]

theorem radd_macStep_iterate (pInputBuffer pWeightsBuffer : Mem)
    (nInputOffset nFilterOffset : Int) (p q k : Nat) :
    PDX_RADD_2MX40 ((macStep pInputBuffer pWeightsBuffer (wrap16 nInputOffset)
        (wrap16 nFilterOffset))^[k] { acc := fun _ => 0, inp := p, wtp := q }).acc
      = rowSum pInputBuffer pWeightsBuffer nInputOffset nFilterOffset p q (16 * k) := by
  rw [macStep_iterate]
  simp only [PDX_RADD_2MX40, PDX_M]
  exact sum_lanes _ 16 k

/-- The sum that the 16-bit kernel forms: the whole row when the depth is not a multiple of
16, the row and the sixteen elements after it when it is. -/
theorem fc_int16_sum_eq (pInputBuffer pWeightsBuffer : Mem) (pBiasBuffer : Option Mem)
    (nFilterDepth : Nat) (nInputOffset nFilterOffset : Int) (b c : Nat) :
    fc_int16_sum pInputBuffer pWeightsBuffer pBiasBuffer nFilterDepth nInputOffset
        nFilterOffset b c
      = addBias (rowSum pInputBuffer pWeightsBuffer nInputOffset nFilterOffset
          (b * nFilterDepth) (nFilterDepth * c)
          (if nFilterDepth % 16 ≠ 0 then nFilterDepth else nFilterDepth + 16)) pBiasBuffer c := by
  unfold fc_int16_sum
  by_cases h16 : nFilterDepth % 16 = 0
  · simp only [h16, ne_eq, not_true_eq_false, if_false]
    rw [forLoop_eq_foldl _ _ _ (nFilterDepth + 1) 0 _ (nFilterDepth / 16 + 1) (by omega)]
    · rw [foldl_const_eq_iterate, radd_macStep_iterate]
      congr 2
      omega
    · intro j hj
      simp only [iterate_add_int, PDX_M, decide_eq_true_eq]
      push_cast
      omega
    · simp only [iterate_add_int, PDX_M, decide_eq_false_iff_not]
      push_cast
      omega
  · simp only [h16, ne_eq, not_false_eq_true, if_true]
    rw [forLoop_eq_foldl _ _ _ (nFilterDepth + 1) 0 _ ((nFilterDepth - 1) / 16) (by omega)]
    · rw [foldl_const_eq_iterate, macStep_iterate, radd_macTail]
      congr 2
      omega
    · intro j hj
      simp only [iterate_add_int, PDX_M, decide_eq_true_eq]
      push_cast
      omega
    · simp only [iterate_add_int, PDX_M, decide_eq_false_iff_not]
      push_cast
      omega

/-- The sum that Strategy A forms: the whole row when the depth is a multiple of 16, and only
its first `nFilterDepth % 16` products when it is not. -/
theorem fc_int8_sum_eq (pInputBuffer pWeightsBuffer : Mem) (pBiasBuffer : Option Mem)
    (nFilterDepth : Nat) (nInputOffset nFilterOffset : Int) (b c : Nat) :
    fc_int8_sum pInputBuffer pWeightsBuffer pBiasBuffer nFilterDepth nInputOffset
        nFilterOffset b c
      = addBias (rowSum pInputBuffer pWeightsBuffer nInputOffset nFilterOffset
          (b * nFilterDepth) (nFilterDepth * c)
          (if nFilterDepth % 16 ≠ 0 then nFilterDepth % 16 else nFilterDepth)) pBiasBuffer c := by
  unfold fc_int8_sum
  by_cases h16 : nFilterDepth % 16 = 0
  · simp only [h16, ne_eq, not_true_eq_false, if_false]
    rw [forLoop_eq_foldl _ _ _ (nFilterDepth + 1) 0 _ (nFilterDepth / 16) (by omega)]
    · rw [foldl_const_eq_iterate, radd_macStep_iterate]
      congr 2
      omega
    · intro j hj
      simp only [iterate_add_int, PDX_M, decide_eq_true_eq]
      push_cast
      omega
    · simp only [iterate_add_int, PDX_M, decide_eq_false_iff_not]
      push_cast
      omega
  · simp only [h16, ne_eq, not_false_eq_true, if_true]
    have hb : (nFilterDepth : Int) - ((nFilterDepth : Int) % 16) * nFilterDepth ≤ 0 := by
      have h1 : (1 : Int) ≤ (nFilterDepth : Int) % 16 := by omega
      have h2 : (0 : Int) ≤ (nFilterDepth : Int) := by omega
      nlinarith
    rw [forLoop_eq_foldl _ _ _ (nFilterDepth + 1) 0 _ 0 (by omega)]
    · have h0 := radd_macTail pInputBuffer pWeightsBuffer nInputOffset nFilterOffset
        nFilterDepth (b * nFilterDepth) (nFilterDepth * c) 0
      simp only [List.range_zero, List.map_nil, List.sum_nil, Nat.mul_zero, Nat.add_zero,
        Nat.zero_add] at h0
      simp only [List.range_zero, List.foldl_nil]
      rw [h0]
    · intro j hj
      omega
    · simp only [Function.iterate_zero, id_eq, decide_eq_false_iff_not]
      omega

theorem foldl_store (f : Nat → Int) (n : Nat) (init : List Int) :
    (List.range n).foldl (fun outp c => outp ++ [f c]) init = init ++ (List.range n).map f := by
  induction n with
  | zero => simp
  | succ n ih =>
    rw [List.range_succ, List.foldl_append, ih]
    simp

theorem nestedStore_length (f : Nat → Nat → Int) (B C : Nat) :
    ((List.range B).foldl (fun outp b =>
      (List.range C).foldl (fun outp c => outp ++ [f b c]) outp) []).length = B * C := by
  induction B with
  | zero => simp
  | succ B ih =>
    rw [List.range_succ, List.foldl_append]
    simp only [List.foldl_cons, List.foldl_nil]
    rw [foldl_store, List.length_append, ih]
    simp
    ring

/-- Two nested loops that store one element per iteration through `*outp++` put the element
of `(b, c)` at index `b * C + c`. -/
theorem nestedStore_getElem (f : Nat → Nat → Int) (B C b c : Nat) (hb : b < B) (hc : c < C) :
    ((List.range B).foldl (fun outp b =>
      (List.range C).foldl (fun outp c => outp ++ [f b c]) outp) [])[b * C + c]?
      = some (f b c) := by
  induction B with
  | zero => omega
  | succ B ih =>
    rw [List.range_succ, List.foldl_append]
    simp only [List.foldl_cons, List.foldl_nil]
    rw [foldl_store]
    rcases Nat.lt_succ_iff_lt_or_eq.mp hb with h | h
    · have hlt : b * C + c < B * C := by
        have : (b + 1) * C ≤ B * C := Nat.mul_le_mul_right C h
        have e : (b + 1) * C = b * C + C := by ring
        omega
      rw [List.getElem?_append_left (by rw [nestedStore_length]; exact hlt)]
      exact ih h
    · subst h
      rw [List.getElem?_append_right (by rw [nestedStore_length]; omega)]
      rw [nestedStore_length]
      simp [hc]

/-- The element that Strategy A stores for batch `b` and channel `c`. -/
theorem fc_int8_getElem (pInputBuffer pWeightsBuffer : Mem) (pBiasBuffer : Option Mem)
    (nFilterDepth nOutsize nBatches : Nat) (m : Nat) (shift zpI zpF zpO lo hi : Int)
    (b c : Nat) (hb : b < nBatches) (hc : c < nOutsize) :
    (adi_sharcfx_fully_connected_int8 pInputBuffer pWeightsBuffer pBiasBuffer nFilterDepth
        nOutsize nBatches m shift zpI zpF zpO lo hi)[b * nOutsize + c]?
      = some (wrap8 (requantize
          (addBias (rowSum pInputBuffer pWeightsBuffer zpI zpF (b * nFilterDepth)
            (nFilterDepth * c)
            (if nFilterDepth % 16 ≠ 0 then nFilterDepth % 16 else nFilterDepth)) pBiasBuffer c)
          m shift zpO lo hi)) := by
  unfold adi_sharcfx_fully_connected_int8
  rw [nestedStore_getElem (fun b c => wrap8 (requantize
    (fc_int8_sum pInputBuffer pWeightsBuffer pBiasBuffer nFilterDepth zpI zpF b c)
    m shift zpO lo hi)) nBatches nOutsize b c hb hc, fc_int8_sum_eq]

/-- The element that the 16-bit kernel stores for batch `b` and channel `c`. -/
theorem fc_int16_getElem (pInputBuffer pWeightsBuffer : Mem) (pBiasBuffer : Option Mem)
    (nFilterDepth nOutsize nBatches : Nat) (m : Nat) (shift zpI zpF zpO lo hi : Int)
    (b c : Nat) (hb : b < nBatches) (hc : c < nOutsize) :
    (adi_sharcfx_fully_connected_int16 pInputBuffer pWeightsBuffer pBiasBuffer nFilterDepth
        nOutsize nBatches m shift zpI zpF zpO lo hi)[b * nOutsize + c]?
      = some (wrap16 (requantize
          (addBias (rowSum pInputBuffer pWeightsBuffer zpI zpF (b * nFilterDepth)
            (nFilterDepth * c)
            (if nFilterDepth % 16 ≠ 0 then nFilterDepth else nFilterDepth + 16)) pBiasBuffer c)
          m shift zpO lo hi)) := by
  unfold adi_sharcfx_fully_connected_int16
  rw [nestedStore_getElem (fun b c => wrap16 (requantize
    (fc_int16_sum pInputBuffer pWeightsBuffer pBiasBuffer nFilterDepth zpI zpF b c)
    m shift zpO lo hi)) nBatches nOutsize b c hb hc, fc_int16_sum_eq]

/-! ## The add kernel and the blocks of Strategy B in closed form -/

theorem map_range_split (g : Nat → Int) (a n : Nat) (h : a ≤ n) :
    (List.range n).map g
      = (List.range a).map g ++ (List.range (n - a)).map (fun l => g (a + l)) := by
  have e : n = a + (n - a) := by omega
  conv_lhs => rw [e, List.range_add, List.map_append, List.map_map]
  rfl

theorem add_isGroupStep (pInput1 pInput2 : Mem) (kInt16Max kInt16Min : Int) :
    IsGroupStep (addFullGroup pInput1 pInput2 kInt16Max kInt16Min)
      (addElem pInput1 pInput2 kInt16Max kInt16Min) := by
  intro p n out
  simp only [addFullGroup, addGroup, PDX_SAV32_MX16, PDX_M, cvt32First8, cvt32Last8,
    PDX_ADDW_2MX16, loadVec, addElem, range16_split, List.map_append, List.map_map,
    List.append_assoc]
  norm_num
  have h8 : Int.toNat 16 / 2 = 8 := rfl
  rw [h8]
  rfl

theorem addTail_eq (pInput1 pInput2 : Mem) (kInt16Max kInt16Min : Int) (p r : Nat)
    (out : List Int) (hr1 : 1 ≤ r) (hr2 : r ≤ 16) :
    addTail pInput1 pInput2 kInt16Max kInt16Min
        { inp1 := p, inp2 := p, nPixLeft := (r : Int), outp := out }
      = out ++ (List.range r).map
          (fun l => addElem pInput1 pInput2 kInt16Max kInt16Min (p + l)) := by
  simp only [addTail, addGroup, PDX_SAV32_MX16, PDX_M, cvt32First8, cvt32Last8,
    PDX_ADDW_2MX16, loadVec, MIN, addElem]
  have e0 : ((r : Int) * 2).toNat / 2 = r := by omega
  have e1 : ((((8 : Nat) : Int)) * 2).toNat / 2 = 8 := rfl
  by_cases h8 : r ≤ 8
  · have c1 : ¬ (((8 : Nat) : Int) < (r : Int)) := by omega
    simp only [c1, if_false, sub_self, gt_iff_lt, lt_self_iff_false, e0]
    rw [Nat.min_eq_left h8]
  · have c1 : (((8 : Nat) : Int) < (r : Int)) := by omega
    have c2 : (r : Int) - ((8 : Nat) : Int) > 0 := by omega
    have e2 : (((r : Int) - ((8 : Nat) : Int)) * 2).toNat / 2 = r - 8 := by omega
    simp only [c1, if_true, c2, e1, e2, Nat.min_self]
    rw [Nat.min_eq_left (by omega : r - 8 ≤ 8)]
    rw [map_range_split _ 8 r (by omega), List.append_assoc]

/-- The elements that one batch of the add kernel appends to the output: `nInputLen` sums when
`nInputLen` is not a multiple of 16, and `nInputLen + 16` sums when it is. -/
theorem add_int16_output (pInput1 pInput2 : Mem) (nBatches nInputLen : Nat)
    (kInt16Max kInt16Min : Int) :
    adi_sharcfx_elementwise_add_int16 pInput1 pInput2 nBatches nInputLen kInt16Max kInt16Min
      = (List.range nBatches).foldl (fun outp batch =>
          outp ++ (List.range (if nInputLen % 16 = 0 then nInputLen + 16 else nInputLen)).map
            (fun t => addElem pInput1 pInput2 kInt16Max kInt16Min (batch * nInputLen + t))) [] := by
  have H := add_isGroupStep pInput1 pInput2 kInt16Max kInt16Min
  unfold adi_sharcfx_elementwise_add_int16
  by_cases h16 : nInputLen % 16 = 0
  · simp only [h16, ne_eq, not_true_eq_false, if_false, if_true]
    congr 1
    funext outp batch
    rw [groupStep_for _ _ H]
    have e : 16 * (nInputLen / 16 + 1) = nInputLen + 16 := by omega
    rw [e]
  · simp only [h16, ne_eq, not_false_eq_true, if_true, if_false]
    congr 1
    funext outp batch
    rw [groupStep_while _ _ H _ nInputLen _ (by omega)]
    rw [addTail_eq _ _ _ _ _ _ _ (by omega) (by omega)]
    rw [map_range_split _ (16 * ((nInputLen - 1) / 16)) nInputLen (by omega),
      List.append_assoc]
    simp only [Nat.add_assoc]

/-- The accumulator of a block of Strategy B after the loop over the depth. -/
theorem fcNewBlockAcc_eq (pInputBuffer pTemp : Mem) (nFilterDepth nOutsize : Nat)
    (nInputOffset nFilterOffset : Int) (inp wtp : Nat) :
    fcNewBlockAcc pInputBuffer pTemp nFilterDepth nOutsize (wrap16 nInputOffset)
        (wrap16 nFilterOffset) inp wtp
      = fun l => ((List.range nFilterDepth).map
          (fcNewTerm pInputBuffer pTemp nOutsize nInputOffset nFilterOffset inp wtp l)).sum := by
  unfold fcNewBlockAcc
  have h : ∀ k : Nat,
      (List.range k).foldl (fun (s : MacState) _ =>
        let vin : Vec := fun _ => pInputBuffer s.inp
        let vwt := loadVec pTemp s.wtp
        let vin := addZP vin (wrap16 nInputOffset)
        let vwt := addZP vwt (wrap16 nFilterOffset)
        { acc := PDX_MULAQW_2MX16 s.acc vwt vin, inp := s.inp + 1, wtp := s.wtp + nOutsize })
        { acc := fun _ => 0, inp := inp, wtp := wtp }
      = { acc := fun l => ((List.range k).map
            (fcNewTerm pInputBuffer pTemp nOutsize nInputOffset nFilterOffset inp wtp l)).sum
          inp := inp + k, wtp := wtp + k * nOutsize } := by
    intro k
    induction k with
    | zero => simp
    | succ k ih =>
      rw [List.range_succ, List.foldl_append, ih]
      simp only [List.foldl_cons, List.foldl_nil, MacState.mk.injEq]
      refine ⟨?_, by ring, by ring⟩
      funext l
      rw [List.map_append, List.sum_append]
      simp [PDX_MULAQW_2MX16, addZP, loadVec, fcNewTerm]
  rw [h nFilterDepth]

/-! ## Concrete runs of the fully-connected and add kernels -/

/-- C3, a run of the code.  Strategy A with `depth = 17`, one channel, one batch, seventeen
inputs `1`, seventeen weights `1`, zero points `0`, no bias, multiplier `1`, shift `0` and
range `[-128, 127]`: the bound `nFilterDepth_16mul` is `17 - 1 * 17 = 0`, no full group is
accumulated, the masked step adds the single product at index `0`, and the kernel stores `1`.
The formula of the spec gives `17`. -/
theorem fc_int8_depth17_drops_full_groups :
    adi_sharcfx_fully_connected_int8 (onesUpTo 17) (onesUpTo 17) none 17 1 1 1 0 0 0 0 (-128) 127
      = [1] ∧
    wrap8 (Requantize (fcAcc (onesUpTo 17) (onesUpTo 17) none 17 0 0 0 0) 1 0 0 (-128) 127)
      = 17 := by
  decide

/-- C4, a run of the code.  The 16-bit kernel with `depth = 16`, two channels, two batches,
thirty-two inputs `1` and thirty-two weights `1`, zero points `0`, no bias, multiplier `1`,
shift `0`: the loop `nFilterCnt <= nFilterDepth` accumulates two groups, so the element of
batch `0` and channel `0` also sums the row of batch `1` against the row of channel `1` and
is `32`.  The formula of the spec gives `16`. -/
theorem fc_int16_depth16_reads_next_row :
    adi_sharcfx_fully_connected_int16 (onesUpTo 32) (onesUpTo 32) none 16 2 2 1 0 0 0 0
      (-32768) 32767 = [32, 16, 16, 16] ∧
    wrap16 (Requantize (fcAcc (onesUpTo 32) (onesUpTo 32) none 16 0 0 0 0) 1 0 0 (-32768) 32767)
      = 16 := by
  decide

/-- C5, a run of the code.  With `depth = 17`, one channel, one batch, seventeen inputs `1`
and seventeen weights `1`, Strategy A stores `1` and Strategy B stores `17`.  With
`depth = 2`, seventeen channels and one batch, Strategy A stores seventeen elements and
Strategy B stores thirty-two. -/
theorem fc_int8_strategies_differ :
    adi_sharcfx_fully_connected_int8 (onesUpTo 17) (onesUpTo 17) none 17 1 1 1 0 0 0 0 (-128) 127
      ≠ adi_sharcfx_fully_connected_int8_new (onesUpTo 17) (onesUpTo 17) none 17 1 1 1 0 0 0 0
          (-128) 127 zeroMem ∧
    (adi_sharcfx_fully_connected_int8 (onesUpTo 2) (onesUpTo 34) none 2 17 1 1 0 0 0 0
      (-128) 127).length = 17 ∧
    (adi_sharcfx_fully_connected_int8_new (onesUpTo 2) (onesUpTo 34) none 2 17 1 1 0 0 0 0
      (-128) 127 zeroMem).length = 32 := by
  decide

/-- C6, a run of the code.  Strategy B with `depth = 1`, seventeen channels, seventeen
batches, the input of batch `0` equal to `1` and of every other batch equal to `0`, all weights
`1`, zero points `0`, no bias, multiplier `1`, shift `0`: the second block of batch `0` reads
its input at `pInputBuffer + 0 * depth + 16`, the row of batch `16`, so output index
`0 * 17 + 16` holds `0`.  The formula of the spec gives `1`. -/
theorem fc_int8_new_second_block_input_offset :
    (adi_sharcfx_fully_connected_int8_new (onesUpTo 1) (onesUpTo 17) none 1 17 17 1 0 0 0 0
      (-128) 127 zeroMem)[0 * 17 + 16]? = some 0 ∧
    wrap8 (Requantize (fcAcc (onesUpTo 1) (onesUpTo 17) none 1 0 0 0 16) 1 0 0 (-128) 127)
      = 1 := by
  decide

/-- C8, a run of the code.  The add kernel with three batches of length `16`, first operand
`a[i] = i`, second operand `0` and range `[-32768, 32767]`: every batch runs the loop
`i <= nInputLen` twice and stores thirty-two elements, so output index `2 * 16 + 0` holds
`a[16] + b[16] = 16`, stored by batch `1`.  The formula of the spec gives
`clamp(a[32] + b[32]) = 32`. -/
theorem add_int16_length16_shifts_batches :
    (adi_sharcfx_elementwise_add_int16 rampMem zeroMem 3 16 32767 (-32768))[2 * 16 + 0]?
      = some 16 ∧
    clamp (rampMem (2 * 16 + 0) + zeroMem (2 * 16 + 0)) (-32768) 32767 = 32 ∧
    (adi_sharcfx_elementwise_add_int16 rampMem zeroMem 3 16 32767 (-32768)).length = 96 := by
  decide

/-! ## Blocked transpose -/

/-- After `transform_matrices` the destination holds the transposed element at every index
`j*M + i` with `i < M` and `j < N`. -/
theorem transform_matrices_at (inputMat outputMat : Mem) (M N i j : Nat)
    (hi : i < M) (hj : j < N) :
    transform_matrices inputMat M N outputMat (j * M + i) = inputMat (i * N + j) := by
  have h : transform_matrices inputMat M N outputMat (j * M + i)
      = transposeVal inputMat M N (j * M + i) :=
    (transform_writes inputMat M N outputMat (j * M + i)).1 ⟨i, j, hi, hj, rfl⟩
  rw [h]
  unfold transposeVal
  rw [idx_mod M j i hi, idx_div M j i hi]

/-- C9: for every `M`, `N`, every input and every prior content of the destination, after
`transform_matrices` the destination holds `output[j*M + i] = input[i*N + j]` for all
`i < M` and `j < N`, whether or not `M` is a multiple of the block size `4`. -/
theorem transform_matrices_transposes (inputMat outputMat : Mem) (M N i j : Nat)
    (hi : i < M) (hj : j < N) :
    transform_matrices inputMat M N outputMat (j * M + i) = inputMat (i * N + j) :=
  transform_matrices_at inputMat outputMat M N i j hi hj

theorem transform_matrices_transposes_witness :
    transform_matrices rampMem 5 3 zeroMem (2 * 5 + 4) = rampMem (4 * 3 + 2) :=
  transform_matrices_transposes rampMem zeroMem 5 3 4 2 (by decide) (by decide)

/-- C10: `transform_matrices` is involutive.  For every `M`, `N` and every `M*N` matrix `A`,
transposing `A` with dimensions `(M, N)` and transposing the result with dimensions `(N, M)`
gives `A` again at every index below `M*N`, whatever the two destinations held before and
whether or not `M` or `N` is divisible by `4`. -/
theorem transform_matrices_involutive (A out1 out2 : Mem) (M N a : Nat) (ha : a < M * N) :
    transform_matrices (transform_matrices A M N out1) N M out2 a = A a := by
  have hN : 0 < N := by
    rcases Nat.eq_zero_or_pos N with h | h
    · subst h; simp at ha
    · exact h
  have hj : a % N < N := Nat.mod_lt _ hN
  have hi : a / N < M := by
    apply Nat.div_lt_of_lt_mul
    rw [Nat.mul_comm]; exact ha
  have ea : a = (a / N) * N + a % N := by
    have := Nat.div_add_mod a N
    rw [Nat.mul_comm] at this
    exact this.symm
  have h1 := transform_matrices_at (transform_matrices A M N out1) out2 N M
    (a % N) (a / N) hj hi
  have h2 := transform_matrices_at A out1 M N (a / N) (a % N) hi hj
  rw [← ea] at h1 h2
  rw [h1, h2]

theorem transform_matrices_involutive_witness :
    transform_matrices (transform_matrices rampMem 5 3 zeroMem) 3 5 zeroMem 14 = rampMem 14 :=
  transform_matrices_involutive rampMem zeroMem zeroMem 5 3 14 (by decide)

/-! ## What the requantization does at its edges -/

/-- The vector lane in the words of the spec, for every lane value of the multiplier. -/
theorem requantLane_eq_roundingShift (x mult shift zp : Int) (round_mode : Nat) :
    requantLane x mult shift zp round_mode
      = wrap32 (saturateToInt32 (roundingShift (mult * x) shift) + zp) := by
  unfold requantLane PDX_MULW_32 PDX_SLA_80 PDX_PACKQSRV_80 roundingShift
  split_ifs
  · simp only [roundShift_zero, sat32_eq_saturateToInt32, sat80_eq_clamp]
  · simp only [sat32_eq_saturateToInt32]

/-- The scalar pipeline in the words of the spec, for every shift. -/
theorem requantize_eq_roundingShift (acc : Int) (m : Nat) (shift zp lo hi : Int) :
    requantize acc m shift zp lo hi
      = clampMinMax (wrap32 (saturateToInt32 (roundingShift (wrap32 acc * m) shift) + zp))
          lo hi := by
  unfold requantize PDX_MULW_32 PDX_SLA_80 PDX_PACKQSRV_80 roundingShift clampMinMax
  split_ifs
  · simp only [roundShift_zero, sat32_eq_saturateToInt32, sat80_eq_clamp]
  · simp only [sat32_eq_saturateToInt32]

/-- Above the 32-bit range both saturations end at `INT32_MAX`. -/
theorem sat32_sat80_hi (x : Int) (h : INT32_MAX < x) : sat32 (sat80 x) = INT32_MAX := by
  unfold sat32 sat80 MIN MAX INT80_MIN INT80_MAX INT32_MIN INT32_MAX
  unfold INT32_MAX at h
  split_ifs <;> omega

/-- Below the 32-bit range both saturations end at `INT32_MIN`. -/
theorem sat32_sat80_lo (x : Int) (h : x < INT32_MIN) : sat32 (sat80 x) = INT32_MIN := by
  unfold sat32 sat80 MIN MAX INT80_MIN INT80_MAX INT32_MIN INT32_MAX
  unfold INT32_MIN at h
  split_ifs <;> omega

/-- The pack of a left-shifted product that leaves the 32-bit range is the bound on the side
of the sign of the product. -/
theorem pack_shiftLeft_saturates (p shift : Int) (round_mode : Nat) (hs : 0 ≤ shift)
    (hout : p * 2 ^ shift.toNat < INT32_MIN ∨ INT32_MAX < p * 2 ^ shift.toNat) :
    (0 < p → PDX_PACKQSRV_80 (PDX_SLA_80 p shift) round_mode = INT32_MAX) ∧
    (p < 0 → PDX_PACKQSRV_80 (PDX_SLA_80 p shift) round_mode = INT32_MIN) := by
  have hq : (0 : Int) < 2 ^ shift.toNat := by positivity
  simp only [PDX_SLA_80, PDX_PACKQSRV_80, hs, if_true, roundShift_zero]
  constructor
  · intro hp
    have hx : 0 < p * 2 ^ shift.toNat := mul_pos hp hq
    rcases hout with h | h
    · unfold INT32_MIN at h; omega
    · exact sat32_sat80_hi _ h
  · intro hp
    have hx : p * 2 ^ shift.toNat < 0 := mul_neg_of_neg_of_pos hp hq
    rcases hout with h | h
    · exact sat32_sat80_lo _ h
    · unfold INT32_MAX at h; omega

/-- The rounded quotient is odd in its dividend. -/
theorem roundShift_neg (p : Int) (k : Nat) : roundShift (-p) k = -roundShift p k := by
  have hq : (0 : Int) < 2 ^ k := by positivity
  unfold roundShift
  generalize (2 : Int) ^ k = q at hq
  rcases lt_trichotomy p 0 with h | h | h
  · have h1 : ¬ (0 ≤ p) := by omega
    have h2 : 0 ≤ -p := by omega
    simp only [h1, h2, if_true, if_false, neg_neg]
  · subst h
    have h3 : (q / 2) / q = 0 := Int.ediv_eq_zero_of_lt (by omega) (by omega)
    simp [h3]
  · have h1 : 0 ≤ p := by omega
    have h2 : ¬ (0 ≤ -p) := by omega
    simp only [h1, h2, if_true, if_false, neg_neg]

/-- An exact tie `(2k + 1) * 2^(n-1)` over `2^n` rounds up to `k + 1`. -/
theorem roundShift_tie (k n : Nat) (hn : 1 ≤ n) :
    roundShift ((2 * (k : Int) + 1) * 2 ^ (n - 1)) n = k + 1 := by
  obtain ⟨j, rfl⟩ : ∃ j, n = j + 1 := ⟨n - 1, by omega⟩
  have hq : (0 : Int) < 2 ^ j := by positivity
  have e : (2 : Int) ^ (j + 1) = 2 * 2 ^ j := by ring
  unfold roundShift
  simp only [Nat.add_sub_cancel, e]
  generalize (2 : Int) ^ j = q at hq
  have h0 : 0 ≤ (2 * (k : Int) + 1) * q := by positivity
  have h1 : 2 * q / 2 = q := by omega
  rw [if_pos h0, h1]
  have h2 : (2 * (k : Int) + 1) * q + q = ((k : Int) + 1) * (2 * q) := by ring
  rw [h2, Int.mul_ediv_cancel _ (by omega)]

/-- The 32-bit saturation keeps a value of the 32-bit range. -/
theorem sat32_of_fits (x : Int) (h1 : INT32_MIN ≤ x) (h2 : x ≤ INT32_MAX) : sat32 x = x := by
  unfold sat32 MIN MAX
  unfold INT32_MIN at *
  unfold INT32_MAX at *
  split_ifs <;> omega

/-- The 80-bit saturation of the shift is absorbed by the 32-bit saturation of the pack. -/
theorem sat32_sat80 (x : Int) : sat32 (sat80 x) = saturateToInt32 x := by
  unfold sat32 sat80 saturateToInt32 clamp MIN MAX INT80_MIN INT80_MAX INT32_MIN INT32_MAX
  split_ifs <;> omega

/-- A left shift packs the exact shifted value saturated to 32 bits. -/
theorem pack_shiftLeft (p shift : Int) (round_mode : Nat) (hs : 0 ≤ shift) :
    PDX_PACKQSRV_80 (PDX_SLA_80 p shift) round_mode
      = saturateToInt32 (p * 2 ^ shift.toNat) := by
  simp only [PDX_SLA_80, PDX_PACKQSRV_80, hs, if_true, roundShift_zero]
  exact sat32_sat80 _

/-- A right shift packs the quotient rounded to nearest, ties away from zero, saturated to
32 bits. -/
theorem pack_shiftRight (p shift r : Int) (round_mode : Nat) (hs : shift < 0)
    (hr : IsRoundHalfAway p (-shift).toNat r) :
    PDX_PACKQSRV_80 (PDX_SLA_80 p shift) round_mode = saturateToInt32 r := by
  have hneg : ¬ (0 ≤ shift) := by omega
  simp only [PDX_SLA_80, PDX_PACKQSRV_80, hneg, if_false, sat32_eq_saturateToInt32]
  rw [isRoundHalfAway_unique _ _ _ _ hr (roundShift_isRoundHalfAway _ _)]

/-- From a left shift of 31 bits on, every product other than `0` is saturated. -/
theorem pack_shiftLeft_far (p shift : Int) (round_mode : Nat) (hs : 31 ≤ shift) :
    (0 < p → PDX_PACKQSRV_80 (PDX_SLA_80 p shift) round_mode = INT32_MAX) ∧
    (p < 0 → PDX_PACKQSRV_80 (PDX_SLA_80 p shift) round_mode = INT32_MIN) ∧
    (p = 0 → PDX_PACKQSRV_80 (PDX_SLA_80 p shift) round_mode = 0) := by
  rw [pack_shiftLeft p shift round_mode (by omega)]
  have hk : 31 ≤ shift.toNat := by omega
  have hpow : (2 : Int) ^ 31 ≤ 2 ^ shift.toNat := pow_le_pow_right₀ (by norm_num) hk
  have h31 : (2 : Int) ^ 31 = 2147483648 := by norm_num
  generalize (2 : Int) ^ shift.toNat = q at hpow
  refine ⟨fun h => ?_, fun h => ?_, fun h => ?_⟩
  · have : 1 * q ≤ p * q := Int.mul_le_mul_of_nonneg_right (by omega) (by omega)
    unfold saturateToInt32 clamp INT32_MIN INT32_MAX
    omega
  · have : p * q ≤ (-1) * q := Int.mul_le_mul_of_nonneg_right (by omega) (by omega)
    unfold saturateToInt32 clamp INT32_MIN INT32_MAX
    omega
  · subst h
    simp [saturateToInt32, clamp, INT32_MIN, INT32_MAX]

/-- A dividend below half the divisor is rounded to `0`. -/
theorem roundShift_small (p : Int) (k : Nat) (h1 : -(2 ^ k : Int) < 2 * p)
    (h2 : 2 * p < 2 ^ k) : roundShift p k = 0 := by
  have hq : (0 : Int) < 2 ^ k := by positivity
  unfold roundShift
  generalize (2 : Int) ^ k = q at hq h1 h2
  split_ifs with h
  · exact Int.ediv_eq_zero_of_lt (by omega) (by omega)
  · rw [Int.ediv_eq_zero_of_lt (by omega) (by omega)]
    rfl

/-- From a right shift of 64 bits on, every product of two 32-bit values is rounded
to `0`. -/
theorem pack_shiftRight_far (p shift : Int) (round_mode : Nat) (hs : shift ≤ -64)
    (hp1 : -9223372036854775808 < p) (hp2 : p < 9223372036854775808) :
    PDX_PACKQSRV_80 (PDX_SLA_80 p shift) round_mode = 0 := by
  have hneg : ¬ (0 ≤ shift) := by omega
  have hk : 64 ≤ (-shift).toNat := by omega
  have hpow : (2 : Int) ^ 64 ≤ 2 ^ (-shift).toNat := pow_le_pow_right₀ (by norm_num) hk
  have h64 : (2 : Int) ^ 64 = 18446744073709551616 := by norm_num
  simp only [PDX_SLA_80, PDX_PACKQSRV_80, hneg, if_false]
  rw [roundShift_small p _ (by omega) (by omega)]
  decide

/-- The product of a 32-bit accumulator and an unsigned 32-bit multiplier lies strictly
between `-2^63` and `2^63`. -/
theorem product_bound (a b : Int) (ha1 : -2147483648 ≤ a) (ha2 : a ≤ 2147483647)
    (hb1 : -2147483648 ≤ b) (hb2 : b ≤ 4294967295) :
    -9223372036854775808 < a * b ∧ a * b < 9223372036854775808 := by
  constructor <;> nlinarith

/-- The signed 32-bit reading of a value lies in the 32-bit range. -/
theorem wrap32_range (x : Int) : -2147483648 ≤ wrap32 x ∧ wrap32 x ≤ 2147483647 := by
  unfold wrap32
  omega

/-- C18, as the code has it: what the requantization returns at its edges.  For every 32-bit
accumulator, every unsigned 32-bit multiplier, every shift of any sign and size, every zero
point and every `min` and `max`, with `p` the exact product (the vector lane reads the
multiplier as a signed 32-bit value): a shift `≥ 0` packs `p * 2^shift` saturated to 32
bits, which from shift `31` on is `INT32_MAX` for `p > 0`, `INT32_MIN` for `p < 0` and `0`
for `p = 0`; a shift `< 0` packs the quotient rounded to nearest with ties away from zero,
saturated to 32 bits, which from shift `-64` on is `0`; the zero point is then added in 32
bits with wrap-around and the sum is clamped. -/
theorem requantize_edge_cases (acc x : Int) (m : Nat) (shift zp lo hi : Int)
    (round_mode : Nat)
    (hacc : INT32_MIN ≤ acc ∧ acc ≤ INT32_MAX) (hx : INT32_MIN ≤ x ∧ x ≤ INT32_MAX)
    (hm : m < 4294967296) :
    (0 ≤ shift →
      requantize acc m shift zp lo hi
        = clampMinMax (wrap32 (saturateToInt32 (acc * m * 2 ^ shift.toNat) + zp)) lo hi ∧
      requantLane x (wrap32 m) shift zp round_mode
        = wrap32 (saturateToInt32 (wrap32 m * x * 2 ^ shift.toNat) + zp)) ∧
    (31 ≤ shift →
      (0 < acc * m →
        requantize acc m shift zp lo hi = clampMinMax (wrap32 (INT32_MAX + zp)) lo hi) ∧
      (acc * m < 0 →
        requantize acc m shift zp lo hi = clampMinMax (wrap32 (INT32_MIN + zp)) lo hi) ∧
      (acc * m = 0 → requantize acc m shift zp lo hi = clampMinMax (wrap32 zp) lo hi) ∧
      (0 < wrap32 m * x →
        requantLane x (wrap32 m) shift zp round_mode = wrap32 (INT32_MAX + zp)) ∧
      (wrap32 m * x < 0 →
        requantLane x (wrap32 m) shift zp round_mode = wrap32 (INT32_MIN + zp)) ∧
      (wrap32 m * x = 0 → requantLane x (wrap32 m) shift zp round_mode = wrap32 zp)) ∧
    (shift < 0 →
      (∀ r, IsRoundHalfAway (acc * m) (-shift).toNat r →
        requantize acc m shift zp lo hi
          = clampMinMax (wrap32 (saturateToInt32 r + zp)) lo hi) ∧
      (∀ r, IsRoundHalfAway (wrap32 m * x) (-shift).toNat r →
        requantLane x (wrap32 m) shift zp round_mode = wrap32 (saturateToInt32 r + zp))) ∧
    (shift ≤ -64 →
      requantize acc m shift zp lo hi = clampMinMax (wrap32 zp) lo hi ∧
      requantLane x (wrap32 m) shift zp round_mode = wrap32 zp) := by
  have hwm := wrap32_range (m : Int)
  have hm2 : (m : Int) ≤ 4294967295 := by omega
  have hb1 := product_bound acc m hacc.1 hacc.2 (by omega) hm2
  have hb2 := product_bound x (wrap32 m) hx.1 hx.2 hwm.1 (by omega)
  rw [mul_comm x] at hb2
  have hw : wrap32 acc = acc := wrap32_of_fits acc hacc.1 hacc.2
  have hs : requantize acc m shift zp lo hi
      = clampMinMax (wrap32 (PDX_PACKQSRV_80 (PDX_SLA_80 (acc * m) shift) 2 + zp)) lo hi := by
    unfold requantize clampMinMax PDX_MULW_32
    simp only [hw]
  have hl : requantLane x (wrap32 m) shift zp round_mode
      = wrap32 (PDX_PACKQSRV_80 (PDX_SLA_80 (wrap32 m * x) shift) round_mode + zp) := rfl
  rw [hs, hl]
  refine ⟨fun h => ?_, fun h => ?_, fun h => ?_, fun h => ?_⟩
  · rw [pack_shiftLeft _ _ _ h, pack_shiftLeft _ _ _ h]
    exact ⟨rfl, rfl⟩
  · have h2 := pack_shiftLeft_far (acc * m) shift 2 h
    have hr := pack_shiftLeft_far (wrap32 m * x) shift round_mode h
    refine ⟨fun hp => ?_, fun hp => ?_, fun hp => ?_, fun hp => ?_, fun hp => ?_,
      fun hp => ?_⟩
    · rw [h2.1 hp]
    · rw [h2.2.1 hp]
    · rw [h2.2.2 hp, zero_add]
    · rw [hr.1 hp]
    · rw [hr.2.1 hp]
    · rw [hr.2.2 hp, zero_add]
  · refine ⟨fun r hr => ?_, fun r hr => ?_⟩
    · rw [pack_shiftRight _ _ r _ h hr]
    · rw [pack_shiftRight _ _ r _ h hr]
  · rw [pack_shiftRight_far _ _ _ h hb1.1 hb1.2, pack_shiftRight_far _ _ _ h hb2.1 hb2.2,
      zero_add]
    exact ⟨rfl, rfl⟩

theorem requantize_edge_cases_witness :
    (requantize 3 5 2 1 (-128) 127
        = clampMinMax (wrap32 (saturateToInt32 (3 * (5 : Nat) * 2 ^ (2 : Int).toNat) + 1))
            (-128) 127 ∧
      requantize 3 5 2147483647 1 (-128) 127 = clampMinMax (wrap32 (INT32_MAX + 1)) (-128) 127 ∧
      requantLane (-3) (wrap32 (5 : Nat)) 2147483647 1 2 = wrap32 (INT32_MIN + 1)) ∧
    (requantize 5 3 (-1) 1 (-128) 127 = clampMinMax (wrap32 (saturateToInt32 8 + 1)) (-128) 127 ∧
      requantize (-2147483648) 4294967295 (-2147483648) 1 (-128) 127
        = clampMinMax (wrap32 1) (-128) 127 ∧
      requantLane (-2147483648) (wrap32 (2147483648 : Nat)) (-64) 1 2 = wrap32 1) :=
  ⟨⟨((requantize_edge_cases 3 (-3) 5 2 1 (-128) 127 2 (by decide) (by decide)
        (by decide)).1 (by decide)).1,
      ((requantize_edge_cases 3 (-3) 5 2147483647 1 (-128) 127 2 (by decide) (by decide)
        (by decide)).2.1 (by decide)).1 (by decide),
      ((requantize_edge_cases 3 (-3) 5 2147483647 1 (-128) 127 2 (by decide) (by decide)
        (by decide)).2.1 (by decide)).2.2.2.2.1 (by decide)⟩,
    ⟨((requantize_edge_cases 5 5 3 (-1) 1 (-128) 127 2 (by decide) (by decide)
        (by decide)).2.2.1 (by decide)).1 8 (by unfold IsRoundHalfAway; norm_num),
      ((requantize_edge_cases (-2147483648) (-2147483648) 4294967295 (-2147483648) 1 (-128)
        127 2 (by decide) (by decide) (by decide)).2.2.2 (by decide)).1,
      ((requantize_edge_cases (-2147483648) (-2147483648) 2147483648 (-64) 1 (-128) 127 2
        (by decide) (by decide) (by decide)).2.2.2 (by decide)).2⟩⟩

/-- C18 fails as stated: not every edge case is resolved by saturation.  With `acc = 1`,
multiplier `1`, `shift = 40`, `zp = 1` and the full 32-bit range the packed value saturates
to `INT32_MAX`, the 32-bit addition of the zero point wraps, and the scalar pipeline returns
`INT32_MIN` where the saturating formula gives `INT32_MAX`.  With multiplier `2^32 - 1`,
`acc = 1`, `shift = 0` and `zp = 0` the vector lane reads the multiplier as `-1` and returns
`-1` where the formula gives `INT32_MAX`. -/
theorem requantize_edge_cases_counterexample :
    (requantize 1 1 40 1 INT32_MIN INT32_MAX = INT32_MIN ∧
      Requantize 1 1 40 1 INT32_MIN INT32_MAX = INT32_MAX) ∧
    (clampMinMax (requantLane 1 (wrap32 (4294967295 : Nat)) 0 0 2) INT32_MIN INT32_MAX = -1 ∧
      Requantize 1 4294967295 0 0 INT32_MIN INT32_MAX = INT32_MAX) := by
  decide

/-- C19, as the code has it: for every shift `≥ 0`, every accumulator and multiplier whose
exact value `acc * multiplier * 2^shift` leaves the 32-bit range, the value packed by the
scalar pipeline is `INT32_MAX` when `acc * multiplier > 0` and `INT32_MIN` when
`acc * multiplier < 0`; the vector lane packs the same value when the multiplier is below
`2^31`. -/
theorem shift_pack_saturates (acc : Int) (m : Nat) (shift : Int) (round_mode : Nat)
    (hs : 0 ≤ shift)
    (hout : acc * m * 2 ^ shift.toNat < INT32_MIN ∨ INT32_MAX < acc * m * 2 ^ shift.toNat) :
    (0 < acc * m →
      PDX_PACKQSRV_80 (PDX_SLA_80 (PDX_MULW_32 acc m) shift) 2 = INT32_MAX ∧
      (m < 2147483648 →
        PDX_PACKQSRV_80 (PDX_SLA_80 (PDX_MULW_32 (wrap32 m) acc) shift) round_mode
          = INT32_MAX)) ∧
    (acc * m < 0 →
      PDX_PACKQSRV_80 (PDX_SLA_80 (PDX_MULW_32 acc m) shift) 2 = INT32_MIN ∧
      (m < 2147483648 →
        PDX_PACKQSRV_80 (PDX_SLA_80 (PDX_MULW_32 (wrap32 m) acc) shift) round_mode
          = INT32_MIN)) := by
  have hlane : m < 2147483648 → PDX_MULW_32 (wrap32 m) acc = acc * m := by
    intro hm
    have hw : wrap32 (m : Int) = m := by unfold wrap32; omega
    rw [PDX_MULW_32, hw, mul_comm]
  have h2 := pack_shiftLeft_saturates (acc * m) shift 2 hs hout
  have hr := pack_shiftLeft_saturates (acc * m) shift round_mode hs hout
  refine ⟨fun hp => ⟨h2.1 hp, fun hm => ?_⟩, fun hp => ⟨h2.2 hp, fun hm => ?_⟩⟩
  · rw [hlane hm]; exact hr.1 hp
  · rw [hlane hm]; exact hr.2 hp

theorem shift_pack_saturates_witness :
    (PDX_PACKQSRV_80 (PDX_SLA_80 (PDX_MULW_32 3 (5 : Nat)) 40) 2 = INT32_MAX ∧
      PDX_PACKQSRV_80 (PDX_SLA_80 (PDX_MULW_32 (wrap32 (5 : Nat)) 3) 40) 2 = INT32_MAX) ∧
    (PDX_PACKQSRV_80 (PDX_SLA_80 (PDX_MULW_32 (-3) (5 : Nat)) 40) 2 = INT32_MIN ∧
      PDX_PACKQSRV_80 (PDX_SLA_80 (PDX_MULW_32 (wrap32 (5 : Nat)) (-3)) 40) 2 = INT32_MIN) :=
  have hp := (shift_pack_saturates 3 5 40 2 (by decide) (Or.inr (by decide))).1 (by decide)
  have hn := (shift_pack_saturates (-3) 5 40 2 (by decide) (Or.inl (by decide))).2 (by decide)
  ⟨⟨hp.1, hp.2 (by decide)⟩, ⟨hn.1, hn.2 (by decide)⟩⟩

/-- C19 fails as stated.  With `acc = 1`, multiplier `2^31` and `shift = 1` the exact value
`2^32` lies above the 32-bit range and `acc * multiplier > 0`, yet the vector lane, which
reads the multiplier as `-2^31`, packs `INT32_MIN`: the sign has changed. -/
theorem shift_pack_saturates_counterexample :
    INT32_MAX < 1 * ((2147483648 : Nat) : Int) * 2 ^ (1 : Int).toNat ∧
    0 < 1 * ((2147483648 : Nat) : Int) ∧
    PDX_PACKQSRV_80 (PDX_SLA_80 (PDX_MULW_32 (wrap32 (2147483648 : Nat)) 1) 1) 2
      = INT32_MIN := by
  decide

/-- C20: the rounding of a right shift is to nearest with ties away from zero and is
symmetric in the sign.  For every shift `< 0` and every product `p = acc * multiplier` whose
rounded quotient `r` and its negation both lie in the 32-bit range, the pipeline packs `r`
for `acc` and `-r` for `-acc`, in the operand order of the scalar pipeline and in that of the
vector lane; and for every `k ≥ 0` with `k + 1` in the 32-bit range the exact tie
`(2k + 1) * 2^(-shift - 1)` is packed to `k + 1` and its negation to `-(k + 1)`. -/
theorem rounding_sign_symmetric (acc multiplier shift r : Int) (k round_mode : Nat)
    (hs : shift < 0)
    (hr : IsRoundHalfAway (acc * multiplier) (-shift).toNat r)
    (hr1 : INT32_MIN ≤ r ∧ r ≤ INT32_MAX) (hr2 : INT32_MIN ≤ -r ∧ -r ≤ INT32_MAX)
    (hk : (k : Int) + 1 ≤ INT32_MAX) :
    (PDX_PACKQSRV_80 (PDX_SLA_80 (PDX_MULW_32 acc multiplier) shift) round_mode = r ∧
      PDX_PACKQSRV_80 (PDX_SLA_80 (PDX_MULW_32 (-acc) multiplier) shift) round_mode = -r) ∧
    (PDX_PACKQSRV_80 (PDX_SLA_80 (PDX_MULW_32 multiplier acc) shift) round_mode = r ∧
      PDX_PACKQSRV_80 (PDX_SLA_80 (PDX_MULW_32 multiplier (-acc)) shift) round_mode = -r) ∧
    (PDX_PACKQSRV_80
        (PDX_SLA_80 ((2 * (k : Int) + 1) * 2 ^ ((-shift).toNat - 1)) shift) round_mode
        = k + 1 ∧
      PDX_PACKQSRV_80
        (PDX_SLA_80 (-((2 * (k : Int) + 1) * 2 ^ ((-shift).toNat - 1))) shift) round_mode
        = -((k : Int) + 1)) := by
  have hs0 : ¬ (0 ≤ shift) := by omega
  have hn : 1 ≤ (-shift).toNat := by omega
  have hq : r = roundShift (acc * multiplier) (-shift).toNat :=
    isRoundHalfAway_unique _ _ _ _ hr (roundShift_isRoundHalfAway _ _)
  have hk1 : INT32_MIN ≤ (k : Int) + 1 := by unfold INT32_MIN; omega
  have hk2 : INT32_MIN ≤ -((k : Int) + 1) ∧ -((k : Int) + 1) ≤ INT32_MAX := by
    unfold INT32_MIN at *; unfold INT32_MAX at *; omega
  simp only [PDX_SLA_80, PDX_PACKQSRV_80, PDX_MULW_32, hs0, if_false, neg_mul, mul_neg,
    mul_comm multiplier acc, roundShift_neg, roundShift_tie k _ hn, ← hq]
  exact ⟨⟨sat32_of_fits _ hr1.1 hr1.2, sat32_of_fits _ hr2.1 hr2.2⟩,
    ⟨sat32_of_fits _ hr1.1 hr1.2, sat32_of_fits _ hr2.1 hr2.2⟩,
    ⟨sat32_of_fits _ hk1 hk, sat32_of_fits _ hk2.1 hk2.2⟩⟩

theorem rounding_sign_symmetric_witness :
    (PDX_PACKQSRV_80 (PDX_SLA_80 (PDX_MULW_32 5 3) (-1)) 2 = 8 ∧
      PDX_PACKQSRV_80 (PDX_SLA_80 (PDX_MULW_32 (-5) 3) (-1)) 2 = -8) ∧
    (PDX_PACKQSRV_80 (PDX_SLA_80 (PDX_MULW_32 3 5) (-1)) 2 = 8 ∧
      PDX_PACKQSRV_80 (PDX_SLA_80 (PDX_MULW_32 3 (-5)) (-1)) 2 = -8) ∧
    (PDX_PACKQSRV_80
        (PDX_SLA_80 ((2 * ((7 : Nat) : Int) + 1) * 2 ^ ((-(-1 : Int)).toNat - 1)) (-1)) 2
        = (7 : Nat) + 1 ∧
      PDX_PACKQSRV_80
        (PDX_SLA_80 (-((2 * ((7 : Nat) : Int) + 1) * 2 ^ ((-(-1 : Int)).toNat - 1))) (-1)) 2
        = -(((7 : Nat) : Int) + 1)) :=
  rounding_sign_symmetric 5 3 (-1) 8 7 2 (by decide)
    (by unfold IsRoundHalfAway; norm_num) (by decide) (by decide) (by decide)

/-! ## The accumulator of the 16-bit fully-connected kernel -/

/-- The row sum of the lanes is the sum of the spec when every operand plus its zero point
fits in a 16-bit lane. -/
theorem rowSum_eq_exact (pInputBuffer pWeightsBuffer : Mem) (zpI zpF : Int) (p q n : Nat)
    (hin : ∀ d, d < n →
      -32768 ≤ pInputBuffer (p + d) + zpI ∧ pInputBuffer (p + d) + zpI ≤ 32767)
    (hw : ∀ d, d < n →
      -32768 ≤ pWeightsBuffer (q + d) + zpF ∧ pWeightsBuffer (q + d) + zpF ≤ 32767) :
    rowSum pInputBuffer pWeightsBuffer zpI zpF p q n
      = ((List.range n).map (fun d =>
          (pInputBuffer (p + d) + zpI) * (pWeightsBuffer (q + d) + zpF))).sum := by
  unfold rowSum
  congr 1
  apply List.map_congr_left
  intro d hd
  rw [List.mem_range] at hd
  unfold macTerm
  rw [wrap16_add_wrap16, wrap16_add_wrap16, wrap16_of_fits _ (hw d hd).1 (hw d hd).2,
    wrap16_of_fits _ (hin d hd).1 (hin d hd).2, mul_comm]

/-- The row sum with the bias term is the accumulator of the spec under the same bounds. -/
theorem addBias_rowSum_eq_fcAcc (pInputBuffer pWeightsBuffer : Mem) (pBiasBuffer : Option Mem)
    (nFilterDepth : Nat) (zpI zpF : Int) (b c : Nat)
    (hin : ∀ d, d < nFilterDepth → -32768 ≤ pInputBuffer (b * nFilterDepth + d) + zpI ∧
      pInputBuffer (b * nFilterDepth + d) + zpI ≤ 32767)
    (hw : ∀ d, d < nFilterDepth → -32768 ≤ pWeightsBuffer (c * nFilterDepth + d) + zpF ∧
      pWeightsBuffer (c * nFilterDepth + d) + zpF ≤ 32767) :
    addBias (rowSum pInputBuffer pWeightsBuffer zpI zpF (b * nFilterDepth) (nFilterDepth * c)
        nFilterDepth) pBiasBuffer c
      = fcAcc pInputBuffer pWeightsBuffer pBiasBuffer nFilterDepth zpI zpF b c := by
  rw [Nat.mul_comm nFilterDepth c, rowSum_eq_exact _ _ _ _ _ _ _ hin hw]
  unfold addBias fcAcc
  cases pBiasBuffer <;> simp

/-- C17, as the code has it: in `adi_sharcfx_fully_connected_int16`, for a depth that is not a
multiple of 16, when every input plus the input zero point and every weight plus the filter
zero point fits in 16 bits and the exact sum of the `depth` products plus the bias term lies
in the signed 32-bit range, the value that is multiplied by the quantized multiplier (the
40-bit sum cast to `int32_t`) equals that exact sum. -/
theorem fc_int16_acc_exact (pInputBuffer pWeightsBuffer : Mem) (pBiasBuffer : Option Mem)
    (nFilterDepth : Nat) (zpI zpF : Int) (b c : Nat)
    (h16 : nFilterDepth % 16 ≠ 0)
    (hin : ∀ d, d < nFilterDepth → -32768 ≤ pInputBuffer (b * nFilterDepth + d) + zpI ∧
      pInputBuffer (b * nFilterDepth + d) + zpI ≤ 32767)
    (hw : ∀ d, d < nFilterDepth → -32768 ≤ pWeightsBuffer (c * nFilterDepth + d) + zpF ∧
      pWeightsBuffer (c * nFilterDepth + d) + zpF ≤ 32767)
    (hfit : INT32_MIN ≤ fcAcc pInputBuffer pWeightsBuffer pBiasBuffer nFilterDepth zpI zpF b c ∧
      fcAcc pInputBuffer pWeightsBuffer pBiasBuffer nFilterDepth zpI zpF b c ≤ INT32_MAX) :
    wrap32 (fc_int16_sum pInputBuffer pWeightsBuffer pBiasBuffer nFilterDepth zpI zpF b c)
      = fcAcc pInputBuffer pWeightsBuffer pBiasBuffer nFilterDepth zpI zpF b c := by
  rw [fc_int16_sum_eq, if_pos h16, addBias_rowSum_eq_fcAcc _ _ _ _ _ _ _ _ hin hw,
    wrap32_of_fits _ hfit.1 hfit.2]

theorem fc_int16_acc_exact_witness :
    wrap32 (fc_int16_sum (onesUpTo 17) (onesUpTo 17) (some rampMem) 17 0 0 0 0)
      = fcAcc (onesUpTo 17) (onesUpTo 17) (some rampMem) 17 0 0 0 0 :=
  fc_int16_acc_exact (onesUpTo 17) (onesUpTo 17) (some rampMem) 17 0 0 0 0 (by decide)
    (by decide) (by decide) (by decide)

/-- C17 fails as stated.  With `depth = 517`, every input `32767`, every weight `127`, zero
points `0` and no bias the exact sum is `2151448453`, above the 32-bit range; the 40-bit sum
is cast to `int32_t` and the value that is multiplied is `-2143518843`.  With `depth = 1`,
input `32767`, weight `1` and input zero point `1` the zero point is added in a 16-bit lane
and the value that is multiplied is `-32768` where the exact sum is `32768`.  With
`depth = 16`, a multiple of 16, and thirty-two `1`s in both buffers the loop
`nFilterCnt <= nFilterDepth` adds the sixteen products after the row and the value that is
multiplied is `32` where the exact sum is `16`. -/
theorem fc_int16_acc_exact_counterexample :
    (wrap32 (fc_int16_sum (fun _ => 32767) (fun _ => 127) none 517 0 0 0 0) = -2143518843 ∧
      fcAcc (fun _ => 32767) (fun _ => 127) none 517 0 0 0 0 = 2151448453) ∧
    (wrap32 (fc_int16_sum (fun _ => 32767) (fun _ => 1) none 1 1 0 0 0) = -32768 ∧
      fcAcc (fun _ => 32767) (fun _ => 1) none 1 1 0 0 0 = 32768) ∧
    (wrap32 (fc_int16_sum (onesUpTo 32) (onesUpTo 32) none 16 0 0 0 0) = 32 ∧
      fcAcc (onesUpTo 32) (onesUpTo 32) none 16 0 0 0 0 = 16) := by
  decide

/-! ## Concrete runs: extent of the output, bias and row isolation -/

/-- C11, a run of the code.  With `nInputLen = 16` the loop `i <= nInputLen` of each
elementwise kernel runs for `i = 0` and `i = 16` and stores a full group each time: the two
multiply kernels store 32 elements, the add kernel stores 32 elements for one batch and 96
elements for two batches of length 32.  The claim says 16, 16, 16 and 64. -/
theorem elementwise_length16_stores_extra_group :
    (adi_sharcfx_elementwise_mul_int8 rampMem rampMem 16 1 0 0 0 0 (-128) 127).length = 32 ∧
    (adi_sharcfx_elementwise_mul_int16 rampMem rampMem 16 1 0 0 0 0 (-128) 127).length = 32 ∧
    (adi_sharcfx_elementwise_add_int16 rampMem rampMem 1 16 32767 (-32768)).length = 32 ∧
    (adi_sharcfx_elementwise_add_int16 rampMem rampMem 2 32 32767 (-32768)).length = 96 := by
  decide

/-- C12, a run of the code.  Strategy B with `depth = 1`, seventeen channels, two batches,
both inputs `1`, all weights `1`, zero points `0`, no bias, multiplier `1`, shift `0`: every
batch runs the main loop for `outP = 0` and `outP = 16` and stores a full block of sixteen
each time, so 64 elements are stored, output index `0 * 17 + 16` holds `0` and batch `1`
starts at index 32, index `1 * 17 + 0` holding `0`.  The claim says 34 elements, and the
formula of the spec gives `1` at both indices. -/
theorem fc_int8_new_partial_block_stores_sixteen :
    (adi_sharcfx_fully_connected_int8_new (onesUpTo 2) (onesUpTo 17) none 1 17 2 1 0 0 0 0
      (-128) 127 zeroMem).length = 64 ∧
    (adi_sharcfx_fully_connected_int8_new (onesUpTo 2) (onesUpTo 17) none 1 17 2 1 0 0 0 0
      (-128) 127 zeroMem)[0 * 17 + 16]? = some 0 ∧
    (adi_sharcfx_fully_connected_int8_new (onesUpTo 2) (onesUpTo 17) none 1 17 2 1 0 0 0 0
      (-128) 127 zeroMem)[1 * 17 + 0]? = some 0 ∧
    (adi_sharcfx_fully_connected_int8_new (onesUpTo 2) (onesUpTo 17) none 1 17 2 1 0 0 0 0
      (-128) 127 zeroMem)[32]? = some 1 ∧
    wrap8 (Requantize (fcAcc (onesUpTo 2) (onesUpTo 17) none 1 0 0 0 16) 1 0 0 (-128) 127) = 1 ∧
    wrap8 (Requantize (fcAcc (onesUpTo 2) (onesUpTo 17) none 1 0 0 1 0) 1 0 0 (-128) 127) = 1 := by
  decide

/-- C14, a run of the code.  Strategy B with `depth = 1`, twelve channels, one batch, input
and weights `0`, `bias[c] = c`, multiplier `1`, shift `0`: the pointer to the 32-bit bias is
advanced by `PDX_M` bytes, two elements, between the loads of `vbias_l` and `vbias_h`, so the
channels `8..11` receive `bias[2..5]` and output index `8` holds `2 * bias[2] = 4`.  The
formula of the spec gives `2 * bias[8] = 16`, which Strategy A stores. -/
theorem fc_int8_new_bias_high_lanes :
    adi_sharcfx_fully_connected_int8_new zeroMem zeroMem (some rampMem) 1 12 1 1 0 0 0 0
      (-128) 127 zeroMem = [0, 2, 4, 6, 8, 10, 12, 14, 4, 6, 8, 10] ∧
    wrap8 (Requantize (fcAcc zeroMem zeroMem (some rampMem) 1 0 0 0 8) 1 0 0 (-128) 127) = 16 ∧
    adi_sharcfx_fully_connected_int8 zeroMem zeroMem (some rampMem) 1 12 1 1 0 0 0 0
      (-128) 127 = [0, 2, 4, 6, 8, 10, 12, 14, 16, 18, 20, 22] := by
  decide

/-- C15, a run of the code.  Strategy B with `depth = 1`, seventeen channels and two batches,
once without bias and once with a bias buffer of seventeen zeros after which the memory holds
`1`: the second block of batch `0` loads its bias at `pBiasBuffer + 16`, past the end of the
buffer for every lane but the first, and stores all sixteen lanes, so output index
`1 * 17 + 0` holds `0` without bias and `2` with the bias of zeros. -/
theorem fc_int8_new_zero_bias_differs :
    (adi_sharcfx_fully_connected_int8_new (onesUpTo 2) (onesUpTo 17) none 1 17 2 1 0 0 0 0
      (-128) 127 zeroMem)[1 * 17 + 0]? = some 0 ∧
    (adi_sharcfx_fully_connected_int8_new (onesUpTo 2) (onesUpTo 17) (some (zerosThenOnes 17))
      1 17 2 1 0 0 0 0 (-128) 127 zeroMem)[1 * 17 + 0]? = some 2 := by
  decide

/-- C16, two runs of the code.  The 16-bit kernel with `depth = 16`, two channels and two
batches, all weights `1`; the two input buffers both hold `1` in the row of batch `0` and
differ in the row of batch `1` (`0` in the first run, `1` in the second).  The loop
`nFilterCnt <= nFilterDepth` accumulates the sixteen elements after the row as well, so the
element of batch `0` and channel `0` is `16` in the first run and `32` in the second. -/
theorem fc_int16_depth16_not_row_isolated :
    (∀ d, d < 16 → onesUpTo 16 (0 * 16 + d) = onesUpTo 32 (0 * 16 + d)) ∧
    (adi_sharcfx_fully_connected_int16 (onesUpTo 16) (onesUpTo 32) none 16 2 2 1 0 0 0 0
      (-32768) 32767)[0 * 2 + 0]? = some 16 ∧
    (adi_sharcfx_fully_connected_int16 (onesUpTo 32) (onesUpTo 32) none 16 2 2 1 0 0 0 0
      (-32768) 32767)[0 * 2 + 0]? = some 32 := by
  decide

/-! ## Batches of the add kernel, the two multiply kernels, saturation of the add -/

/-- Both clamp orders end inside the range. -/
theorem clampMinMax_mem (x lo hi : Int) (h : lo ≤ hi) :
    lo ≤ clampMinMax x lo hi ∧ clampMinMax x lo hi ≤ hi := by
  unfold clampMinMax MIN MAX
  split_ifs <;> omega

/-- The 8-bit narrowing keeps a value of the 8-bit range. -/
theorem wrap8_of_fits (x : Int) (h1 : -128 ≤ x) (h2 : x ≤ 127) : wrap8 x = x := by
  unfold wrap8; omega

/-- The add kernel puts the element of row `b` and position `t` at index `b * stride + t`,
the stride being the number of elements that it stores for a row. -/
theorem add_int16_getElem (pInput1 pInput2 : Mem) (nBatches nInputLen : Nat)
    (kInt16Max kInt16Min : Int) (b t : Nat) (hb : b < nBatches)
    (ht : t < (if nInputLen % 16 = 0 then nInputLen + 16 else nInputLen)) :
    (adi_sharcfx_elementwise_add_int16 pInput1 pInput2 nBatches nInputLen kInt16Max
        kInt16Min)[b * (if nInputLen % 16 = 0 then nInputLen + 16 else nInputLen) + t]?
      = some (addElem pInput1 pInput2 kInt16Max kInt16Min (b * nInputLen + t)) := by
  rw [add_int16_output]
  have h : ∀ (outp : List Int) (batch : Nat),
      outp ++ (List.range (if nInputLen % 16 = 0 then nInputLen + 16 else nInputLen)).map
          (fun t => addElem pInput1 pInput2 kInt16Max kInt16Min (batch * nInputLen + t))
        = (List.range (if nInputLen % 16 = 0 then nInputLen + 16 else nInputLen)).foldl
            (fun outp c => outp ++
              [addElem pInput1 pInput2 kInt16Max kInt16Min (batch * nInputLen + c)]) outp :=
    fun outp batch => (foldl_store _ _ _).symm
  simp only [h]
  exact nestedStore_getElem
    (fun batch c => addElem pInput1 pInput2 kInt16Max kInt16Min (batch * nInputLen + c))
    nBatches _ b t hb ht

/-- C22: the two multiply entry points run the same algorithm.  For every length, inputs,
offsets, multiplier and shift, and every activation range with `-128 ≤ min ≤ max ≤ 127`, the
elements stored by `adi_sharcfx_elementwise_mul_int8` and by
`adi_sharcfx_elementwise_mul_int16` are the same integers, position by position. -/
theorem mul_int8_eq_mul_int16 (pInput1 pInput2 : Mem) (nInputLen nQuantizedMultiplier : Nat)
    (nQuantizedShift nInOffset1 nInOffset2 nOutOffset
      output_activation_min output_activation_max : Int)
    (hlo : -128 ≤ output_activation_min)
    (hlohi : output_activation_min ≤ output_activation_max)
    (hhi : output_activation_max ≤ 127) :
    adi_sharcfx_elementwise_mul_int8 pInput1 pInput2 nInputLen nQuantizedMultiplier
        nQuantizedShift nInOffset1 nInOffset2 nOutOffset output_activation_min
        output_activation_max
      = adi_sharcfx_elementwise_mul_int16 pInput1 pInput2 nInputLen nQuantizedMultiplier
        nQuantizedShift nInOffset1 nInOffset2 nOutOffset output_activation_min
        output_activation_max := by
  rw [mulInt8_output _ _ _ _ _ _ _ _ _ _ hlohi, mulInt16_output _ _ _ _ _ _ _ _ _ _ hlohi]
  apply List.map_congr_left
  intro a _
  have h : output_activation_min ≤ mulElem pInput1 pInput2 nQuantizedMultiplier
        nQuantizedShift nInOffset1 nInOffset2 nOutOffset output_activation_min
        output_activation_max a ∧
      mulElem pInput1 pInput2 nQuantizedMultiplier nQuantizedShift nInOffset1 nInOffset2
        nOutOffset output_activation_min output_activation_max a ≤ output_activation_max :=
    clampMinMax_mem _ _ _ hlohi
  rw [wrap8_of_fits _ (by omega) (by omega), wrap16_of_fits _ (by omega) (by omega)]

theorem mul_int8_eq_mul_int16_witness :
    adi_sharcfx_elementwise_mul_int8 rampMem rampMem 17 3 (-1) 1 2 3 (-128) 127
      = adi_sharcfx_elementwise_mul_int16 rampMem rampMem 17 3 (-1) 1 2 3 (-128) 127 :=
  mul_int8_eq_mul_int16 rampMem rampMem 17 3 (-1) 1 2 3 (-128) 127 (by decide) (by decide)
    (by decide)

/-! ## Identity scale -/

/-- Dividing a multiple of `2^k` by `2^k` with rounding gives the factor back. -/
theorem roundShift_mul_pow (x : Int) (k : Nat) : roundShift (x * 2 ^ k) k = x := by
  have hq : (0 : Int) < 2 ^ k := by positivity
  unfold roundShift
  generalize (2 : Int) ^ k = q at hq
  have h3 : (q / 2) / q = 0 := Int.ediv_eq_zero_of_lt (by omega) (by omega)
  by_cases hx : 0 ≤ x
  · have h0 : 0 ≤ x * q := by positivity
    rw [if_pos h0, Int.add_comm, Int.add_mul_ediv_right _ _ (by omega), h3]
    omega
  · have h0 : ¬ (0 ≤ x * q) := by
      have : x * q < 0 := mul_neg_of_neg_of_pos (by omega) hq
      omega
    rw [if_neg h0, ← neg_mul, Int.add_comm, Int.add_mul_ediv_right _ _ (by omega), h3]
    omega

/-- A multiplier `2^k` with shift `-k` is the scale `1` on a 32-bit accumulator. -/
theorem requantize_identity (x : Int) (k : Nat) (lo hi : Int)
    (hx : INT32_MIN ≤ x ∧ x ≤ INT32_MAX) :
    requantize x (2 ^ k) (-(k : Int)) 0 lo hi = clamp x lo hi := by
  rw [requantize_eq_roundingShift, clampMinMax_eq_clamp, wrap32_of_fits x hx.1 hx.2]
  have hr : roundingShift (x * ((2 ^ k : Nat) : Int)) (-(k : Int)) = x := by
    unfold roundingShift
    by_cases hk : k = 0
    · subst hk
      unfold INT32_MIN INT32_MAX at hx
      simp [clamp, INT80_MIN, INT80_MAX]
      omega
    · have hneg : ¬ (0 ≤ -(k : Int)) := by omega
      rw [if_neg hneg]
      have e : (-(-(k : Int))).toNat = k := by simp
      rw [e]
      push_cast
      exact roundShift_mul_pow x k
  rw [hr]
  have hs : saturateToInt32 x = x := by
    unfold saturateToInt32 clamp
    omega
  rw [hs, add_zero, wrap32_of_fits x hx.1 hx.2]

/-- The sum that both Strategy A kernels form for `depth = 1`, one batch, one channel, zero
points `0` and no bias is the product of the two elements. -/
theorem fc_sum_depth1 (pInputBuffer pWeightsBuffer : Mem)
    (hin : -32768 ≤ pInputBuffer 0 ∧ pInputBuffer 0 ≤ 32767)
    (hw : -32768 ≤ pWeightsBuffer 0 ∧ pWeightsBuffer 0 ≤ 32767) :
    fc_int8_sum pInputBuffer pWeightsBuffer none 1 0 0 0 0 = pInputBuffer 0 * pWeightsBuffer 0 ∧
    fc_int16_sum pInputBuffer pWeightsBuffer none 1 0 0 0 0
      = pInputBuffer 0 * pWeightsBuffer 0 := by
  rw [fc_int8_sum_eq, fc_int16_sum_eq]
  have e : wrap16 0 = 0 := by decide
  have e8 : (if 1 % 16 ≠ 0 then 1 % 16 else 1) = 1 := by decide
  have e16 : (if 1 % 16 ≠ 0 then 1 else 1 + 16) = 1 := by decide
  have r1 : List.range 1 = [0] := rfl
  simp only [addBias, rowSum, e8, e16, r1, List.map_cons, List.map_nil, List.sum_cons,
    List.sum_nil, macTerm, e, add_zero, Nat.zero_mul, Nat.mul_zero, Nat.add_zero]
  rw [wrap16_of_fits _ hin.1 hin.2, wrap16_of_fits _ hw.1 hw.2, mul_comm]
  exact ⟨rfl, rfl⟩

/-- C25: fully-connected with identity scale.  For `depth = 1`, one channel, one batch, zero
input and filter zero points, no bias, output zero point `0` and a multiplier `2^k` with
shift `-k` (the scale `1`; `k = 0` is multiplier `1`, shift `0`), the output of
`adi_sharcfx_fully_connected_int8` for a range inside 8 bits and the output of
`adi_sharcfx_fully_connected_int16` for a range inside 16 bits is the single element
`clamp(input[0] * weight[0], min, max)`. -/
theorem fc_identity_scale (pInputBuffer pWeightsBuffer : Mem) (k : Nat) (lo hi : Int)
    (hin : -32768 ≤ pInputBuffer 0 ∧ pInputBuffer 0 ≤ 32767)
    (hw : -32768 ≤ pWeightsBuffer 0 ∧ pWeightsBuffer 0 ≤ 32767)
    (hlohi : lo ≤ hi) :
    (-128 ≤ lo ∧ hi ≤ 127 →
      adi_sharcfx_fully_connected_int8 pInputBuffer pWeightsBuffer none 1 1 1 (2 ^ k)
          (-(k : Int)) 0 0 0 lo hi
        = [clamp (pInputBuffer 0 * pWeightsBuffer 0) lo hi]) ∧
    (-32768 ≤ lo ∧ hi ≤ 32767 →
      adi_sharcfx_fully_connected_int16 pInputBuffer pWeightsBuffer none 1 1 1 (2 ^ k)
          (-(k : Int)) 0 0 0 lo hi
        = [clamp (pInputBuffer 0 * pWeightsBuffer 0) lo hi]) := by
  have hs := fc_sum_depth1 pInputBuffer pWeightsBuffer hin hw
  have hp := mul16_fits32 _ _ hin.1 hin.2 hw.1 hw.2
  have hc1 : lo ≤ clamp (pInputBuffer 0 * pWeightsBuffer 0) lo hi := by
    unfold clamp; omega
  have hc2 : clamp (pInputBuffer 0 * pWeightsBuffer 0) lo hi ≤ hi := by
    unfold clamp; omega
  constructor
  · intro h
    have r1 : List.range 1 = [0] := rfl
    simp only [adi_sharcfx_fully_connected_int8, r1, List.foldl_cons, List.foldl_nil,
      List.nil_append]
    rw [hs.1, requantize_identity _ _ _ _ hp, wrap8_of_fits _ (by omega) (by omega)]
  · intro h
    have r1 : List.range 1 = [0] := rfl
    simp only [adi_sharcfx_fully_connected_int16, r1, List.foldl_cons, List.foldl_nil,
      List.nil_append]
    rw [hs.2, requantize_identity _ _ _ _ hp, wrap16_of_fits _ (by omega) (by omega)]

theorem fc_identity_scale_witness :
    adi_sharcfx_fully_connected_int8 (fun _ => 5) (fun _ => 3) none 1 1 1 (2 ^ 0)
        (-((0 : Nat) : Int)) 0 0 0 (-128) 127
      = [clamp ((fun _ => 5 : Mem) 0 * (fun _ => 3 : Mem) 0) (-128) 127] ∧
    adi_sharcfx_fully_connected_int16 (fun _ => 5) (fun _ => 3) none 1 1 1 (2 ^ 30)
        (-((30 : Nat) : Int)) 0 0 0 0 15
      = [clamp ((fun _ => 5 : Mem) 0 * (fun _ => 3 : Mem) 0) 0 15] ∧
    clamp ((fun _ => 5 : Mem) 0 * (fun _ => 3 : Mem) 0) (-128) 127 = 15 :=
  ⟨(fc_identity_scale (fun _ => 5) (fun _ => 3) 0 (-128) 127 (by decide) (by decide)
      (by decide)).1 (by decide),
    (fc_identity_scale (fun _ => 5) (fun _ => 3) 30 0 15 (by decide) (by decide)
      (by decide)).2 (by decide),
    by decide⟩

/-- With multiplier `1`, shift `0` and zero points `0` the 32-bit value of a position of the
multiply kernels is the clamped product. -/
theorem mulElem_identity (pInput1 pInput2 : Mem) (lo hi : Int) (i : Nat)
    (h1 : -32768 ≤ pInput1 i ∧ pInput1 i ≤ 32767)
    (h2 : -32768 ≤ pInput2 i ∧ pInput2 i ≤ 32767) :
    mulElem pInput1 pInput2 1 0 0 0 0 lo hi i = clamp (pInput1 i * pInput2 i) lo hi := by
  have hp := mul16_fits32 _ _ h1.1 h1.2 h2.1 h2.2
  have e : wrap16 0 = 0 := by decide
  have e1 : wrap32 ((1 : Nat) : Int) = 1 := by decide
  unfold mulElem
  rw [e, add_zero, add_zero, wrap16_of_fits _ h1.1 h1.2, wrap16_of_fits _ h2.1 h2.2,
    wrap32_of_fits _ hp.1 hp.2, requantLane_eq_roundingShift, clampMinMax_eq_clamp, e1,
    one_mul]
  have hr : roundingShift (pInput1 i * pInput2 i) 0 = pInput1 i * pInput2 i := by
    unfold INT32_MIN INT32_MAX at hp
    simp [roundingShift, clamp, INT80_MIN, INT80_MAX]
    omega
  have hs : saturateToInt32 (pInput1 i * pInput2 i) = pInput1 i * pInput2 i := by
    unfold saturateToInt32 clamp
    omega
  rw [hr, hs, add_zero, wrap32_of_fits _ hp.1 hp.2]

/-- C26: elementwise multiply with identity scale.  For zero input zero points, output zero
point `0`, shift `0` and multiplier `1` (the scale `1.0` of the formula of §4.1 at shift
`0`), every length `n` and every position `i < n` with 16-bit operands, `output[i]` of
`adi_sharcfx_elementwise_mul_int8` for a range inside 8 bits and of
`adi_sharcfx_elementwise_mul_int16` for a range inside 16 bits is
`clamp(in1[i] * in2[i], min, max)`. -/
theorem mul_identity_scale (pInput1 pInput2 : Mem) (n : Nat) (lo hi : Int) (i : Nat)
    (hin : i < n)
    (h1 : -32768 ≤ pInput1 i ∧ pInput1 i ≤ 32767)
    (h2 : -32768 ≤ pInput2 i ∧ pInput2 i ≤ 32767)
    (hlohi : lo ≤ hi) :
    (-128 ≤ lo ∧ hi ≤ 127 →
      (adi_sharcfx_elementwise_mul_int8 pInput1 pInput2 n 1 0 0 0 0 lo hi)[i]?
        = some (clamp (pInput1 i * pInput2 i) lo hi)) ∧
    (-32768 ≤ lo ∧ hi ≤ 32767 →
      (adi_sharcfx_elementwise_mul_int16 pInput1 pInput2 n 1 0 0 0 0 lo hi)[i]?
        = some (clamp (pInput1 i * pInput2 i) lo hi)) := by
  have hlen : i < (if n % 16 = 0 then n + 16 else n) := by split_ifs <;> omega
  have hc1 : lo ≤ clamp (pInput1 i * pInput2 i) lo hi := by
    unfold clamp; omega
  have hc2 : clamp (pInput1 i * pInput2 i) lo hi ≤ hi := by
    unfold clamp; omega
  rw [mulInt8_output _ _ _ _ _ _ _ _ _ _ hlohi, mulInt16_output _ _ _ _ _ _ _ _ _ _ hlohi]
  simp only [List.getElem?_map, List.getElem?_range hlen, Option.map_some']
  rw [mulElem_identity pInput1 pInput2 lo hi i h1 h2]
  constructor
  · intro h
    rw [wrap8_of_fits _ (by omega) (by omega)]
  · intro h
    rw [wrap16_of_fits _ (by omega) (by omega)]

theorem mul_identity_scale_witness :
    (adi_sharcfx_elementwise_mul_int8 (fun _ => 10) (fun _ => 10) 1 1 0 0 0 0 (-128) 127)[0]?
      = some (clamp ((fun _ => 10 : Mem) 0 * (fun _ => 10 : Mem) 0) (-128) 127) ∧
    (adi_sharcfx_elementwise_mul_int16 (fun _ => 10) (fun _ => 10) 1 1 0 0 0 0 (-128)
        127)[0]?
      = some (clamp ((fun _ => 10 : Mem) 0 * (fun _ => 10 : Mem) 0) (-128) 127) ∧
    clamp ((fun _ => 10 : Mem) 0 * (fun _ => 10 : Mem) 0) (-128) 127 = 100 :=
  ⟨(mul_identity_scale (fun _ => 10) (fun _ => 10) 1 (-128) 127 0 (by decide) (by decide)
      (by decide) (by decide)).1 (by decide),
    (mul_identity_scale (fun _ => 10) (fun _ => 10) 1 (-128) 127 0 (by decide) (by decide)
      (by decide) (by decide)).2 (by decide),
    by decide⟩

/-! ## Narrowing at the store -/

/-- The scalar pipeline ends inside the range. -/
theorem requantize_mem (acc : Int) (m : Nat) (shift zp lo hi : Int) (h : lo ≤ hi) :
    lo ≤ requantize acc m shift zp lo hi ∧ requantize acc m shift zp lo hi ≤ hi := by
  unfold requantize MIN MAX
  simp only []
  split_ifs <;> omega

/-- C29: narrowing preserves the clamped value.  For a range `-128 ≤ min ≤ max ≤ 127` the
element that `adi_sharcfx_fully_connected_int8` stores for batch `b` and channel `c` is the
32-bit clamped value `temp` itself, and every 8-bit vector store of clamped lanes (the
multiply kernel and Strategy B) stores the lanes themselves; for a range
`-32768 ≤ min ≤ max ≤ 32767` the same holds for `adi_sharcfx_fully_connected_int16` and for
every 16-bit vector store of clamped lanes (the multiply and the add kernel). -/
theorem narrowing_preserves_clamped (pInputBuffer pWeightsBuffer : Mem)
    (pBiasBuffer : Option Mem) (nFilterDepth nOutsize nBatches m : Nat)
    (shift zpI zpF zpO lo hi : Int) (b c : Nat) (hb : b < nBatches) (hc : c < nOutsize)
    (hlohi : lo ≤ hi) :
    (-128 ≤ lo ∧ hi ≤ 127 →
      (adi_sharcfx_fully_connected_int8 pInputBuffer pWeightsBuffer pBiasBuffer nFilterDepth
          nOutsize nBatches m shift zpI zpF zpO lo hi)[b * nOutsize + c]?
        = some (requantize
            (fc_int8_sum pInputBuffer pWeightsBuffer pBiasBuffer nFilterDepth zpI zpF b c)
            m shift zpO lo hi) ∧
      ∀ (v : Vec) (bytes : Int),
        PDX_SAV32_MX8 (fun l => clampMinMax (v l) lo hi) bytes
          = (List.range (min bytes.toNat PDX_M)).map (fun l => clampMinMax (v l) lo hi) ∧
        PDX_SAV32_MX8 (fun l => clampMaxMin (v l) lo hi) bytes
          = (List.range (min bytes.toNat PDX_M)).map (fun l => clampMaxMin (v l) lo hi)) ∧
    (-32768 ≤ lo ∧ hi ≤ 32767 →
      (adi_sharcfx_fully_connected_int16 pInputBuffer pWeightsBuffer pBiasBuffer nFilterDepth
          nOutsize nBatches m shift zpI zpF zpO lo hi)[b * nOutsize + c]?
        = some (requantize
            (fc_int16_sum pInputBuffer pWeightsBuffer pBiasBuffer nFilterDepth zpI zpF b c)
            m shift zpO lo hi) ∧
      ∀ (v : Vec) (bytes : Int),
        PDX_SAV32_MX16 (fun l => clampMinMax (v l) lo hi) bytes
          = (List.range (min (bytes.toNat / 2) PDX_M)).map
              (fun l => clampMinMax (v l) lo hi) ∧
        PDX_SAV32_MX16 (fun l => clampMaxMin (v l) lo hi) bytes
          = (List.range (min (bytes.toNat / 2) PDX_M)).map
              (fun l => clampMaxMin (v l) lo hi)) := by
  constructor
  · intro h
    refine ⟨?_, fun v bytes => ⟨?_, ?_⟩⟩
    · have hr := requantize_mem
        (fc_int8_sum pInputBuffer pWeightsBuffer pBiasBuffer nFilterDepth zpI zpF b c)
        m shift zpO lo hi hlohi
      rw [fc_int8_getElem _ _ _ _ _ _ _ _ _ _ _ _ _ b c hb hc, ← fc_int8_sum_eq,
        wrap8_of_fits _ (by omega) (by omega)]
    · unfold PDX_SAV32_MX8
      apply List.map_congr_left
      intro l _
      have hm := clampMinMax_mem (v l) lo hi hlohi
      show wrap8 (clampMinMax (v l) lo hi) = clampMinMax (v l) lo hi
      exact wrap8_of_fits _ (by omega) (by omega)
    · unfold PDX_SAV32_MX8
      apply List.map_congr_left
      intro l _
      have hm := clampMinMax_mem (v l) lo hi hlohi
      show wrap8 (clampMaxMin (v l) lo hi) = clampMaxMin (v l) lo hi
      rw [clampMaxMin_eq_clampMinMax _ _ _ hlohi]
      exact wrap8_of_fits _ (by omega) (by omega)
  · intro h
    refine ⟨?_, fun v bytes => ⟨?_, ?_⟩⟩
    · have hr := requantize_mem
        (fc_int16_sum pInputBuffer pWeightsBuffer pBiasBuffer nFilterDepth zpI zpF b c)
        m shift zpO lo hi hlohi
      rw [fc_int16_getElem _ _ _ _ _ _ _ _ _ _ _ _ _ b c hb hc, ← fc_int16_sum_eq,
        wrap16_of_fits _ (by omega) (by omega)]
    · unfold PDX_SAV32_MX16
      apply List.map_congr_left
      intro l _
      have hm := clampMinMax_mem (v l) lo hi hlohi
      show wrap16 (clampMinMax (v l) lo hi) = clampMinMax (v l) lo hi
      exact wrap16_of_fits _ (by omega) (by omega)
    · unfold PDX_SAV32_MX16
      apply List.map_congr_left
      intro l _
      have hm := clampMinMax_mem (v l) lo hi hlohi
      show wrap16 (clampMaxMin (v l) lo hi) = clampMaxMin (v l) lo hi
      rw [clampMaxMin_eq_clampMinMax _ _ _ hlohi]
      exact wrap16_of_fits _ (by omega) (by omega)

theorem narrowing_preserves_clamped_witness :
    (adi_sharcfx_fully_connected_int8 rampMem rampMem (some rampMem) 3 2 2 1 0 0 0 0 (-128)
        127)[1 * 2 + 1]?
      = some (requantize (fc_int8_sum rampMem rampMem (some rampMem) 3 0 0 1 1) 1 0 0 (-128)
          127) ∧
    (adi_sharcfx_fully_connected_int16 rampMem rampMem (some rampMem) 3 2 2 1 0 0 0 0 (-128)
        127)[1 * 2 + 1]?
      = some (requantize (fc_int16_sum rampMem rampMem (some rampMem) 3 0 0 1 1) 1 0 0 (-128)
          127) :=
  ⟨((narrowing_preserves_clamped rampMem rampMem (some rampMem) 3 2 2 1 0 0 0 0 (-128) 127 1 1
      (by decide) (by decide) (by decide)).1 (by decide)).1,
    ((narrowing_preserves_clamped rampMem rampMem (some rampMem) 3 2 2 1 0 0 0 0 (-128) 127 1 1
      (by decide) (by decide) (by decide)).2 (by decide)).1⟩

/-! ## Zero points in 16-bit lanes -/

/-- C30, as the code has it: the zero point is cast to a 16-bit lane and added to the 16-bit
operand in a 16-bit lane.  When `x + zp` fits in signed 16 bits the operand that enters the
multiplication is the exact `x + zp`; the lanes of a group of the multiply kernels then hold
the exact products `(in1 + zp1) * (in2 + zp2)`, and a step of Strategy A adds the exact
product `(weight + zpF) * (input + zpI)` to its lane. -/
theorem zero_point_add_exact (pInput1 pInput2 : Mem) (zp1 zp2 : Int) (p q l : Nat)
    (acc : Vec)
    (h1 : -32768 ≤ pInput1 (p + l) + zp1 ∧ pInput1 (p + l) + zp1 ≤ 32767)
    (h2 : -32768 ≤ pInput2 (q + l) + zp2 ∧ pInput2 (q + l) + zp2 ≤ 32767) :
    addZP (loadVec pInput1 p) (wrap16 zp1) l = pInput1 (p + l) + zp1 ∧
    (mulGroup pInput1 pInput2 (wrap16 zp1) (wrap16 zp2) p q).1 l
      = (pInput1 (p + l) + zp1) * (pInput2 (q + l) + zp2) ∧
    (macStep pInput1 pInput2 (wrap16 zp1) (wrap16 zp2)
        { acc := acc, inp := p, wtp := q }).acc l
      = acc l + (pInput2 (q + l) + zp2) * (pInput1 (p + l) + zp1) := by
  have e1 : wrap16 (pInput1 (p + l) + wrap16 zp1) = pInput1 (p + l) + zp1 := by
    rw [wrap16_add_wrap16, wrap16_of_fits _ h1.1 h1.2]
  have e2 : wrap16 (pInput2 (q + l) + wrap16 zp2) = pInput2 (q + l) + zp2 := by
    rw [wrap16_add_wrap16, wrap16_of_fits _ h2.1 h2.2]
  have hp := mul16_fits32 _ _ h1.1 h1.2 h2.1 h2.2
  refine ⟨e1, ?_, ?_⟩
  · simp only [mulGroup, cvt32First8, PDX_MULAQW_2MX16, addZP, loadVec, zero_add, e1, e2]
    exact wrap32_of_fits _ hp.1 hp.2
  · simp only [macStep, PDX_MULAQW_2MX16, addZP, loadVec, e1, e2]

theorem zero_point_add_exact_witness :
    addZP (loadVec rampMem 3) (wrap16 (-5)) 2 = rampMem (3 + 2) + (-5) ∧
    (mulGroup rampMem rampMem (wrap16 (-5)) (wrap16 7) 3 4).1 2
      = (rampMem (3 + 2) + (-5)) * (rampMem (4 + 2) + 7) ∧
    (macStep rampMem rampMem (wrap16 (-5)) (wrap16 7)
        { acc := zeroMem, inp := 3, wtp := 4 }).acc 2
      = zeroMem 2 + (rampMem (4 + 2) + 7) * (rampMem (3 + 2) + (-5)) :=
  zero_point_add_exact rampMem rampMem (-5) 7 3 4 2 zeroMem (by decide) (by decide)

/-- C30 fails as stated.  The operand `32767` with zero point `1` enters the multiplication
as `-32768`, not `32768`, and the operand `0` with zero point `65536` enters it as `0`: the
16-bit multiply of `[32767]` by `[1]` with `zp1 = 1`, multiplier `1`, shift `0` and range
`[-32768, 32767]` stores `-32768` where the exact product `32768` clamps to `32767`, the same
kernel with `in1 = [0]`, `zp1 = 65536` stores `0` where `65536` clamps to `32767`, and
`adi_sharcfx_fully_connected_int16` with input `[32767]`, weight `[1]` and input zero point
`1` stores `-32768`. -/
theorem zero_point_add_counterexample :
    (addZP (loadVec (fun _ => 32767) 0) (wrap16 1) 0 = -32768 ∧
      (fun _ => 32767 : Mem) (0 + 0) + 1 = 32768) ∧
    (addZP (loadVec (fun _ => 0) 0) (wrap16 65536) 0 = 0 ∧
      (fun _ => 0 : Mem) (0 + 0) + 65536 = 65536) ∧
    (adi_sharcfx_elementwise_mul_int16 (fun _ => 32767) (fun _ => 1) 1 1 0 1 0 0 (-32768)
        32767 = [-32768] ∧
      clamp ((32767 + 1) * (1 + 0)) (-32768) 32767 = 32767) ∧
    (adi_sharcfx_elementwise_mul_int16 (fun _ => 0) (fun _ => 1) 1 1 0 65536 0 0 (-32768)
        32767 = [0] ∧
      clamp ((0 + 65536) * (1 + 0)) (-32768) 32767 = 32767) ∧
    (adi_sharcfx_fully_connected_int16 (fun _ => 32767) (fun _ => 1) none 1 1 1 1 0 1 0 0
        (-32768) 32767 = [-32768] ∧
      clamp ((32767 + 1) * (1 + 0)) (-32768) 32767 = 32767) := by
  decide

/-! ## The scratch buffer of Strategy B -/

/-- C23, two runs of the code.  Strategy B with `depth = 1`, seventeen channels, two batches,
all inputs and weights `1`, zero points `0`, no bias, multiplier `1`, shift `0`, once with a
scratch buffer `pTemp` that held `0` everywhere before the call and once with one that held
`5`.  The transpose fills `pTemp[0..16]`; the block at `outP = 16` loads sixteen weights from
`pTemp + 16` and stores all sixteen lanes, so output index `1 * 17 + 0` is the product of
`input[16]` with the old content of `pTemp[17]`: `0` in the first run and `5` in the
second. -/
theorem fc_int8_new_reads_old_scratch :
    (adi_sharcfx_fully_connected_int8_new (onesUpTo 34) (onesUpTo 17) none 1 17 2 1 0 0 0 0
      (-128) 127 zeroMem)[1 * 17 + 0]? = some 0 ∧
    (adi_sharcfx_fully_connected_int8_new (onesUpTo 34) (onesUpTo 17) none 1 17 2 1 0 0 0 0
      (-128) 127 (fun _ => 5))[1 * 17 + 0]? = some 5 := by
  decide

/-! ## The block size of the transpose -/

/-- Two transformers that write the same values on the same addresses are equal. -/
theorem writesOn_unique (T1 T2 : Mem → Mem) (P : Nat → Prop) (f : Nat → Int)
    (h1 : WritesOn T1 P f) (h2 : WritesOn T2 P f) (m : Mem) : T1 m = T2 m := by
  funext a
  by_cases h : P a
  · rw [(h1 m a).1 h, (h2 m a).1 h]
  · rw [(h1 m a).2 h, (h2 m a).2 h]

/-- The innermost loop with an arbitrary block size writes the rows `i .. i + block - 1`
that exist. -/
theorem transform_inner_block (block : Nat) (inputMat : Mem) (M N i j : Nat) :
    WritesOn (fun outputMat : Mem =>
        forLoop (fun b : Nat => decide (b < block) && decide (i + b < M)) (· + 1)
          (fun b outputMat =>
            Function.update outputMat (j * M + i + b) (inputMat ((i + b) * N + j)))
          block 0 outputMat)
      (fun a => ∃ b, b < min block (M - i) ∧ a = j * M + i + b)
      (transposeVal inputMat M N) := by
  have hloop : ∀ outputMat : Mem,
      forLoop (fun b : Nat => decide (b < block) && decide (i + b < M)) (· + 1)
          (fun b outputMat =>
            Function.update outputMat (j * M + i + b) (inputMat ((i + b) * N + j)))
          block 0 outputMat
        = (List.range (min block (M - i))).foldl (fun m b =>
            (fun m : Mem => Function.update m (j * M + i + b) (inputMat ((i + b) * N + j))) m)
            outputMat := by
    intro outputMat
    rw [forLoop_eq_foldl _ _ _ block 0 outputMat (min block (M - i)) (by omega)]
    · simp only [iterate_add_nat]
      congr 1
      funext m b
      simp
    · intro b hb
      simp only [iterate_add_nat]
      simp only [Bool.and_eq_true, decide_eq_true_eq]
      omega
    · simp only [iterate_add_nat]
      simp only [Bool.and_eq_false_imp, decide_eq_true_eq, decide_eq_false_iff_not]
      omega
  simp only [hloop]
  apply writesOn_foldl_range
  intro b hb
  apply writesOn_update
  have hib : i + b < M := by omega
  unfold transposeVal
  rw [Nat.add_assoc, idx_mod M j (i + b) hib, idx_div M j (i + b) hib]

/-- The number of blocks of `block` rows that cover `M` rows. -/
theorem blocks_cover (block M : Nat) (hblock : 1 ≤ block) :
    M ≤ block * ((M + block - 1) / block) ∧
    ∀ k, k < (M + block - 1) / block → block * k < M := by
  have h1 := Nat.div_add_mod (M + block - 1) block
  have h2 := Nat.mod_lt (M + block - 1) (show block > 0 by omega)
  constructor
  · omega
  · intro k hk
    have h3 : block * (k + 1) ≤ block * ((M + block - 1) / block) :=
      Nat.mul_le_mul_left block hk
    have h4 : block * (k + 1) = block * k + block := by ring
    omega

/-- The blocked loop nest writes the transposed values on the indices `j*M + i`, whatever
the block size. -/
theorem transform_writes_block (block : Nat) (hblock : 1 ≤ block) (inputMat : Mem)
    (M N : Nat) :
    WritesOn (fun outputMat : Mem => transform_matrices_block block inputMat M N outputMat)
      (fun a => ∃ i j, i < M ∧ j < N ∧ a = j * M + i)
      (transposeVal inputMat M N) := by
  obtain ⟨hcov, hin⟩ := blocks_cover block M hblock
  have hloop : ∀ outputMat : Mem, transform_matrices_block block inputMat M N outputMat
      = (List.range ((M + block - 1) / block)).foldl (fun m k =>
          (fun m : Mem => (List.range N).foldl (fun m j =>
            (fun outputMat : Mem =>
              forLoop (fun b : Nat => decide (b < block) && decide (block * k + b < M)) (· + 1)
                (fun b outputMat =>
                  Function.update outputMat (j * M + block * k + b)
                    (inputMat ((block * k + b) * N + j)))
                block 0 outputMat) m) m) m) outputMat := by
    intro outputMat
    unfold transform_matrices_block
    rw [forLoop_eq_foldl _ _ _ M 0 outputMat ((M + block - 1) / block)]
    · simp only [iterate_add_nat, Nat.zero_add]
    · by_contra hc
      have h1 := hin M (by omega)
      have h5 : 1 * M ≤ block * M := Nat.mul_le_mul_right M hblock
      omega
    · intro k hk
      simp only [iterate_add_nat, decide_eq_true_eq, Nat.zero_add]
      exact hin k hk
    · simp only [iterate_add_nat, decide_eq_false_iff_not, Nat.zero_add]
      omega
  simp only [hloop]
  refine writesOn_congr _ _ _ _ (writesOn_foldl_range _
    (fun k a => ∃ j, j < N ∧ ∃ b, b < min block (M - block * k) ∧ a = j * M + block * k + b)
    _ _ ?_) ?_
  · intro k _
    apply writesOn_foldl_range
    intro j _
    exact transform_inner_block block inputMat M N (block * k) j
  · intro a
    constructor
    · rintro ⟨k, _, j, hj, b, hb, rfl⟩
      exact ⟨block * k + b, j, by omega, hj, by omega⟩
    · rintro ⟨i, j, hi, hj, rfl⟩
      have h6 := Nat.div_add_mod i block
      have h7 := Nat.mod_lt i (show block > 0 by omega)
      refine ⟨i / block, ?_, j, hj, i % block, by omega, by omega⟩
      exact Nat.div_lt_of_lt_mul (by omega)

/-- The plain transpose writes the transposed values on the indices `j*M + i`. -/
theorem transposePlain_writes (inputMat : Mem) (M N : Nat) :
    WritesOn (fun outputMat : Mem => transposePlain inputMat M N outputMat)
      (fun a => ∃ i j, i < M ∧ j < N ∧ a = j * M + i)
      (transposeVal inputMat M N) := by
  unfold transposePlain
  refine writesOn_congr _ _ _ _ (writesOn_foldl_range
    (fun i (m : Mem) => (List.range N).foldl (fun m j =>
      Function.update m (j * M + i) (inputMat (i * N + j))) m)
    (fun i a => i < M ∧ ∃ j, j < N ∧ a = j * M + i) _ M ?_) ?_
  · intro i hi
    refine writesOn_congr _ _ _ _ (writesOn_foldl_range
      (fun j (m : Mem) => Function.update m (j * M + i) (inputMat (i * N + j)))
      (fun j a => a = j * M + i) _ N ?_) ?_
    · intro j _
      apply writesOn_update
      unfold transposeVal
      rw [idx_mod M j i hi, idx_div M j i hi]
    · intro a
      constructor
      · rintro ⟨j, hj, rfl⟩
        exact ⟨hi, j, hj, rfl⟩
      · rintro ⟨_, j, hj, rfl⟩
        exact ⟨j, hj, rfl⟩
  · intro a
    constructor
    · rintro ⟨i, _, hi, j, hj, rfl⟩
      exact ⟨i, j, hi, hj, rfl⟩
    · rintro ⟨i, j, hi, hj, rfl⟩
      exact ⟨i, hi, hi, j, hj, rfl⟩

/-- C27: the block size of the blocked transpose does not affect its result.  For every block
size `≥ 1`, every `M` and `N` and every prior content of the destination, the blocked loop
nest leaves the same buffer as the plain transpose `for i < M, for j < N:
output[j*M + i] = input[i*N + j]`; `transform_matrices` is the loop nest with block size
`4`. -/
theorem transform_block_size_irrelevant (block : Nat) (inputMat outputMat : Mem) (M N : Nat)
    (hblock : 1 ≤ block) :
    transform_matrices_block block inputMat M N outputMat
      = transposePlain inputMat M N outputMat ∧
    transform_matrices inputMat M N outputMat
      = transform_matrices_block 4 inputMat M N outputMat ∧
    transform_matrices inputMat M N outputMat = transposePlain inputMat M N outputMat :=
  ⟨writesOn_unique _ _ _ _ (transform_writes_block block hblock inputMat M N)
      (transposePlain_writes inputMat M N) outputMat,
    rfl,
    writesOn_unique _ _ _ _ (transform_writes inputMat M N)
      (transposePlain_writes inputMat M N) outputMat⟩

theorem transform_block_size_irrelevant_witness :
    transform_matrices_block 3 rampMem 5 2 zeroMem = transposePlain rampMem 5 2 zeroMem ∧
    transform_matrices rampMem 5 2 zeroMem = transform_matrices_block 4 rampMem 5 2 zeroMem ∧
    transform_matrices rampMem 5 2 zeroMem = transposePlain rampMem 5 2 zeroMem :=
  transform_block_size_irrelevant 3 rampMem zeroMem 5 2 (by decide)

/-! ## The transpose as a permutation -/

/-- A loop over `range n` whose `j`-th body appends the list `l j` appends their
concatenation. -/
theorem foldl_flatMap {α : Type} (T : Nat → List α → List α) (l : Nat → List α) (n : Nat)
    (h : ∀ j, j < n → ∀ ws, T j ws = ws ++ l j) (ws : List α) :
    (List.range n).foldl (fun ws j => T j ws) ws = ws ++ (List.range n).flatMap l := by
  induction n with
  | zero => simp
  | succ n ih =>
    rw [List.range_succ, List.foldl_append, ih (fun j hj => h j (by omega)),
      List.flatMap_append]
    simp [h n (by omega)]

/-- The writes of the innermost loop. -/
theorem transform_inner_writes (M i j : Nat) (ws : List Nat) :
    forLoop (fun b : Nat => decide (b < 4) && decide (i + b < M)) (· + 1)
        (fun b ws => ws ++ [j * M + i + b]) 4 0 ws
      = ws ++ (List.range (min 4 (M - i))).flatMap (fun b => [j * M + i + b]) := by
  rw [forLoop_eq_foldl _ _ _ 4 0 ws (min 4 (M - i)) (by omega)]
  · simp only [iterate_add_nat, Nat.zero_add, Nat.one_mul]
    exact foldl_flatMap (fun b ws => ws ++ [j * M + i + b]) _ _ (fun _ _ _ => rfl) ws
  · intro b hb
    simp only [iterate_add_nat]
    simp only [Bool.and_eq_true, decide_eq_true_eq]
    omega
  · simp only [iterate_add_nat]
    simp only [Bool.and_eq_false_imp, decide_eq_true_eq, decide_eq_false_iff_not]
    omega

/-- The writes of the loop nest: block by block, column by column, row by row. -/
theorem transform_matrices_writes_eq (M N : Nat) :
    transform_matrices_writes M N
      = (List.range ((M + 3) / 4)).flatMap (fun k =>
          (List.range N).flatMap (fun j =>
            (List.range (min 4 (M - 4 * k))).flatMap (fun b => [j * M + 4 * k + b]))) := by
  unfold transform_matrices_writes
  simp only []
  rw [forLoop_eq_foldl _ _ _ M 0 [] ((M + 3) / 4) (by omega)]
  · simp only [iterate_add_nat, Nat.zero_add]
    rw [foldl_flatMap _ (fun k => (List.range N).flatMap (fun j =>
      (List.range (min 4 (M - 4 * k))).flatMap (fun b => [j * M + 4 * k + b])))]
    · simp
    · intro k _ ws
      exact foldl_flatMap _ _ _ (fun j _ ws => transform_inner_writes M (4 * k) j ws) ws
  · intro k hk
    simp only [iterate_add_nat, decide_eq_true_eq]
    omega
  · simp only [iterate_add_nat, decide_eq_false_iff_not]
    omega

/-- The index map `(i, j) ↦ j*M + i` stays below `M*N`. -/
theorem idx_lt (M N i j : Nat) (hi : i < M) (hj : j < N) : j * M + i < M * N := by
  have h1 : (j + 1) * M ≤ N * M := Nat.mul_le_mul_right M hj
  have h2 : (j + 1) * M = j * M + M := by ring
  have h3 : N * M = M * N := Nat.mul_comm N M
  omega

/-- The index map `(i, j) ↦ j*M + i` is injective on rows `i < M`. -/
theorem idx_inj (M i j i2 j2 : Nat) (hi : i < M) (hi2 : i2 < M)
    (h : j * M + i = j2 * M + i2) : i = i2 ∧ j = j2 := by
  have h1 := idx_mod M j i hi
  have h2 := idx_div M j i hi
  rw [h, idx_mod M j2 i2 hi2] at h1
  rw [h, idx_div M j2 i2 hi2] at h2
  exact ⟨h1.symm, h2.symm⟩

/-- The index map `(i, j) ↦ j*M + i` reaches every index below `M*N`. -/
theorem idx_surj (M N a : Nat) (ha : a < M * N) : ∃ i j, i < M ∧ j < N ∧ a = j * M + i := by
  have hM : 0 < M := by
    rcases Nat.eq_zero_or_pos M with h | h
    · subst h; simp at ha
    · exact h
  refine ⟨a % M, a / M, Nat.mod_lt a hM, Nat.div_lt_of_lt_mul ha, ?_⟩
  have := Nat.div_add_mod a M
  rw [Nat.mul_comm] at this
  omega

/-- An index is written by the loop nest exactly when it lies below `M*N`. -/
theorem mem_transform_matrices_writes (M N a : Nat) :
    a ∈ transform_matrices_writes M N ↔ a < M * N := by
  rw [transform_matrices_writes_eq]
  simp only [List.mem_flatMap, List.mem_range, List.mem_singleton]
  constructor
  · rintro ⟨k, _, j, hj, b, hb, rfl⟩
    rw [Nat.add_assoc]
    exact idx_lt M N (4 * k + b) j (by omega) hj
  · intro ha
    obtain ⟨i, j, hi, hj, rfl⟩ := idx_surj M N a ha
    exact ⟨i / 4, by omega, j, hj, i % 4, by omega, by omega⟩

/-- No index is written twice. -/
theorem nodup_transform_matrices_writes (M N : Nat) : (transform_matrices_writes M N).Nodup := by
  rw [transform_matrices_writes_eq]
  rw [List.nodup_flatMap]
  constructor
  · intro k _
    rw [List.nodup_flatMap]
    constructor
    · intro j _
      rw [List.nodup_flatMap]
      constructor
      · intro b _
        exact List.nodup_singleton _
      · refine List.Pairwise.imp ?_ (List.pairwise_lt_range _)
        intro b b2 hlt a h1 h2
        simp only [List.mem_singleton] at h1 h2
        omega
    · refine List.Pairwise.imp ?_ (List.pairwise_lt_range _)
      intro j j2 hlt a h1 h2
      simp only [List.mem_flatMap, List.mem_range, List.mem_singleton] at h1 h2
      obtain ⟨b, hb, rfl⟩ := h1
      obtain ⟨b2, hb2, h⟩ := h2
      rw [Nat.add_assoc, Nat.add_assoc] at h
      have := idx_inj M (4 * k + b) j (4 * k + b2) j2 (by omega) (by omega) h
      omega
  · refine List.Pairwise.imp ?_ (List.pairwise_lt_range _)
    intro k k2 hlt a h1 h2
    simp only [List.mem_flatMap, List.mem_range, List.mem_singleton] at h1 h2
    obtain ⟨j, _, b, hb, rfl⟩ := h1
    obtain ⟨j2, _, b2, hb2, h⟩ := h2
    rw [Nat.add_assoc, Nat.add_assoc] at h
    have := idx_inj M (4 * k + b) j (4 * k2 + b2) j2 (by omega) (by omega) h
    omega

/-- The source index of a destination index below `M*N` lies below `M*N`. -/
theorem transposeIdx_lt (M N a : Nat) (ha : a < M * N) : transposeIdx M N a < M * N := by
  obtain ⟨i, j, hi, hj, rfl⟩ := idx_surj M N a ha
  unfold transposeIdx
  rw [idx_mod M j i hi, idx_div M j i hi, Nat.mul_comm M N]
  exact idx_lt N M j i hj hi

/-- The index map of the transpose with swapped dimensions undoes the index map. -/
theorem transposeIdx_transposeIdx (M N a : Nat) (ha : a < M * N) :
    transposeIdx N M (transposeIdx M N a) = a := by
  obtain ⟨i, j, hi, hj, rfl⟩ := idx_surj M N a ha
  unfold transposeIdx
  rw [idx_mod M j i hi, idx_div M j i hi, idx_mod N i j hj, idx_div N i j hj]

/-- The source indices of the destination indices below `M*N` are the indices below `M*N`,
each once. -/
theorem transposeIdx_perm (M N : Nat) :
    ((List.range (M * N)).map (transposeIdx M N)).Perm (List.range (M * N)) := by
  refine (List.perm_ext_iff_of_nodup ?_ (List.nodup_range _)).2 ?_
  · refine List.Nodup.map_on ?_ (List.nodup_range _)
    intro a ha b hb h
    rw [List.mem_range] at ha hb
    rw [← transposeIdx_transposeIdx M N a ha, ← transposeIdx_transposeIdx M N b hb, h]
  · intro c
    simp only [List.mem_map, List.mem_range]
    constructor
    · rintro ⟨a, ha, rfl⟩
      exact transposeIdx_lt M N a ha
    · intro hc
      have hc2 : c < N * M := by rw [Nat.mul_comm]; exact hc
      refine ⟨transposeIdx N M c, ?_, transposeIdx_transposeIdx N M c hc2⟩
      rw [Nat.mul_comm]
      exact transposeIdx_lt N M c hc2

/-- The transpose stores at a destination index below `M*N` the element of its source
index. -/
theorem transform_matrices_eq_transposeIdx (inputMat outputMat : Mem) (M N a : Nat)
    (ha : a < M * N) :
    transform_matrices inputMat M N outputMat a = inputMat (transposeIdx M N a) :=
  ((transform_writes inputMat M N) outputMat a).1 (idx_surj M N a ha)

/-- C28: `transform_matrices` is a pure permutation of the `M*N` elements.  The sequence of
destination indices written by the loop nest is a rearrangement of `0, …, M*N - 1`, so every
index below `M*N` is written exactly once and no other index is written; the cells from
`M*N` on keep their content; the index map `(i, j) ↦ j*M + i` sends `[0,M) × [0,N)` into
`[0, M*N)`, is injective and reaches every index below `M*N`; and the first `M*N` cells of
the output hold the same values as the first `M*N` cells of the input, with the same
multiplicities. -/
theorem transform_matrices_permutation (inputMat outputMat : Mem) (M N : Nat) :
    (transform_matrices_writes M N).Perm (List.range (M * N)) ∧
    (∀ a, M * N ≤ a → transform_matrices inputMat M N outputMat a = outputMat a) ∧
    (∀ i j, i < M → j < N → j * M + i < M * N) ∧
    (∀ i j i2 j2, i < M → i2 < M → j * M + i = j2 * M + i2 → i = i2 ∧ j = j2) ∧
    (∀ a, a < M * N → ∃ i j, i < M ∧ j < N ∧ a = j * M + i) ∧
    ((List.range (M * N)).map (transform_matrices inputMat M N outputMat)).Perm
      ((List.range (M * N)).map inputMat) := by
  refine ⟨?_, ?_, fun i j hi hj => idx_lt M N i j hi hj,
    fun i j i2 j2 hi hi2 h => idx_inj M i j i2 j2 hi hi2 h, idx_surj M N, ?_⟩
  · exact (List.perm_ext_iff_of_nodup (nodup_transform_matrices_writes M N)
      (List.nodup_range _)).2
      (fun a => by rw [List.mem_range]; exact mem_transform_matrices_writes M N a)
  · intro a ha
    refine ((transform_writes inputMat M N) outputMat a).2 ?_
    rintro ⟨i, j, hi, hj, rfl⟩
    have := idx_lt M N i j hi hj
    omega
  · have h : (List.range (M * N)).map (transform_matrices inputMat M N outputMat)
        = ((List.range (M * N)).map (transposeIdx M N)).map inputMat := by
      rw [List.map_map]
      apply List.map_congr_left
      intro a ha
      rw [List.mem_range] at ha
      exact transform_matrices_eq_transposeIdx inputMat outputMat M N a ha
    rw [h]
    exact List.Perm.map inputMat (transposeIdx_perm M N)

theorem transform_matrices_permutation_witness :
    (transform_matrices_writes 5 3).Perm (List.range (5 * 3)) ∧
    transform_matrices rampMem 5 3 zeroMem 20 = zeroMem 20 ∧
    2 * 5 + 4 < 5 * 3 ∧
    (4 = 4 ∧ 2 = 2) ∧
    (∃ i j, i < 5 ∧ j < 3 ∧ 14 = j * 5 + i) ∧
    ((List.range (5 * 3)).map (transform_matrices rampMem 5 3 zeroMem)).Perm
      ((List.range (5 * 3)).map rampMem) :=
  have h := transform_matrices_permutation rampMem zeroMem 5 3
  ⟨h.1, h.2.1 20 (by decide), h.2.2.1 4 2 (by decide) (by decide),
    h.2.2.2.1 4 2 4 2 (by decide) (by decide) rfl, h.2.2.2.2.1 14 (by decide), h.2.2.2.2.2⟩

/-! ## The output zero point -/

/-- The clamp of the spec at a value at or above `max`, and at or below `min`. -/
theorem clamp_ends (x lo hi : Int) (hlohi : lo ≤ hi) :
    (hi ≤ x → clamp x lo hi = hi) ∧ (x ≤ lo → clamp x lo hi = lo) := by
  unfold clamp
  constructor <;> intro h <;> omega

/-- C31, as the code has it: the output zero point is added to the packed value in a 32-bit
register.  Whenever `packed + outputZeroPoint` fits in signed 32 bits, the value that is
clamped is the exact `packed + outputZeroPoint`: the scalar pipeline and, under the same
condition on its own packed value, the vector lane in either clamp order return
`clamp(packed + outputZeroPoint, min, max)`, which is `max` when `packed + outputZeroPoint ≥
max` and `min` when it is `≤ min`. -/
theorem output_zero_point_exact (acc x : Int) (m : Nat) (shift zp lo hi : Int)
    (round_mode : Nat) (hlohi : lo ≤ hi)
    (hfit : INT32_MIN ≤ PDX_PACKQSRV_80 (PDX_SLA_80 (PDX_MULW_32 (wrap32 acc) m) shift) 2 + zp ∧
      PDX_PACKQSRV_80 (PDX_SLA_80 (PDX_MULW_32 (wrap32 acc) m) shift) 2 + zp ≤ INT32_MAX) :
    requantize acc m shift zp lo hi
      = clamp (PDX_PACKQSRV_80 (PDX_SLA_80 (PDX_MULW_32 (wrap32 acc) m) shift) 2 + zp) lo hi ∧
    (hi ≤ PDX_PACKQSRV_80 (PDX_SLA_80 (PDX_MULW_32 (wrap32 acc) m) shift) 2 + zp →
      requantize acc m shift zp lo hi = hi) ∧
    (PDX_PACKQSRV_80 (PDX_SLA_80 (PDX_MULW_32 (wrap32 acc) m) shift) 2 + zp ≤ lo →
      requantize acc m shift zp lo hi = lo) ∧
    (INT32_MIN
        ≤ PDX_PACKQSRV_80 (PDX_SLA_80 (PDX_MULW_32 (wrap32 m) x) shift) round_mode + zp ∧
      PDX_PACKQSRV_80 (PDX_SLA_80 (PDX_MULW_32 (wrap32 m) x) shift) round_mode + zp
        ≤ INT32_MAX →
      clampMinMax (requantLane x (wrap32 m) shift zp round_mode) lo hi
        = clamp (PDX_PACKQSRV_80 (PDX_SLA_80 (PDX_MULW_32 (wrap32 m) x) shift) round_mode + zp)
            lo hi ∧
      clampMaxMin (requantLane x (wrap32 m) shift zp round_mode) lo hi
        = clamp (PDX_PACKQSRV_80 (PDX_SLA_80 (PDX_MULW_32 (wrap32 m) x) shift) round_mode + zp)
            lo hi) := by
  have h : requantize acc m shift zp lo hi
      = clamp (PDX_PACKQSRV_80 (PDX_SLA_80 (PDX_MULW_32 (wrap32 acc) m) shift) 2 + zp)
          lo hi := by
    rw [← clampMinMax_eq_clamp]
    unfold requantize clampMinMax
    simp only []
    rw [wrap32_of_fits _ hfit.1 hfit.2]
  refine ⟨h, fun h1 => ?_, fun h1 => ?_, fun hl => ?_⟩
  · rw [h]; exact (clamp_ends _ lo hi hlohi).1 h1
  · rw [h]; exact (clamp_ends _ lo hi hlohi).2 h1
  · rw [clampMaxMin_eq_clampMinMax _ _ _ hlohi, and_self, ← clampMinMax_eq_clamp]
    unfold requantLane
    simp only []
    rw [wrap32_of_fits _ hl.1 hl.2]

theorem output_zero_point_exact_witness :
    requantize 100 3 (-1) 7 (-128) 127
      = clamp (PDX_PACKQSRV_80 (PDX_SLA_80 (PDX_MULW_32 (wrap32 100) (3 : Nat)) (-1)) 2 + 7)
          (-128) 127 ∧
    requantize 100 3 (-1) 7 (-128) 127 = 127 ∧
    requantize (-100) 3 (-1) 7 (-128) 127 = -128 ∧
    clampMinMax (requantLane 5 (wrap32 (3 : Nat)) (-1) 7 2) (-128) 127
      = clamp (PDX_PACKQSRV_80 (PDX_SLA_80 (PDX_MULW_32 (wrap32 (3 : Nat)) 5) (-1)) 2 + 7)
          (-128) 127 :=
  ⟨(output_zero_point_exact 100 5 3 (-1) 7 (-128) 127 2 (by decide) (by decide)).1,
    (output_zero_point_exact 100 5 3 (-1) 7 (-128) 127 2 (by decide) (by decide)).2.1
      (by decide),
    (output_zero_point_exact (-100) 5 3 (-1) 7 (-128) 127 2 (by decide) (by decide)).2.2.1
      (by decide),
    ((output_zero_point_exact 100 5 3 (-1) 7 (-128) 127 2 (by decide) (by decide)).2.2.2
      (by decide)).1⟩

/-- C31 fails as stated.  With accumulator `1`, multiplier `1` and shift `40` the packed value
is `INT32_MAX`; with output zero point `1` the exact sum `INT32_MAX + 1` lies above every
`max`, yet the 32-bit addition wraps to `INT32_MIN` and the scalar pipeline returns `min`:
`adi_sharcfx_fully_connected_int16` stores `-32768` and `adi_sharcfx_elementwise_mul_int8`
stores `-128`.  With accumulator `-1` and zero point `-1` the packed `INT32_MIN` wraps to
`INT32_MAX` and the pipeline returns `max`. -/
theorem output_zero_point_counterexample :
    (PDX_PACKQSRV_80 (PDX_SLA_80 (PDX_MULW_32 (wrap32 1) (1 : Nat)) 40) 2 = INT32_MAX ∧
      requantize 1 1 40 1 (-32768) 32767 = -32768 ∧
      clamp (INT32_MAX + 1) (-32768) 32767 = 32767) ∧
    (PDX_PACKQSRV_80 (PDX_SLA_80 (PDX_MULW_32 (wrap32 (-1)) (1 : Nat)) 40) 2 = INT32_MIN ∧
      requantize (-1) 1 40 (-1) (-32768) 32767 = 32767 ∧
      clamp (INT32_MIN + -1) (-32768) 32767 = -32768) ∧
    adi_sharcfx_fully_connected_int16 (fun _ => 1) (fun _ => 1) none 1 1 1 1 40 0 0 1
      (-32768) 32767 = [-32768] ∧
    adi_sharcfx_elementwise_mul_int8 (fun _ => 1) (fun _ => 1) 1 1 40 0 0 1 (-128) 127
      = [-128] := by
  decide

/-! ## The layout of the transposed weights -/

/-- C33: the weight layout of Strategy B.  After
`transform_matrices(pWeightsBuffer, nOutsize, nFilterDepth, pTemp)`, for every channel
`c < nOutsize` and every `d < nFilterDepth`, `pTemp[d*nOutsize + c]` is
`pWeightsBuffer[c*nFilterDepth + d]`; the next cell holds the weight of channel `c + 1` at the
same `d`, the cell `nOutsize` elements further holds the weight of channel `c` at `d + 1`, and
lane `l` of the group loaded at `pTemp + outP + d*nOutsize` is the weight of channel
`outP + l` at `d`. -/
theorem transposed_weight_layout (pWeightsBuffer pTemp : Mem) (nOutsize nFilterDepth : Nat)
    (c d : Nat) (hc : c < nOutsize) (hd : d < nFilterDepth) :
    transform_matrices pWeightsBuffer nOutsize nFilterDepth pTemp (d * nOutsize + c)
      = pWeightsBuffer (c * nFilterDepth + d) ∧
    (c + 1 < nOutsize →
      transform_matrices pWeightsBuffer nOutsize nFilterDepth pTemp (d * nOutsize + c + 1)
        = pWeightsBuffer ((c + 1) * nFilterDepth + d)) ∧
    (d + 1 < nFilterDepth →
      transform_matrices pWeightsBuffer nOutsize nFilterDepth pTemp
          (d * nOutsize + c + nOutsize)
        = pWeightsBuffer (c * nFilterDepth + (d + 1))) ∧
    (∀ outP l, outP + l = c →
      loadVec (transform_matrices pWeightsBuffer nOutsize nFilterDepth pTemp)
          (outP + d * nOutsize) l
        = pWeightsBuffer ((outP + l) * nFilterDepth + d)) := by
  refine ⟨transform_matrices_at _ _ _ _ c d hc hd, fun h => ?_, fun h => ?_, ?_⟩
  · rw [Nat.add_assoc]
    exact transform_matrices_at _ _ _ _ (c + 1) d h hd
  · have e : d * nOutsize + c + nOutsize = (d + 1) * nOutsize + c := by ring
    rw [e]
    exact transform_matrices_at _ _ _ _ c (d + 1) hc h
  · intro outP l h
    subst h
    unfold loadVec
    have e : outP + d * nOutsize + l = d * nOutsize + (outP + l) := by ring
    rw [e]
    exact transform_matrices_at _ _ _ _ (outP + l) d hc hd

theorem transposed_weight_layout_witness :
    transform_matrices rampMem 5 3 zeroMem (1 * 5 + 2) = rampMem (2 * 3 + 1) ∧
    transform_matrices rampMem 5 3 zeroMem (1 * 5 + 2 + 1) = rampMem ((2 + 1) * 3 + 1) ∧
    transform_matrices rampMem 5 3 zeroMem (1 * 5 + 2 + 5) = rampMem (2 * 3 + (1 + 1)) ∧
    loadVec (transform_matrices rampMem 5 3 zeroMem) (0 + 1 * 5) 2
      = rampMem ((0 + 2) * 3 + 1) :=
  have h := transposed_weight_layout rampMem zeroMem 5 3 2 1 (by decide) (by decide)
  ⟨h.1, h.2.1 (by decide), h.2.2.1 (by decide), h.2.2.2 0 2 rfl⟩

/-! ## The two clamp orders -/

/-- C34: the two clamp orders of a sixteen-lane group.  For every `x` and every `min ≤ max`,
`MAX(MIN(x, max), min)`, applied to the first eight lanes, equals `MIN(MAX(x, min), max)`,
applied to the last eight lanes; for `min > max` the first order yields `min` and the second
yields `max`, as the full group of the 8-bit multiply shows with `min = 5`, `max = -5`. -/
theorem clamp_orders_agree (x lo hi : Int) :
    (lo ≤ hi → clampMinMax x lo hi = clampMaxMin x lo hi) ∧
    (hi < lo → clampMinMax x lo hi = lo ∧ clampMaxMin x lo hi = hi) ∧
    adi_sharcfx_elementwise_mul_int8 rampMem rampMem 17 1 0 0 0 0 5 (-5)
      = [5, 5, 5, 5, 5, 5, 5, 5, -5, -5, -5, -5, -5, -5, -5, -5, 5] := by
  refine ⟨fun h => ?_, fun h => ?_, by decide⟩
  · unfold clampMinMax clampMaxMin MIN MAX
    split_ifs <;> omega
  · unfold clampMinMax clampMaxMin MIN MAX
    constructor <;> split_ifs <;> omega

theorem clamp_orders_agree_witness :
    clampMinMax 300 (-128) 127 = clampMaxMin 300 (-128) 127 ∧
    (clampMinMax 0 5 (-5) = 5 ∧ clampMaxMin 0 5 (-5) = -5) :=
  ⟨(clamp_orders_agree 300 (-128) 127).1 (by decide),
    (clamp_orders_agree 0 5 (-5)).2.1 (by decide)⟩

/-! ## Monotonicity of the requantization -/

/-- The rounded quotient grows with its dividend. -/
theorem roundShift_mono (p1 p2 : Int) (k : Nat) (h : p1 ≤ p2) :
    roundShift p1 k ≤ roundShift p2 k := by
  have hq : (0 : Int) < 2 ^ k := by positivity
  unfold roundShift
  generalize (2 : Int) ^ k = q at hq
  have hh : 0 ≤ q / 2 := Int.ediv_nonneg (by omega) (by omega)
  by_cases h1 : 0 ≤ p1
  · have h2 : 0 ≤ p2 := by omega
    rw [if_pos h1, if_pos h2]
    exact Int.ediv_le_ediv hq (by omega)
  · rw [if_neg h1]
    by_cases h2 : 0 ≤ p2
    · rw [if_pos h2]
      have a1 : 0 ≤ (-p1 + q / 2) / q := Int.ediv_nonneg (by omega) (by omega)
      have a2 : 0 ≤ (p2 + q / 2) / q := Int.ediv_nonneg (by omega) (by omega)
      omega
    · rw [if_neg h2]
      have a : (-p2 + q / 2) / q ≤ (-p1 + q / 2) / q := Int.ediv_le_ediv hq (by omega)
      omega

/-- The shift step of the spec grows with the scaled value, whatever the sign of the
shift. -/
theorem roundingShift_mono (p1 p2 shift : Int) (h : p1 ≤ p2) :
    roundingShift p1 shift ≤ roundingShift p2 shift := by
  unfold roundingShift
  split_ifs
  · have hq : (0 : Int) < 2 ^ shift.toNat := by positivity
    have hm : p1 * 2 ^ shift.toNat ≤ p2 * 2 ^ shift.toNat :=
      Int.mul_le_mul_of_nonneg_right h (by omega)
    unfold clamp
    omega
  · exact roundShift_mono p1 p2 _ h

/-- The packed value of the spec grows with the accumulator, for a multiplier `≥ 0`. -/
theorem packed_mono (acc1 acc2 : Int) (m : Nat) (shift : Int) (h : acc1 ≤ acc2) :
    saturateToInt32 (roundingShift (acc1 * m) shift)
      ≤ saturateToInt32 (roundingShift (acc2 * m) shift) := by
  have hm : acc1 * (m : Int) ≤ acc2 * m :=
    Int.mul_le_mul_of_nonneg_right h (by omega)
  have hr := roundingShift_mono _ _ shift hm
  unfold saturateToInt32 clamp
  omega

/-- The clamp of the code grows with its argument. -/
theorem clampMinMax_mono (x y lo hi : Int) (h : x ≤ y) :
    clampMinMax x lo hi ≤ clampMinMax y lo hi := by
  unfold clampMinMax MIN MAX
  split_ifs <;> omega

/-- C35, as the code has it: the requantization is monotone in the accumulator as long as the
addition of the zero point does not wrap.  For every multiplier, shift, zero point, `min` and
`max` and every pair of 32-bit accumulators `acc1 ≤ acc2` such that the packed value of
`acc1` plus the zero point is at least `INT32_MIN` and the packed value of `acc2` plus the
zero point is at most `INT32_MAX`, the scalar pipeline gives
`requantize(acc1) ≤ requantize(acc2)`, and so does the vector lane when the multiplier is
below `2^31`. -/
theorem requantize_monotone (acc1 acc2 : Int) (m : Nat) (shift zp lo hi : Int)
    (round_mode : Nat) (h12 : acc1 ≤ acc2)
    (h1 : INT32_MIN ≤ acc1) (h2 : acc2 ≤ INT32_MAX)
    (hfit1 : INT32_MIN ≤ saturateToInt32 (roundingShift (acc1 * m) shift) + zp)
    (hfit2 : saturateToInt32 (roundingShift (acc2 * m) shift) + zp ≤ INT32_MAX) :
    requantize acc1 m shift zp lo hi ≤ requantize acc2 m shift zp lo hi ∧
    (m < 2147483648 →
      clampMinMax (requantLane acc1 (wrap32 m) shift zp round_mode) lo hi
        ≤ clampMinMax (requantLane acc2 (wrap32 m) shift zp round_mode) lo hi) := by
  have hp := packed_mono acc1 acc2 m shift h12
  have hw1 : wrap32 (saturateToInt32 (roundingShift (acc1 * m) shift) + zp)
      = saturateToInt32 (roundingShift (acc1 * m) shift) + zp :=
    wrap32_of_fits _ hfit1 (by omega)
  have hw2 : wrap32 (saturateToInt32 (roundingShift (acc2 * m) shift) + zp)
      = saturateToInt32 (roundingShift (acc2 * m) shift) + zp :=
    wrap32_of_fits _ (by omega) hfit2
  constructor
  · rw [requantize_eq_roundingShift, requantize_eq_roundingShift,
      wrap32_of_fits acc1 h1 (by omega), wrap32_of_fits acc2 (by omega) h2, hw1, hw2]
    exact clampMinMax_mono _ _ lo hi (by omega)
  · intro hm
    rw [requantLane_eq_spec _ _ _ _ _ hm, requantLane_eq_spec _ _ _ _ _ hm, hw1, hw2]
    exact clampMinMax_mono _ _ lo hi (by omega)

theorem requantize_monotone_witness :
    requantize (-7) 3 (-1) 5 (-128) 127 ≤ requantize 9 3 (-1) 5 (-128) 127 ∧
    clampMinMax (requantLane (-7) (wrap32 (3 : Nat)) (-1) 5 2) (-128) 127
      ≤ clampMinMax (requantLane 9 (wrap32 (3 : Nat)) (-1) 5 2) (-128) 127 :=
  ⟨(requantize_monotone (-7) 9 3 (-1) 5 (-128) 127 2 (by decide) (by decide) (by decide)
      (by decide) (by decide)).1,
    (requantize_monotone (-7) 9 3 (-1) 5 (-128) 127 2 (by decide) (by decide) (by decide)
      (by decide) (by decide)).2 (by decide)⟩

/-- C35 fails as stated.  With multiplier `1`, shift `0`, zero point `1` and range
`[-128, 127]` the accumulators `INT32_MAX - 1 ≤ INT32_MAX` give `127` and `-128`: the 32-bit
addition of the zero point wraps for the larger one.  With multiplier `2^31`, shift `0` and
zero point `0` the vector lane reads the multiplier as `-2^31` and the accumulators `0 ≤ 1`
give `0` and `-128`. -/
theorem requantize_monotone_counterexample :
    (INT32_MAX - 1 ≤ INT32_MAX ∧
      requantize (INT32_MAX - 1) 1 0 1 (-128) 127 = 127 ∧
      requantize INT32_MAX 1 0 1 (-128) 127 = -128) ∧
    ((0 : Int) ≤ 1 ∧
      clampMinMax (requantLane 0 (wrap32 (2147483648 : Nat)) 0 0 2) (-128) 127 = 0 ∧
      clampMinMax (requantLane 1 (wrap32 (2147483648 : Nat)) 0 0 2) (-128) 127 = -128) := by
  decide

/-! ## Commutativity of the multiply kernels -/

/-- A loop run on the image of a state under a map that commutes with its condition and its
body ends in the image of the end state. -/
theorem whileLoop_map {σ τ : Type} (f : σ → τ) (cond : σ → Bool) (body : σ → σ)
    (cond2 : τ → Bool) (body2 : τ → τ) (hc : ∀ s, cond2 (f s) = cond s)
    (hb : ∀ s, body2 (f s) = f (body s)) :
    ∀ (fuel : Nat) (s : σ),
      whileLoop cond2 body2 fuel (f s) = f (whileLoop cond body fuel s) := by
  intro fuel
  induction fuel with
  | zero => intro s; rfl
  | succ n ih =>
    intro s
    simp only [whileLoop, hc s]
    split_ifs
    · rw [hb s, ih]
    · rfl

/-- The same for a counted loop. -/
theorem forLoop_map {ι σ τ : Type} (f : σ → τ) (cond : ι → Bool) (next : ι → ι)
    (body : ι → σ → σ) (body2 : ι → τ → τ) (hb : ∀ i s, body2 i (f s) = f (body i s))
    (fuel : Nat) (start : ι) (s : σ) :
    forLoop cond next body2 fuel start (f s) = f (forLoop cond next body fuel start s) := by
  unfold forLoop
  have h := whileLoop_map (fun p : ι × σ => (p.1, f p.2)) (fun p : ι × σ => cond p.1)
    (fun p => (next p.1, body p.1 p.2)) (fun p : ι × τ => cond p.1)
    (fun p => (next p.1, body2 p.1 p.2)) (fun _ => rfl)
    (fun p => by simp only [hb]) fuel (start, s)
  simp only [] at h
  rw [h]

/-- The lanes of a group do not depend on the order of the two operands. -/
theorem mulGroup_comm (pInput1 pInput2 : Mem) (vInOff1 vInOff2 : Int) (inp1 inp2 : Nat) :
    mulGroup pInput2 pInput1 vInOff2 vInOff1 inp2 inp1
      = mulGroup pInput1 pInput2 vInOff1 vInOff2 inp1 inp2 := by
  have h : ∀ acc v1 v2 : Vec, PDX_MULAQW_2MX16 acc v2 v1 = PDX_MULAQW_2MX16 acc v1 v2 := by
    intro acc v1 v2
    funext l
    simp only [PDX_MULAQW_2MX16, mul_comm]
  unfold mulGroup
  simp only []
  rw [h]

theorem mulInt8FullGroup_swap (pInput1 pInput2 : Mem) (m : Nat)
    (shift zp1 zp2 zpo lo hi : Int) (s : EltState) :
    mulInt8FullGroup pInput2 pInput1 m shift zp2 zp1 zpo lo hi (swapPtrs s)
      = swapPtrs (mulInt8FullGroup pInput1 pInput2 m shift zp1 zp2 zpo lo hi s) := by
  simp only [mulInt8FullGroup, swapPtrs, mulGroup_comm pInput1 pInput2]

theorem mulInt8Tail_swap (pInput1 pInput2 : Mem) (m : Nat)
    (shift zp1 zp2 zpo lo hi : Int) (s : EltState) :
    mulInt8Tail pInput2 pInput1 m shift zp2 zp1 zpo lo hi (swapPtrs s)
      = mulInt8Tail pInput1 pInput2 m shift zp1 zp2 zpo lo hi s := by
  simp only [mulInt8Tail, swapPtrs, mulGroup_comm pInput1 pInput2]

theorem mulInt16FullGroup_swap (pInput1 pInput2 : Mem) (m : Nat)
    (shift zp1 zp2 zpo lo hi : Int) (s : EltState) :
    mulInt16FullGroup pInput2 pInput1 m shift zp2 zp1 zpo lo hi (swapPtrs s)
      = swapPtrs (mulInt16FullGroup pInput1 pInput2 m shift zp1 zp2 zpo lo hi s) := by
  simp only [mulInt16FullGroup, swapPtrs, mulGroup_comm pInput1 pInput2]

theorem mulInt16Tail_swap (pInput1 pInput2 : Mem) (m : Nat)
    (shift zp1 zp2 zpo lo hi : Int) (s : EltState) :
    mulInt16Tail pInput2 pInput1 m shift zp2 zp1 zpo lo hi (swapPtrs s)
      = mulInt16Tail pInput1 pInput2 m shift zp1 zp2 zpo lo hi s := by
  simp only [mulInt16Tail, swapPtrs, mulGroup_comm pInput1 pInput2]

/-- C36: the elementwise multiply is commutative in its operands.  For every length,
multiplier, shift, output zero point and activation range, the 8-bit and the 16-bit kernel
called with the two operands and their zero points exchanged store the same elements as the
original call. -/
theorem elementwise_mul_comm (pInput1 pInput2 : Mem) (nInputLen nQuantizedMultiplier : Nat)
    (nQuantizedShift nInOffset1 nInOffset2 nOutOffset
      output_activation_min output_activation_max : Int) :
    adi_sharcfx_elementwise_mul_int8 pInput2 pInput1 nInputLen nQuantizedMultiplier
        nQuantizedShift nInOffset2 nInOffset1 nOutOffset output_activation_min
        output_activation_max
      = adi_sharcfx_elementwise_mul_int8 pInput1 pInput2 nInputLen nQuantizedMultiplier
        nQuantizedShift nInOffset1 nInOffset2 nOutOffset output_activation_min
        output_activation_max ∧
    adi_sharcfx_elementwise_mul_int16 pInput2 pInput1 nInputLen nQuantizedMultiplier
        nQuantizedShift nInOffset2 nInOffset1 nOutOffset output_activation_min
        output_activation_max
      = adi_sharcfx_elementwise_mul_int16 pInput1 pInput2 nInputLen nQuantizedMultiplier
        nQuantizedShift nInOffset1 nInOffset2 nOutOffset output_activation_min
        output_activation_max := by
  have hs : ∀ n : Int, ({ inp1 := 0, inp2 := 0, nPixLeft := n, outp := [] } : EltState)
      = swapPtrs { inp1 := 0, inp2 := 0, nPixLeft := n, outp := [] } := fun _ => rfl
  constructor
  · unfold adi_sharcfx_elementwise_mul_int8
    simp only []
    split_ifs
    · rw [hs, whileLoop_map swapPtrs (fun s : EltState => decide (s.nPixLeft > 2 * PDX_M))
        (mulInt8FullGroup pInput1 pInput2 nQuantizedMultiplier nQuantizedShift nInOffset1
          nInOffset2 nOutOffset output_activation_min output_activation_max)
        (fun s : EltState => decide (s.nPixLeft > 2 * PDX_M)) _ (fun _ => rfl)
        (fun s => mulInt8FullGroup_swap _ _ _ _ _ _ _ _ _ s), mulInt8Tail_swap, ← hs]
    · rw [hs, forLoop_map swapPtrs _ _
        (fun _ s => mulInt8FullGroup pInput1 pInput2 nQuantizedMultiplier nQuantizedShift
          nInOffset1 nInOffset2 nOutOffset output_activation_min output_activation_max s)
        _ (fun _ s => mulInt8FullGroup_swap _ _ _ _ _ _ _ _ _ s)]
      rfl
  · unfold adi_sharcfx_elementwise_mul_int16
    simp only []
    split_ifs
    · rw [hs, whileLoop_map swapPtrs (fun s : EltState => decide (s.nPixLeft > 2 * PDX_M))
        (mulInt16FullGroup pInput1 pInput2 nQuantizedMultiplier nQuantizedShift nInOffset1
          nInOffset2 nOutOffset output_activation_min output_activation_max)
        (fun s : EltState => decide (s.nPixLeft > 2 * PDX_M)) _ (fun _ => rfl)
        (fun s => mulInt16FullGroup_swap _ _ _ _ _ _ _ _ _ s), mulInt16Tail_swap, ← hs]
    · rw [hs, forLoop_map swapPtrs _ _
        (fun _ s => mulInt16FullGroup pInput1 pInput2 nQuantizedMultiplier nQuantizedShift
          nInOffset1 nInOffset2 nOutOffset output_activation_min output_activation_max s)
        _ (fun _ s => mulInt16FullGroup_swap _ _ _ _ _ _ _ _ _ s)]
      rfl

/-! ## The full groups of a row in Strategy A -/

/-- The bound of the full-group loop is never positive for a depth that is not a multiple of
16, so that loop does not run. -/
theorem nFilterDepth_16mul_nonpos (nFilterDepth : Nat) (h : nFilterDepth % 16 ≠ 0) :
    nFilterDepth_16mul nFilterDepth ≤ 0 := by
  unfold nFilterDepth_16mul
  have h1 : (1 : Int) ≤ (nFilterDepth : Int) % 16 := by omega
  have h2 : (0 : Int) ≤ nFilterDepth := by omega
  nlinarith

/-- The sum of the 8-bit kernel for a depth that is not a multiple of 16 is the masked step
after the loop with bound `nFilterDepth_16mul`. -/
theorem fc_int8_sum_loop (pInputBuffer pWeightsBuffer : Mem) (pBiasBuffer : Option Mem)
    (nFilterDepth : Nat) (nInputOffset nFilterOffset : Int) (b nChannelCnt : Nat)
    (h : nFilterDepth % 16 ≠ 0) :
    fc_int8_sum pInputBuffer pWeightsBuffer pBiasBuffer nFilterDepth nInputOffset
        nFilterOffset b nChannelCnt
      = addBias (PDX_RADD_2MX40
          (macTail pInputBuffer pWeightsBuffer (wrap16 nInputOffset) (wrap16 nFilterOffset)
            nFilterDepth
            (forLoop
              (fun nPixProcessed : Int =>
                decide (nPixProcessed < nFilterDepth_16mul nFilterDepth))
              (· + 2 * PDX_M)
              (fun _ s => macStep pInputBuffer pWeightsBuffer (wrap16 nInputOffset)
                (wrap16 nFilterOffset) s)
              (nFilterDepth + 1) 0
              { acc := fun _ => 0, inp := b * nFilterDepth
                wtp := nFilterDepth * nChannelCnt }))) pBiasBuffer nChannelCnt := by
  unfold fc_int8_sum
  simp only [h, ne_eq, not_false_eq_true, if_true]
  rfl

/-- C32, a run of the code.  For `depth = 17` the mask `(1 << (17 % 16)) - 1` is `1`, bit `0`
alone.  With all inputs and weights `1` the sum counts the indices that are accumulated:
`adi_sharcfx_fully_connected_int16` accumulates 17, the one full group and the masked lane,
and `adi_sharcfx_fully_connected_int8` accumulates 1, since its full-group loop does not run
and the masked lane is taken at the start of the row; with input `0` at index `0` and `1` at
the indices `1..16` its sum is `0`, so none of the indices `1..16` is covered.  The claim says
`floor(17/16) = 1` full group and every index `0..16` once. -/
theorem fc_int8_tail_skips_full_groups :
    ((1 <<< (17 % 16)) - 1 : Nat) = 1 ∧
    fc_int16_sum (onesUpTo 17) (onesUpTo 17) none 17 0 0 0 0 = 17 ∧
    fc_int8_sum (onesUpTo 17) (onesUpTo 17) none 17 0 0 0 0 = 1 ∧
    fc_int8_sum (zerosThenOnes 1) (onesUpTo 17) none 17 0 0 0 0 = 0 ∧
    fcAcc (zerosThenOnes 1) (onesUpTo 17) none 17 0 0 0 0 = 16 ∧
    17 / 16 = 1 := by
  decide

/-- C38, a run of the code.  For `depth = 33` the bound `nFilterDepth_16mul` is
`33 - (33 % 16) * 33 = 0` and for `depth = 18` it is `18 - 2 * 18 = -18`, where the claim says
`depth - depth % 16`, that is `32` and `16`.  The loop
`for (nPixProcessed = 0; nPixProcessed < nFilterDepth_16mul; nPixProcessed += 16)` runs `0`
times for `depth = 33`, not `floor(33/16) = 2` times, and with all inputs and weights `1` the
kernel accumulates `1` product where the row has `33`. -/
theorem fc_int8_loop_bound_not_multiple :
    (nFilterDepth_16mul 33 = 0 ∧ (33 : Int) - 33 % 16 = 32) ∧
    (nFilterDepth_16mul 18 = -18 ∧ (18 : Int) - 18 % 16 = 16) ∧
    (forLoop (fun nPixProcessed : Int => decide (nPixProcessed < nFilterDepth_16mul 33))
        (· + 2 * PDX_M) (fun _ (trips : Nat) => trips + 1) (33 + 1) 0 0 = 0 ∧
      33 / 16 = 2) ∧
    (fc_int8_sum (onesUpTo 33) (onesUpTo 33) none 33 0 0 0 0 = 1 ∧
      fcAcc (onesUpTo 33) (onesUpTo 33) none 33 0 0 0 0 = 33) := by
  decide

/-! ## The two strategies on small shapes -/

/-- C37, a run of the code.  `depth = 2`, nine channels, two batches, `input[i] = i`, all
weights `1`, `bias[c] = c`, zero points `0`, multiplier `1`, shift `0`, range `[-128, 127]`.
The reference value at `(b, c)` is `Σ_d input[b,d] + 2*c`, that is `1 + 2c` for batch `0` and
`5 + 2c` for batch `1`, and Strategy A stores these eighteen values.  Strategy B stores
eighteen elements too, but channel `8` receives `2*bias[2]`: index `0*9 + 8` holds `5` where
the reference is `17`, and index `1*9 + 8` holds `9` where the reference is `21`.  Without
bias the two strategies store the same elements. -/
theorem fc_int8_new_small_shape_bias :
    adi_sharcfx_fully_connected_int8 rampMem (onesUpTo 18) (some rampMem) 2 9 2 1 0 0 0 0
      (-128) 127
      = (List.range 2).flatMap (fun b => (List.range 9).map (fun c =>
          wrap8 (Requantize (fcAcc rampMem (onesUpTo 18) (some rampMem) 2 0 0 b c) 1 0 0
            (-128) 127))) ∧
    adi_sharcfx_fully_connected_int8_new rampMem (onesUpTo 18) (some rampMem) 2 9 2 1 0 0 0 0
      (-128) 127 zeroMem
      = [1, 3, 5, 7, 9, 11, 13, 15, 5, 5, 7, 9, 11, 13, 15, 17, 19, 9] ∧
    wrap8 (Requantize (fcAcc rampMem (onesUpTo 18) (some rampMem) 2 0 0 0 8) 1 0 0 (-128) 127)
      = 17 ∧
    wrap8 (Requantize (fcAcc rampMem (onesUpTo 18) (some rampMem) 2 0 0 1 8) 1 0 0 (-128) 127)
      = 21 ∧
    adi_sharcfx_fully_connected_int8_new rampMem (onesUpTo 18) none 2 9 2 1 0 0 0 0
      (-128) 127 zeroMem
      = adi_sharcfx_fully_connected_int8 rampMem (onesUpTo 18) none 2 9 2 1 0 0 0 0
          (-128) 127 := by
  decide

/-! ## Declared outputs of the elementwise kernels -/

/-- C21, a run of the code.  Three batches of length 16, `pInput1[i] = i`, `pInput2 = 0`,
range `[-32768, 32767]`.  The declared output of the joint call, its first 48 elements, is
not the concatenation of the declared outputs of the three single-batch calls on the rows:
every batch of the joint call stores 32 elements through a pointer that is never reset, so
index `2*16 + 0` holds `a[16] + b[16] = 16`, where the single-batch call on row `2` gives
`a[32] + b[32] = 32`. -/
theorem add_int16_joint_differs_from_rows :
    (adi_sharcfx_elementwise_add_int16 rampMem zeroMem 3 16 32767 (-32768)).take (3 * 16)
      ≠ (adi_sharcfx_elementwise_add_int16 (offsetMem rampMem (0 * 16))
            (offsetMem zeroMem (0 * 16)) 1 16 32767 (-32768)).take 16
        ++ (adi_sharcfx_elementwise_add_int16 (offsetMem rampMem (1 * 16))
            (offsetMem zeroMem (1 * 16)) 1 16 32767 (-32768)).take 16
        ++ (adi_sharcfx_elementwise_add_int16 (offsetMem rampMem (2 * 16))
            (offsetMem zeroMem (2 * 16)) 1 16 32767 (-32768)).take 16 ∧
    (adi_sharcfx_elementwise_add_int16 rampMem zeroMem 3 16 32767 (-32768))[2 * 16 + 0]?
      = some 16 ∧
    (adi_sharcfx_elementwise_add_int16 (offsetMem rampMem (2 * 16))
      (offsetMem zeroMem (2 * 16)) 1 16 32767 (-32768))[0]? = some 32 ∧
    (adi_sharcfx_elementwise_add_int16 rampMem zeroMem 3 17 32767 (-32768)).take (3 * 17)
      = (adi_sharcfx_elementwise_add_int16 (offsetMem rampMem (0 * 17))
            (offsetMem zeroMem (0 * 17)) 1 17 32767 (-32768)).take 17
        ++ (adi_sharcfx_elementwise_add_int16 (offsetMem rampMem (1 * 17))
            (offsetMem zeroMem (1 * 17)) 1 17 32767 (-32768)).take 17
        ++ (adi_sharcfx_elementwise_add_int16 (offsetMem rampMem (2 * 17))
            (offsetMem zeroMem (2 * 17)) 1 17 32767 (-32768)).take 17 := by
  decide

/-- C24, a run of the code.  The two examples of the spec hold: one batch of length 1 with
inputs `[100]` and `[50]` and range `[-128, 127]` gives `[127]`, and `[-100]` and `[-50]`
give `[-128]`.  For three batches of length 16 with `a[32] = 100`, `b[32] = 50`, every other
element `0` and the same range, `a[32] + b[32] = 150 ≥ max`, but the output at the place of
that pair, index `2*16 + 0`, holds `0`: every batch stores 32 elements through a pointer
that is never reset, so index 32 receives `a[16] + b[16]`, and the saturated `127` is stored
at index `64`, outside the 48 declared elements. -/
theorem add_int16_saturated_pair_misplaced :
    adi_sharcfx_elementwise_add_int16 (fun _ => 100) (fun _ => 50) 1 1 127 (-128) = [127] ∧
    adi_sharcfx_elementwise_add_int16 (fun _ => -100) (fun _ => -50) 1 1 127 (-128)
      = [-128] ∧
    (127 ≤ (fun i => if i = 32 then 100 else 0 : Mem) (2 * 16 + 0)
        + (fun i => if i = 32 then 50 else 0 : Mem) (2 * 16 + 0) ∧
      (adi_sharcfx_elementwise_add_int16 (fun i => if i = 32 then 100 else 0)
        (fun i => if i = 32 then 50 else 0) 3 16 127 (-128))[2 * 16 + 0]? = some 0 ∧
      (adi_sharcfx_elementwise_add_int16 (fun i => if i = 32 then 100 else 0)
        (fun i => if i = 32 then 50 else 0) 3 16 127 (-128))[64]? = some 127) := by
  decide

end SharcFX
